import Mathlib

/-!
Verification of the import-classification and dependency-staging engine of the
`python-package-folder` repository.

The development shallowly embeds the Python sources (`analyzer.py`, `finder.py`,
`manager.py`, `types.py`) over an explicit file-system model:

* Python strings are modelled as `List Char` (`Seg`), so that every string
  operation used by the code (`split`, `startswith`, `endswith`, suffix
  handling) is an executable structural function.
* `pathlib.Path` values are modelled as `PPF.Path := List Seg` — the list of
  path components below the file-system root, as produced by `Path.parts`.
* The on-disk state is an association list from paths to nodes
  (regular file with content, or directory).  All file-system
  primitives used by the code (`exists`, `is_file`, `is_dir`, `mkdir`,
  `rglob`, `shutil.copy2`, `shutil.rmtree`, `unlink`, `rmdir`) are modelled as
  total functions on this state.
* Environment-dependent probes (the stdlib-module set, the
  `importlib`-based third-party check, reading and `ast`-parsing file text)
  are capabilities carried in a context record, mirroring §9 of the design
  notes (narrow capability interface for runtime introspection).

Recursive directory traversals of the Python code (`shutil.copytree`-style
copying, `rglob`) are modelled as flat folds over the association list; doc
comments on the corresponding definitions explain the flattening.
-/

set_option autoImplicit false

namespace PPF

/-- Characters of a Python string; `Seg` is also used for one path component. -/
abbrev Seg := List Char

/-- Convert a Lean string literal into the character-list model. -/
def str (s : String) : Seg := s.data

/-- Model of Python `str.split(sep)` for a one-character separator.
Mirrors Python semantics: `"".split(".") == [""]`, `".b".split(".") == ["", "b"]`. -/
def splitOnChar (c : Char) (s : Seg) : List Seg :=
  match s with
  | [] => [[]]
  | a :: rest =>
    let r := splitOnChar c rest
    if a = c then [] :: r
    else
      match r with
      | [] => [[a]]
      | h :: t => (a :: h) :: t

/-- Model of Python `str.startswith`. -/
def segStartsWith (s pat : Seg) : Bool := pat.isPrefixOf s

/-- Model of Python `str.endswith`. -/
def segEndsWith (s pat : Seg) : Bool := pat.isSuffixOf s

/-- Model of Python `sub in s` (substring containment). -/
def segContains (s pat : Seg) : Bool := s.tails.any (fun t => pat.isPrefixOf t)

/-- Position of the last dot of a name that is not at position 0
(the dot that starts `pathlib`'s suffix), if any. -/
def lastDotPos (s : Seg) : Option Nat :=
  ((List.range s.length).filter
    (fun i => decide (0 < i) && decide (s.getD i (' ') = ('.')))).getLast?

/-- Model of `pathlib.PurePath.suffix` applied to a file name. -/
def nameSuffix (s : Seg) : Seg :=
  match lastDotPos s with
  | some i => s.drop i
  | none => []

/-- A file-system path: the list of components below the root, as in
`pathlib.Path.parts` (without the leading `/`).  The root itself is `[]`. -/
abbrev Path := List Seg

/-- Model of `pathlib.Path.parent` (the parent of the root is the root). -/
def parentOf (p : Path) : Path := p.dropLast

/-- Model of `pathlib.Path.name` (the name of the root is the empty string). -/
def nameOf (p : Path) : Seg := p.getLast?.getD []

/-- Model of `pathlib.Path.parents`: every proper ancestor, nearest first,
ending with the root `[]`. -/
def parentsOf (p : Path) : List Path :=
  (List.range p.length).reverse.map (fun n => p.take n)

/-- Model of `pathlib.Path.is_relative_to` (true also when the paths are equal). -/
def isRelTo (p base : Path) : Bool := base.isPrefixOf p

/-- Strict descendant test: `q` lies strictly below `p`. -/
def strictUnder (p q : Path) : Bool := p.isPrefixOf q && !(q == p)

/-- The string `".py"`. -/
def pyExt : Seg := str (".py")

/-- The string `"__init__.py"`. -/
def initName : Seg := str ("__init__.py")

/-- The string `".egg-info"`. -/
def eggInfoSuffix : Seg := str (".egg-info")

/-- Model of `pathlib.PurePath.with_suffix(".py")`. -/
def with_suffix_py (p : Path) : Path :=
  let name := nameOf p
  let stem :=
    match lastDotPos name with
    | some i => name.take i
    | none => name
  parentOf p ++ [stem ++ pyExt]

/-- Model of joining a path with a slash-separated string, as in Python's
`base / module_name.replace(".", "/")`: empty components are dropped, and a
leading slash makes the result absolute (discarding `base`), which is what
`pathlib`'s `/` operator does with an absolute right operand. -/
def pathJoinSlashed (base : Path) (s : Seg) : Path :=
  let parts := (splitOnChar ('/') s).filter (fun x => !(x == []))
  if s.headD (' ') = ('/') then parts else base ++ parts

/-- Replace every dot with a slash, as in `module_name.replace(".", "/")`. -/
def dotsToSlashes (s : Seg) : Seg :=
  s.map (fun c => if c = ('.') then ('/') else c)

/-! ### File-system model -/

/-- One file-system node: a regular file with its text content, or a directory. -/
inductive Node where
  | file (content : Seg)
  | dir
deriving DecidableEq

/-- The file-system state: an association list from absolute paths to nodes.
Lookups take the first matching entry. -/
structure FS where
  entries : List (Path × Node)
deriving DecidableEq

/-- First-match lookup in an entry list. -/
def findEntry : List (Path × Node) → Path → Option Node
  | [], _ => none
  | e :: rest, p => if e.1 = p then some e.2 else findEntry rest p

/-- Look up the node stored at a path. -/
def FS.find (fs : FS) (p : Path) : Option Node := findEntry fs.entries p

/-- Model of `Path.exists()`. -/
def FS.existsAt (fs : FS) (p : Path) : Bool := (fs.find p).isSome

/-- Model of `Path.is_file()`. -/
def FS.isFile (fs : FS) (p : Path) : Bool :=
  match fs.find p with
  | some (Node.file _) => true
  | _ => false

/-- Model of `Path.is_dir()`. -/
def FS.isDir (fs : FS) (p : Path) : Bool :=
  match fs.find p with
  | some Node.dir => true
  | _ => false

/-- Content of the file stored at a path (empty if absent or a directory). -/
def FS.contentAt (fs : FS) (p : Path) : Seg :=
  match fs.find p with
  | some (Node.file c) => c
  | _ => []

/-- Remove every entry stored exactly at `p` (model of `unlink` / `rmdir`
after their preconditions hold). -/
def FS.removeAll (fs : FS) (p : Path) : FS :=
  ⟨fs.entries.filter (fun e => !(e.1 == p))⟩

/-- Store a node at `p`, replacing any previous entry. -/
def FS.setEntry (fs : FS) (p : Path) (n : Node) : FS :=
  ⟨(p, n) :: (fs.removeAll p).entries⟩

/-- Model of writing a file (`shutil.copy2` target side, `Path.write_text`). -/
def FS.setFile (fs : FS) (p : Path) (c : Seg) : FS := fs.setEntry p (Node.file c)

/-- Model of `Path.mkdir(exist_ok=True)`: create a directory entry unless the
path already exists.  (If the path exists as a regular file the real call
raises; theorems below carry well-formedness hypotheses ruling that out.) -/
def FS.mkdirAt (fs : FS) (p : Path) : FS :=
  if (fs.find p).isSome then fs else ⟨(p, Node.dir) :: fs.entries⟩

/-- Model of `Path.mkdir(parents=True, exist_ok=True)`: create every missing
prefix of `p` (including `p` itself) as a directory. -/
def FS.mkdirp (fs : FS) (p : Path) : FS :=
  ((List.range (p.length + 1)).map (fun n => p.take n)).foldl FS.mkdirAt fs

/-- Model of `shutil.rmtree`: remove `p` and everything below it. -/
def FS.rmtree (fs : FS) (p : Path) : FS :=
  ⟨fs.entries.filter (fun e => !(p.isPrefixOf e.1))⟩

/-- Whether any entry lies strictly below `p` (model of
`any(p.iterdir())` on well-formed states, where a directory is non-empty
iff some entry lies strictly below it). -/
def FS.hasDesc (fs : FS) (p : Path) : Bool :=
  fs.entries.any (fun e => strictUnder p e.1)

/-- Whether some entry strictly below `p` has a name ending in `.py`
(model of `any(p.rglob("*.py"))`). -/
def FS.hasPyUnder (fs : FS) (p : Path) : Bool :=
  fs.entries.any (fun e => strictUnder p e.1 && segEndsWith (nameOf e.1) pyExt)

/-- Names of the `*.py` entries strictly below `p`
(model of `{f.name for f in p.rglob("*.py")}`; `rglob` matches names, so the
model does not restrict to regular files either). -/
def FS.pyNamesUnder (fs : FS) (p : Path) : List Seg :=
  fs.entries.filterMap
    (fun e =>
      if strictUnder p e.1 && segEndsWith (nameOf e.1) pyExt then some (nameOf e.1) else none)

/-- Well-formedness of a file-system state: no duplicate paths, the root is a
directory, and the parent of every entry is a directory entry
(so the state looks like a real file tree). -/
structure FS.WF (fs : FS) : Prop where
  nodupKeys : (fs.entries.map Prod.fst).Nodup
  rootDir : fs.find [] = some Node.dir
  parentDir : ∀ p n, (p, n) ∈ fs.entries → p ≠ [] → fs.find (parentOf p) = some Node.dir

/-- Duplicate-freeness of the stored paths (the first component of `FS.WF`,
preserved by every operation of the model). -/
def KeyNodup (fs : FS) : Prop := (fs.entries.map Prod.fst).Nodup

/-- Extensional equality of file-system states: equal lookup results
everywhere. -/
def FS.Equiv (fs fs' : FS) : Prop := ∀ q, fs.find q = fs'.find q

/-! ### Data model (`types.py`) -/

/-- Classification of one import (`ImportInfo.classification` in `types.py`):
`stdlib`, `third_party`, `local` (in-tree), `external` (out-of-tree) or
`ambiguous`.  The Python value `"local"` is named `localDep` because `local`
is reserved in Lean. -/
inductive Classification where
  | stdlib
  | third_party
  | localDep
  | external
  | ambiguous
deriving DecidableEq

/-- Kind of import statement (`ImportInfo.import_type`). -/
inductive ImportType where
  | plainImport
  | fromImport
deriving DecidableEq

/-- Model of the `ImportInfo` dataclass of `types.py`. -/
structure ImportInfo where
  module_name : Seg
  import_type : ImportType
  from_module : Option Seg := none
  line_number : Nat := 0
  file_path : Option Path := none
  classification : Option Classification := none
  resolved_path : Option Path := none
deriving DecidableEq

/-- Model of the `ExternalDependency` dataclass of `types.py`. -/
structure ExternalDependency where
  source_path : Path
  target_path : Path
  import_name : Seg
  file_path : Path
deriving DecidableEq

/-! ### Import extraction (`analyzer.py`, `extract_imports`) -/

/-- Abstract syntax of the statements relevant to extraction, as delivered by
`ast.walk` (already flattened: `ast.walk` yields nested statements too, so the
model takes the flat list of `Import`/`ImportFrom` nodes in walk order).
`importFrom none lvl ln` is a `from . import x`-style statement whose module
part is omitted (`node.module is None`, `node.level = lvl`). -/
inductive PyStmt where
  | importStmt (names : List Seg) (lineno : Nat)
  | importFrom (module : Option Seg) (level : Nat) (lineno : Nat)
deriving DecidableEq

/-- Parsed form of one source file: its import-relevant AST nodes. -/
structure PyModule where
  body : List PyStmt
deriving DecidableEq

/-- Failure modes of reading-and-parsing a file that `extract_imports`
catches: `ast.parse` syntax errors and text decode errors. -/
inductive ParseFailure where
  | syntaxErr
  | decodeErr
deriving DecidableEq

/-- Model of `ImportAnalyzer.extract_imports`.  Reading and parsing the file
is the fallible capability `parsed`; the `Except.error` branch is the
`except (SyntaxError, UnicodeDecodeError)` handler, which logs and returns the
empty list.  For `ast.Import` nodes one record per alias is produced; for
`ast.ImportFrom` nodes the code guards on the truthiness of `node.module`
(`if node.module:`), so statements with an omitted or empty module part
produce nothing. -/
def extract_imports (file_path : Path) (parsed : Except ParseFailure PyModule) :
    List ImportInfo :=
  match parsed with
  | Except.error _ => []
  | Except.ok m =>
    m.body.flatMap
      (fun s =>
        match s with
        | PyStmt.importStmt names ln =>
          names.map
            (fun n =>
              { module_name := n, import_type := ImportType.plainImport,
                line_number := ln, file_path := some file_path })
        | PyStmt.importFrom mo _ ln =>
          match mo with
          | some mstr =>
            if mstr = [] then []
            else
              [{ module_name := mstr, import_type := ImportType.fromImport,
                 from_module := some mstr, line_number := ln,
                 file_path := some file_path }]
          | none => [])

/-! ### Import classification (`analyzer.py`, `classify_import`) -/

/-- Context of an `ImportAnalyzer`: the project root plus the two
environment-dependent capabilities — the cached stdlib module-name set
(`get_stdlib_modules`) and the `importlib`-based third-party probe
(`is_third_party`). -/
structure AnalyzerCtx where
  project_root : Path
  stdlib_modules : List Seg
  third_party : Seg → Bool

/-- First dotted component of a module name (`module_name.split(".")[0]`). -/
def rootModuleOf (module_name : Seg) : Seg :=
  (splitOnChar ('.') module_name).headD []

/-- Last dotted component of a module name (`module_name.split(".")[-1]`). -/
def lastModuleOf (module_name : Seg) : Seg :=
  (splitOnChar ('.') module_name).getLastD []

/-- Try the three sub-strategies of the relative branch of
`resolve_local_import` at a candidate path: `<path>/__init__.py`,
`<path>.py` (via `with_suffix`), `<path>` as a directory with a marker. -/
def tryRelativeProbes (fs : FS) (potential : Path) : Option Path :=
  if fs.existsAt (potential ++ [initName]) then some (potential ++ [initName])
  else if fs.existsAt (with_suffix_py potential) then some (with_suffix_py potential)
  else if fs.isDir potential && fs.existsAt (potential ++ [initName]) then
    some (potential ++ [initName])
  else none

/-- One step of the upward walk of `resolve_local_import`: probe a candidate
ancestor directory for the module as a package directory, as a file with the
source extension, or as a flat same-named file directly inside the ancestor. -/
def tryAncestorProbes (fs : FS) (parent : Path) (module_name : Seg) : Option Path :=
  let potential := pathJoinSlashed parent (dotsToSlashes module_name)
  if fs.isDir potential && fs.existsAt (potential ++ [initName]) then
    some (potential ++ [initName])
  else if fs.isFile (with_suffix_py potential) then some (with_suffix_py potential)
  else if fs.existsAt (parent ++ [lastModuleOf module_name ++ pyExt]) then
    some (parent ++ [lastModuleOf module_name ++ pyExt])
  else none

/-- The upward walk of `resolve_local_import` over `check_dirs`
(`[src_dir.parent] + list(src_dir.parents)`), stopping (`break`) at the
project root's parent, skipping ancestors that do not exist. -/
def resolveAncestorWalk (ctx : AnalyzerCtx) (fs : FS) (module_name : Seg) :
    List Path → Option Path
  | [] => none
  | parent :: rest =>
    if parent = parentOf ctx.project_root then none
    else if !(fs.existsAt parent) then resolveAncestorWalk ctx fs module_name rest
    else
      match tryAncestorProbes fs parent module_name with
      | some p => some p
      | none => resolveAncestorWalk ctx fs module_name rest

/-- Model of `ImportAnalyzer.resolve_local_import`: relative handling (names
starting with a dot), the four absolute candidates under the source root and
the project root, then the upward ancestor walk. -/
def resolve_local_import (ctx : AnalyzerCtx) (fs : FS) (import_info : ImportInfo)
    (src_dir : Path) : Option Path :=
  let module_name := import_info.module_name
  let relativeResult : Option Path :=
    match import_info.file_path with
    | none => none
    | some fp =>
      let file_dir := parentOf fp
      if segStartsWith module_name (str (".")) then
        let parts := splitOnChar ('.') module_name
        let level := (parts.filter (fun p => p == [])).length
        let module_parts := parts.filter (fun p => !(p == []))
        let base_path :=
          if 0 < level then (List.range (level - 1)).foldl (fun q _ => parentOf q) file_dir
          else file_dir
        let potential_path := base_path ++ module_parts
        tryRelativeProbes fs potential_path
      else none
  match relativeResult with
  | some p => some p
  | none =>
    let module_path_str := dotsToSlashes module_name
    let candidates : List Path :=
      [pathJoinSlashed src_dir module_path_str ++ [initName],
       with_suffix_py (pathJoinSlashed src_dir module_path_str),
       pathJoinSlashed ctx.project_root module_path_str ++ [initName],
       with_suffix_py (pathJoinSlashed ctx.project_root module_path_str)]
    match candidates.find? (fun p => fs.existsAt p) with
    | some p => some p
    | none =>
      let check_dirs := parentOf src_dir :: parentsOf src_dir
      resolveAncestorWalk ctx fs module_name check_dirs

/-- Model of `ImportAnalyzer.classify_import`.  The in-place mutation of the
Python code is modelled functionally: the returned record carries the
`classification` and `resolved_path` fields the call writes.  Order of the
branches follows the code: stdlib first, then local resolution, then the
third-party probe, then `ambiguous`. -/
def classify_import (ctx : AnalyzerCtx) (fs : FS) (import_info : ImportInfo)
    (src_dir : Path) : ImportInfo :=
  if rootModuleOf import_info.module_name ∈ ctx.stdlib_modules then
    { import_info with classification := some Classification.stdlib }
  else
    match resolve_local_import ctx fs import_info src_dir with
    | some resolved =>
      if isRelTo resolved src_dir then
        { import_info with classification := some Classification.localDep,
                           resolved_path := some resolved }
      else
        { import_info with classification := some Classification.external,
                           resolved_path := some resolved }
    | none =>
      if ctx.third_party import_info.module_name then
        { import_info with classification := some Classification.third_party }
      else
        { import_info with classification := some Classification.ambiguous }

/-- Exclusion patterns of `ImportAnalyzer.find_all_python_files`. -/
def analyzerExcludePatterns : List Seg :=
  [str (".venv"), str ("venv"), str ("__pycache__"), str (".git"),
   str (".pytest_cache"), str (".mypy_cache"), str ("node_modules"),
   str (".tox"), str ("dist"), str ("build")]

/-- Whether one path component triggers the traversal exclusion of
`find_all_python_files`: exact match, prefix match, or containing
`.egg-info`. -/
def analyzerPartExcluded (part : Seg) : Bool :=
  analyzerExcludePatterns.any (fun pat => part == pat || segStartsWith part pat)
    || segContains part eggInfoSuffix

/-- Model of `ImportAnalyzer.find_all_python_files`: every regular `*.py` file
strictly below `directory` whose path has no excluded component, in entry-list
order (the model's stand-in for `rglob` order). -/
def find_all_python_files (fs : FS) (directory : Path) : List Path :=
  fs.entries.filterMap
    (fun e =>
      match e.2 with
      | Node.file _ =>
        if strictUnder directory e.1 && segEndsWith (nameOf e.1) pyExt
            && !(e.1.any analyzerPartExcluded) then
          some e.1
        else none
      | Node.dir => none)

/-! ### Dependency location (`finder.py`) -/

/-- Default exclusion patterns of `ExternalDependencyFinder.__init__` and
`BuildManager._copytree_excluding`. -/
def default_exclude_patterns : List Seg :=
  [str ("_SS"), str ("__SS"), str ("_sandbox"), str ("__sandbox"),
   str ("_skip"), str ("__skip"), str ("_test"), str ("__test__")]

/-- Context of an `ExternalDependencyFinder`: project root, source directory
and the full exclusion-pattern list (defaults plus extras). -/
structure FinderCtx where
  project_root : Path
  src_dir : Path
  exclude_patterns : List Seg

/-- Model of `ExternalDependencyFinder._should_exclude_path`: some component
of the path equals an exclusion pattern or starts with one. -/
def should_exclude_path (ctx : FinderCtx) (path : Path) : Bool :=
  path.any (fun part =>
    ctx.exclude_patterns.any (fun pat => part == pat || segStartsWith part pat))

/-- Model of `ExternalDependencyFinder._determine_target_path`. -/
def determine_target_path (ctx : FinderCtx) (fs : FS) (source_path : Path)
    (module_name : Seg) : Option Path :=
  if !(fs.existsAt source_path) then none
  else
    let module_parts := splitOnChar ('.') module_name
    let src_base := ctx.project_root ++ [str ("src")]
    if fs.existsAt src_base && isRelTo source_path src_base then
      some (ctx.src_dir ++ source_path.drop src_base.length)
    else if 1 < module_parts.length then
      if fs.isDir source_path then
        if isRelTo source_path ctx.project_root then
          let relative_parts := source_path.drop ctx.project_root.length
          let firstMatch :=
            if relative_parts.length < module_parts.length
                && module_parts.take relative_parts.length = relative_parts then
              some (ctx.src_dir ++ relative_parts)
            else none
          match firstMatch with
          | some t => some t
          | none =>
            if relative_parts.length ≤ module_parts.length then
              match
                (List.range (min relative_parts.length module_parts.length)).find?
                  (fun j =>
                    decide (module_parts.drop (module_parts.length - (j + 1))
                      = relative_parts.drop (relative_parts.length - (j + 1))))
              with
              | some j =>
                let i := j + 1
                some (ctx.src_dir
                  ++ module_parts.take
                      (if 1 < i then module_parts.length - (i - 1) else module_parts.length))
              | none => some (ctx.src_dir ++ module_parts.dropLast)
            else some (ctx.src_dir ++ module_parts.dropLast)
        else some (ctx.src_dir ++ module_parts.dropLast)
      else some (ctx.src_dir ++ module_parts.dropLast ++ [nameOf source_path])
    else some (ctx.src_dir ++ [nameOf source_path])

/-- The staging-source decision of `find_external_dependencies` for one
resolved external path: `none` means the import is skipped, otherwise the
returned path is the `track_path`/`source_path` that will be staged — the
file itself, its promoted parent directory, or the resolved directory.
`files_are_imported` is the literal constant `True` of the code. -/
def stage_source_for (ctx : FinderCtx) (fs : FS) (resolved : Path) : Option Path :=
  if should_exclude_path ctx resolved then none
  else if fs.isFile resolved then
    let parent_dir := parentOf resolved
    let parent_is_package := fs.existsAt (parent_dir ++ [initName])
    let files_are_imported := true
    let should_copy_dir :=
      !(should_exclude_path ctx parent_dir)
        && (parent_is_package || files_are_imported)
        && !(isRelTo parent_dir ctx.src_dir)
        && !(isRelTo ctx.src_dir parent_dir)
        && !(parent_dir == ctx.project_root)
        && !(parent_dir == parentOf ctx.project_root)
    if should_copy_dir then some parent_dir else some resolved
  else if fs.isDir resolved then
    if isRelTo ctx.src_dir resolved then none else some resolved
  else none

/-- The per-import body of the `find_external_dependencies` loop: given the
accumulated output and seen-set, process one already-classified import. -/
def processImport (ctx : FinderCtx) (fs : FS)
    (acc : List ExternalDependency × List Path) (file_path : Path)
    (imp : ImportInfo) : List ExternalDependency × List Path :=
  match imp.classification, imp.resolved_path with
  | some Classification.external, some resolved =>
    match stage_source_for ctx fs resolved with
    | none => acc
    | some track_path =>
      if track_path ∈ acc.2 then acc
      else
        let seen := acc.2 ++ [track_path]
        match determine_target_path ctx fs track_path imp.module_name with
        | none => (acc.1, seen)
        | some target =>
          if isRelTo track_path ctx.src_dir then (acc.1, seen)
          else
            (acc.1
              ++ [{ source_path := track_path, target_path := target,
                    import_name := imp.module_name, file_path := file_path }],
             seen)
  | _, _ => acc

/-- Deduplicating fold of `find_external_dependencies` over the classified
imports of all files, in file order then import order. -/
def locate_from_classified (ctx : FinderCtx) (fs : FS)
    (pairs : List (Path × ImportInfo)) : List ExternalDependency :=
  (pairs.foldl (fun acc pr => processImport ctx fs acc pr.1 pr.2) ([], [])).1

/-- The analyzer context a finder uses (same project root; the probes are
shared capabilities). -/
def FinderCtx.analyzer (ctx : FinderCtx) (stdlib_modules : List Seg)
    (third_party : Seg → Bool) : AnalyzerCtx :=
  { project_root := ctx.project_root, stdlib_modules := stdlib_modules,
    third_party := third_party }

/-- Model of `ExternalDependencyFinder.find_external_dependencies`: extract
the imports of every file (via the read-and-parse capability `parse`),
classify each against the source directory, then locate the staging entries. -/
def find_external_dependencies (ctx : FinderCtx) (actx : AnalyzerCtx) (fs : FS)
    (parse : Path → Except ParseFailure PyModule) (python_files : List Path) :
    List ExternalDependency :=
  locate_from_classified ctx fs
    (python_files.flatMap
      (fun f =>
        (extract_imports f (parse f)).map
          (fun imp => (f, classify_import actx fs imp ctx.src_dir))))

/-- Number of `*.py` regular files strictly below a directory (used by the
spec-side promotion rule below; the code itself has no such count). -/
def sourceFileCountUnder (fs : FS) (d : Path) : Nat :=
  (fs.entries.filter
    (fun e =>
      match e.2 with
      | Node.file _ => strictUnder d e.1 && segEndsWith (nameOf e.1) pyExt
      | Node.dir => false)).length

/-- Modelled from the spec (§4.3): the claimed condition under which the
locator stages the enclosing directory of an out-of-tree file rather than the
file itself — the directory is not excluded, and either it contains a package
marker file, or it holds at most a fixed threshold (10) of source files while
the dotted import path has more than two segments; and the directory is not
an ancestor or descendant of the source root and is not the project root.
This definition follows the spec's words, for comparison against the code's
decision in `stage_source_for`. -/
def spec_should_stage_dir (ctx : FinderCtx) (fs : FS) (resolved : Path)
    (module_name : Seg) : Bool :=
  let d := parentOf resolved
  !(should_exclude_path ctx d)
    && (fs.existsAt (d ++ [initName])
        || (decide (sourceFileCountUnder fs d ≤ 10)
            && decide (2 < (splitOnChar ('.') module_name).length)))
    && !(isRelTo d ctx.src_dir)
    && !(isRelTo ctx.src_dir d)
    && !(d == ctx.project_root)

/-! ### Build management (`manager.py`) -/

/-- Context of a `BuildManager`: roots, the extra exclusion patterns passed to
the constructor, and the environment capabilities (stdlib set, third-party
probe, read-and-parse). -/
structure ManagerCtx where
  project_root : Path
  src_dir : Path
  exclude_patterns : List Seg
  stdlib_modules : List Seg
  third_party : Seg → Bool
  parse : Path → Except ParseFailure PyModule

/-- The finder a `BuildManager` constructs (defaults plus extra patterns,
matching both `ExternalDependencyFinder.__init__` and
`_copytree_excluding`). -/
def ManagerCtx.finder (ctx : ManagerCtx) : FinderCtx :=
  { project_root := ctx.project_root, src_dir := ctx.src_dir,
    exclude_patterns := default_exclude_patterns ++ ctx.exclude_patterns }

/-- The analyzer context a `BuildManager` uses. -/
def ManagerCtx.analyzer (ctx : ManagerCtx) : AnalyzerCtx :=
  { project_root := ctx.project_root, stdlib_modules := ctx.stdlib_modules,
    third_party := ctx.third_party }

/-- The session state of a `BuildManager`: the file system plus the tracked
`copied_files` and `copied_dirs` lists, in append order. -/
structure BuildState where
  fs : FS
  copied_files : List Path
  copied_dirs : List Path
deriving DecidableEq

/-- Entries copied by `_copytree_excluding` from `src` into `dst`: every
entry strictly below `src` whose absolute path has no component matching an
exclusion pattern (the code checks `item` paths, whose parts include all
ancestor components), relocated below `dst`.  This is the flat form of the
recursive copy: a subtree under an excluded directory is never visited by the
recursion, and every component of such a subtree's paths contains the excluded
component, so the flat filter matches the recursion. -/
def ct_copied (ctx : ManagerCtx) (fs : FS) (src dst : Path) : List (Path × Node) :=
  fs.entries.filterMap
    (fun e =>
      if strictUnder src e.1 && !(should_exclude_path ctx.finder e.1) then
        some (dst ++ e.1.drop src.length, e.2)
      else none)

/-- Directories the recursive copy creates: `dst` itself plus every copied
directory. -/
def ct_created_dirs (copied : List (Path × Node)) (dst : Path) : List Path :=
  dst :: copied.filterMap
    (fun e =>
      match e.2 with
      | Node.dir => some e.1
      | _ => none)

/-- The `has_python_files` condition of `_copytree_excluding` at the
recursion level whose destination is `d`: a direct `.py`-suffixed file copied
at that level, or a copied subdirectory whose on-disk subtree matches
`rglob("*.py")`.  Unfolded over the recursion this holds exactly when some
copied entry strictly below `d` has a `.py`-suffixed name — except that a
directory which is a direct child of `d` does not count (the level probes a
child directory with `dst_item.rglob("*.py")`, which looks only below it,
while a child file is tested by its own suffix; at deeper levels both kinds
are matched by the enclosing `rglob`, and synthesized markers add no new
cases since they are only written where such an entry already exists). -/
def ct_has_py_below (copied : List (Path × Node)) (d : Path) : Bool :=
  copied.any
    (fun e =>
      match e.2 with
      | Node.file _ => strictUnder d e.1 && segEndsWith (nameOf e.1) pyExt
      | Node.dir =>
          strictUnder d e.1 && !(parentOf e.1 == d) && segEndsWith (nameOf e.1) pyExt)

/-- Created directories of a copy that have copied `.py` material below
them — the directories in which `_copytree_excluding` synthesizes a marker. -/
def ct_init_dirs (copied : List (Path × Node)) (dst : Path) : List Path :=
  (ct_created_dirs copied dst).filter (fun d => ct_has_py_below copied d)

/-- Marker-file paths the recursive copy synthesizes (existence-guarded). -/
def ct_init_paths (copied : List (Path × Node)) (dst : Path) : List Path :=
  (ct_init_dirs copied dst).map (fun d => d ++ [initName])

/-- One copied entry materialized on disk: a copied file is written
(`shutil.copy2`), a copied directory was already handled by the
`mkdir` pass. -/
def writeStep (a : FS) (e : Path × Node) : FS :=
  match e.2 with
  | Node.file c => a.setFile e.1 c
  | Node.dir => a

/-- One synthesized marker: create the `__init__.py` unless present, and track
it. -/
def initStep (pr : FS × List Path) (ip : Path) : FS × List Path :=
  if pr.1.existsAt ip then pr else (pr.1.setFile ip [], pr.2 ++ [ip])

/-- Model of `BuildManager._copytree_excluding` (flattened; see `ct_copied`).
Returns the new file system and the list of synthesized `__init__.py` files
created inside the copied tree (each is appended to `copied_files` by the
code).  Markers are synthesized, guarded by an existence check, in every
created directory that has copied `.py` files below it. -/
def copytree_excluding (ctx : ManagerCtx) (fs : FS) (src dst : Path) :
    FS × List Path :=
  let copied := ct_copied ctx fs src dst
  let createdDirs := ct_created_dirs copied dst
  let fs1 := createdDirs.foldl FS.mkdirAt fs
  let fs2 := copied.foldl writeStep fs1
  (ct_init_paths copied dst).foldl initStep (fs2, [])

/-- Specification of the file-system result of `copytree_excluding` at one
path (proved equal to it below, for duplicate-free states): copied files win,
then created directories, then synthesized markers over still-absent paths,
and elsewhere the original state. -/
def ctFindSpec (ctx : ManagerCtx) (fs : FS) (src dst q : Path) : Option Node :=
  let copied := ct_copied ctx fs src dst
  let afterDirs :=
    if q ∈ ct_created_dirs copied dst ∧ fs.find q = none then some Node.dir
    else fs.find q
  let afterWrites :=
    match findEntry copied q with
    | some (Node.file c) => some (Node.file c)
    | _ => afterDirs
  if q ∈ ct_init_paths copied dst ∧ afterWrites = none then some (Node.file [])
  else afterWrites

/-- Ancestors of `target` visited by the upward marker walk at the end of
`_copytree_excluding` (`while current != src_dir and
current.is_relative_to(src_dir)`), with the `parent != src_dir` creation guard
already applied: the strict ancestors of `target` strictly below `src_dir`,
deepest first. -/
def chain_parents (src_dir target : Path) : List Path :=
  if src_dir.isPrefixOf target then
    (List.range (target.length - 1 - src_dir.length)).map
      (fun i => target.take (target.length - 1 - i))
  else []

/-- One ancestor of the upward marker walk: create `__init__.py` if it is
missing and the ancestor has `*.py` material below it, tracking the creation. -/
def chainStep (pr : FS × List Path) (p : Path) : FS × List Path :=
  let ip := p ++ [initName]
  if !(pr.1.existsAt ip) && pr.1.hasPyUnder p then
    (pr.1.setFile ip [], pr.2 ++ [ip])
  else pr

/-- The upward marker walk of `_copytree_excluding`: in each visited ancestor
create `__init__.py` if it is missing and the ancestor has `*.py` material
below it, tracking what was created. -/
def apply_chain_inits (fs : FS) (tracked : List Path) (src_dir target : Path) :
    FS × List Path :=
  (chain_parents src_dir target).foldl chainStep (fs, tracked)

/-- Model of `os.path.samefile` for the check in `_copy_dependency`: without
hard links, two paths are the same file exactly when they are equal. -/
def samefileCheck (source target : Path) : Bool := source == target

/-- Model of `source.suffix == ".py"`. -/
def pySuffixIs (name : Seg) : Bool := nameSuffix name == pyExt

/-- Model of `BuildManager._copy_dependency`.  Mirrors the code: missing
source is skipped; parent directories are created; the idempotency check may
skip the copy (same file, or directory structure already matching); a file is
copied (into an existing directory target the real `shutil.copy2` copies
below the directory), tracked, and its parent given a marker when needed; a
directory target is removed outright and recursively re-copied with
exclusions, then markers are synthesized up the tree.  A `rmtree` over an
existing non-directory target raises in the code and is caught, leaving state
unchanged — modelled by the explicit abort branch. -/
def copy_dependency (ctx : ManagerCtx) (st : BuildState) (dep : ExternalDependency) :
    BuildState :=
  let source := dep.source_path
  let target := dep.target_path
  if !(st.fs.existsAt source) then st
  else
    let fs := st.fs.mkdirp (parentOf target)
    let skipFile := fs.isFile source && fs.isFile target && samefileCheck source target
    let skipDir :=
      fs.isDir source && fs.isDir target
        && (fs.existsAt (source ++ [initName]) == fs.existsAt (target ++ [initName]))
        && !(fs.pyNamesUnder source == [])
        && !(fs.pyNamesUnder target == [])
        && (fs.pyNamesUnder source).all (fun n => n ∈ fs.pyNamesUnder target)
    if fs.existsAt target && (skipFile || skipDir) then { st with fs := fs }
    else if fs.isFile source then
      let realTarget := if fs.isDir target then target ++ [nameOf source] else target
      let fs1 := fs.setFile realTarget (fs.contentAt source)
      let files1 := st.copied_files ++ [target]
      if pySuffixIs (nameOf source) && !(parentOf target == ctx.src_dir) then
        let ip := parentOf target ++ [initName]
        if fs1.existsAt ip then
          { fs := fs1, copied_files := files1, copied_dirs := st.copied_dirs }
        else
          { fs := fs1.setFile ip [], copied_files := files1 ++ [ip],
            copied_dirs := st.copied_dirs }
      else { fs := fs1, copied_files := files1, copied_dirs := st.copied_dirs }
    else if fs.isDir source then
      if fs.existsAt target && !(fs.isDir target) then { st with fs := fs }
      else
        let fs1 := if fs.existsAt target then fs.rmtree target else fs
        let ct := copytree_excluding ctx fs1 source target
        let res :=
          if ct_has_py_below (ct_copied ctx fs1 source target) target then
            apply_chain_inits ct.1 ct.2 ctx.src_dir target
          else ct
        { fs := res.1, copied_files := st.copied_files ++ res.2,
          copied_dirs := st.copied_dirs ++ [target] }
    else { st with fs := fs }

/-- The staging loop of `prepare_build`: copy every located dependency. -/
def stage_all (ctx : ManagerCtx) (deps : List ExternalDependency) (st : BuildState) :
    BuildState :=
  deps.foldl (copy_dependency ctx) st

/-- Snapshot of the `*.egg-info`-named entries strictly below `root`
(`search_dir.rglob("*.egg-info")`). -/
def cleanup_egg_candidates (fs : FS) (root : Path) : List Path :=
  fs.entries.filterMap
    (fun e =>
      if strictUnder root e.1 && segEndsWith (nameOf e.1) eggInfoSuffix then some e.1
      else none)

/-- One search-directory pass of `_cleanup_egg_info_dirs`: skip a missing
root (`if not search_dir.exists(): continue`), otherwise remove every
snapshot candidate that is still a directory when visited. -/
def egg_pass (fs : FS) (root : Path) : FS :=
  if !(fs.existsAt root) then fs
  else
    (cleanup_egg_candidates fs root).foldl
      (fun b e => if b.isDir e then b.rmtree e else b) fs

/-- Model of `BuildManager._cleanup_egg_info_dirs`: under the source directory
and then the project root, remove every `*.egg-info` directory (regular files
with such names are skipped by the `is_dir` guard). -/
def cleanup_egg_info_dirs (ctx : ManagerCtx) (fs : FS) : FS :=
  [ctx.src_dir, ctx.project_root].foldl egg_pass fs

/-- Insertion step of the depth sort used by `_cleanup_empty_dirs`. -/
def insertLenDesc (x : Path) (l : List Path) : List Path :=
  match l with
  | [] => [x]
  | y :: t => if y.length ≤ x.length then x :: y :: t else y :: insertLenDesc x t

/-- Sort paths by component count, deepest first (the code's
`sort(key=lambda p: len(p.parts), reverse=True)`; order among equal depths is
irrelevant to the result and not modelled). -/
def sortLenDesc (l : List Path) : List Path := l.foldr insertLenDesc []

/-- Model of `BuildManager._cleanup_empty_dirs`: snapshot every directory
strictly below the source directory, deepest first, and remove each that is
still present and empty when visited. -/
def cleanup_empty_dirs (ctx : ManagerCtx) (fs : FS) : FS :=
  if !(fs.existsAt ctx.src_dir) then fs
  else
    let all_dirs := sortLenDesc
      (fs.entries.filterMap
        (fun e =>
          match e.2 with
          | Node.dir => if strictUnder ctx.src_dir e.1 then some e.1 else none
          | _ => none))
    all_dirs.foldl
      (fun a d =>
        if d = ctx.src_dir then a
        else if a.existsAt d && !(a.hasDesc d) then a.removeAll d
        else a)
      fs

/-- Model of `BuildManager.cleanup` for a staging session: remove tracked
directories in reverse order (a `rmtree` over a vanished path is skipped, and
over a non-directory raises and is caught), then tracked files (`unlink`,
same guards), clear the tracking lists, then remove `*.egg-info` directories
and empty directories.  The subfolder-manifest restore and import-rewrite
restore steps of the code operate on state outside this model's staging
session and are not modelled. -/
def cleanup (ctx : ManagerCtx) (st : BuildState) : BuildState :=
  let fsA := st.copied_dirs.reverse.foldl
    (fun a d => if a.existsAt d then (if a.isDir d then a.rmtree d else a) else a) st.fs
  let fsB := st.copied_files.foldl
    (fun a f => if a.existsAt f then (if a.isFile f then a.removeAll f else a) else a) fsA
  let fsC := cleanup_egg_info_dirs ctx fsB
  let fsD := cleanup_empty_dirs ctx fsC
  { fs := fsD, copied_files := [], copied_dirs := [] }

/-- Model of `BuildManager.prepare_build` along its core (non-subfolder)
path: find the Python files below the source directory, locate the external
dependencies, and copy each into place. -/
def prepare_build (ctx : ManagerCtx) (st : BuildState) :
    BuildState × List ExternalDependency :=
  let python_files := find_all_python_files st.fs ctx.src_dir
  let deps := find_external_dependencies ctx.finder ctx.analyzer st.fs ctx.parse
    python_files
  (stage_all ctx deps st, deps)

/-- Model of `BuildManager.run_build`: prepare (stage), invoke the opaque
build command, and clean up in a `finally` block.  The command receives the
staged file system and returns the possibly-mutated file system together with
an optional raised error; in both the normal and the raising branch the
cleanup runs on the post-command state, and an error is re-raised after the
`finally` (returned in the first component). -/
def run_build (ctx : ManagerCtx) (st : BuildState)
    (build_command : FS → FS × Option Seg) : Option Seg × BuildState :=
  let st1 := (prepare_build ctx st).1
  match build_command st1.fs with
  | (fs2, none) => (none, cleanup ctx { st1 with fs := fs2 })
  | (fs2, some e) => (some e, cleanup ctx { st1 with fs := fs2 })

/-! ### Concrete instances used by witnesses and counterexamples -/

/-- Concrete project root `/proj`. -/
def projW : Path := [str ("proj")]

/-- Concrete source root `/proj/src`. -/
def srcW : Path := [str ("proj"), str ("src")]

/-- Concrete manager context over `/proj` with no extra exclusions and empty
environment capabilities. -/
def mctxW : ManagerCtx :=
  { project_root := projW, src_dir := srcW, exclude_patterns := [],
    stdlib_modules := [], third_party := fun _ => false,
    parse := fun _ => Except.error ParseFailure.syntaxErr }

/-- Concrete file system: a fresh helper file beside the source root. -/
def fsHelperW : FS :=
  ⟨[([], Node.dir), (projW, Node.dir), (srcW, Node.dir),
    (projW ++ [str ("helper.py")], Node.file (str ("h")))]⟩

/-- Staging entry copying the helper file into the source root. -/
def depHelperW : ExternalDependency :=
  { source_path := projW ++ [str ("helper.py")],
    target_path := srcW ++ [str ("helper.py")],
    import_name := str ("helper"), file_path := srcW ++ [str ("main.py")] }

/-- Session start state over `fsHelperW`. -/
def stHelperW : BuildState := { fs := fsHelperW, copied_files := [], copied_dirs := [] }

/-- Concrete file system where the staging target already exists with
different content. -/
def fsClobberW : FS :=
  ⟨[([], Node.dir), (projW, Node.dir), (srcW, Node.dir),
    (srcW ++ [str ("x.py")], Node.file (str ("old"))),
    (projW ++ [str ("x.py")], Node.file (str ("new")))]⟩

/-- Staging entry whose target is the pre-existing `/proj/src/x.py`. -/
def depClobberW : ExternalDependency :=
  { source_path := projW ++ [str ("x.py")],
    target_path := srcW ++ [str ("x.py")],
    import_name := str ("x"), file_path := srcW ++ [str ("main.py")] }

/-- Session start state over `fsClobberW`. -/
def stClobberW : BuildState := { fs := fsClobberW, copied_files := [], copied_dirs := [] }

/-- Concrete file system with an out-of-tree package-less directory holding
one module, imported with a two-segment dotted path. -/
def fsPkgW : FS :=
  ⟨[([], Node.dir), (projW, Node.dir), (srcW, Node.dir),
    (srcW ++ [str ("main.py")], Node.file []),
    (projW ++ [str ("pkg")], Node.dir),
    (projW ++ [str ("pkg"), str ("mod.py")], Node.file [])]⟩

/-- The import `from pkg.mod import ...` occurring in `/proj/src/main.py`. -/
def impPkgW : ImportInfo :=
  { module_name := str ("pkg.mod"), import_type := ImportType.fromImport,
    from_module := some (str ("pkg.mod")), line_number := 1,
    file_path := some (srcW ++ [str ("main.py")]) }

/-- Read-and-parse capability for the `fsPkgW` world: `/proj/src/main.py`
contains the single statement `from pkg.mod import something`. -/
def parsePkgW : Path → Except ParseFailure PyModule :=
  fun f =>
    if f = srcW ++ [str ("main.py")] then
      Except.ok ⟨[PyStmt.importFrom (some (str ("pkg.mod"))) 0 1]⟩
    else Except.error ParseFailure.syntaxErr

/-- Manager context over the `fsPkgW` world, with its parse capability. -/
def mctxPkgW : ManagerCtx := { mctxW with parse := parsePkgW }

/-- The staging entry the locator produces on the `fsPkgW` world: the
enclosing directory `/proj/pkg`, mirrored to `/proj/src/pkg`. -/
def depPkgW : ExternalDependency :=
  { source_path := projW ++ [str ("pkg")],
    target_path := srcW ++ [str ("pkg")],
    import_name := str ("pkg.mod"), file_path := srcW ++ [str ("main.py")] }

/-- Concrete file system with pre-existing `*.egg-info` directories under
both roots, a pre-existing empty directory, and a non-empty directory, none
of them tracked by the session. -/
def fsEggW : FS :=
  ⟨[([], Node.dir), (projW, Node.dir), (srcW, Node.dir),
    (srcW ++ [str ("old.egg-info")], Node.dir),
    (srcW ++ [str ("old.egg-info"), str ("PKG-INFO")], Node.file []),
    (srcW ++ [str ("hollow")], Node.dir),
    (srcW ++ [str ("keep")], Node.dir),
    (srcW ++ [str ("keep"), str ("f.py")], Node.file []),
    (projW ++ [str ("stale.egg-info")], Node.dir)]⟩

/-- Session start state over `fsEggW` with nothing tracked. -/
def stEggW : BuildState := { fs := fsEggW, copied_files := [], copied_dirs := [] }

/-- The step shapes occurring in the cleanup folds: every step either leaves
the state unchanged, removes a subtree, or removes a single entry. -/
def RemovalStep {α : Type} (step : FS → α → FS) : Prop :=
  ∀ fs x, step fs x = fs ∨ (∃ p, step fs x = fs.rmtree p) ∨ (∃ p, step fs x = fs.removeAll p)

/-- The facts run-one staging of a dependency leaves behind, read off the
file-system state: the source is absent; or the source is a file, every
ancestor of the target exists, the target holds the source's content and the
synthesized parent marker (when the code would create one) exists; or the
source is a directory, every ancestor of the target exists, the whole target
subtree equals the exclusion-respecting re-copy of the source subtree, and
(when the re-copy would find Python material) every ancestor marker of the
upward walk exists.  `_copy_dependency` leaves the state of such a shape
untouched up to lookup equivalence, which is the idempotence argument. -/
def Staged (ctx : ManagerCtx) (fs : FS) (dep : ExternalDependency) : Prop :=
  fs.existsAt dep.source_path = false
  ∨ (fs.isFile dep.source_path = true
      ∧ (∀ r, r <+: parentOf dep.target_path → fs.find r ≠ none)
      ∧ fs.find dep.target_path = some (Node.file (fs.contentAt dep.source_path))
      ∧ (pySuffixIs (nameOf dep.source_path) = true → parentOf dep.target_path ≠ ctx.src_dir →
          fs.find (parentOf dep.target_path ++ [initName]) ≠ none))
  ∨ (fs.isDir dep.source_path = true
      ∧ (∀ r, r <+: parentOf dep.target_path → fs.find r ≠ none)
      ∧ (∀ q, dep.target_path <+: q →
          fs.find q
            = ctFindSpec ctx (fs.rmtree dep.target_path) dep.source_path dep.target_path q)
      ∧ (ct_has_py_below
            (ct_copied ctx (fs.rmtree dep.target_path) dep.source_path dep.target_path)
            dep.target_path = true →
          ∀ p, p ∈ chain_parents ctx.src_dir dep.target_path →
            fs.find (p ++ [initName]) ≠ none))

/-- The path-shape a located dependency has in an intended run: the target
lies strictly below the source directory and is not named after the package
marker anywhere, and the source lives outside the source directory. -/
def Stageable (ctx : ManagerCtx) (dep : ExternalDependency) : Prop :=
  strictUnder ctx.src_dir dep.target_path = true
  ∧ ¬ ctx.src_dir <+: dep.source_path
  ∧ ¬ dep.source_path <+: ctx.src_dir
  ∧ initName ∉ dep.target_path

end PPF

namespace PPF

/-! ## Lemmas: file-system basics -/

theorem findEntry_filterKey (l : List (Path × Node)) (g : Path → Bool) (q : Path) :
    findEntry (l.filter (fun e => g e.1)) q
      = if g q = true then findEntry l q else none := by
  induction l with
  | nil => cases hq : g q <;> simp [findEntry]
  | cons e rest ih =>
    rw [List.filter_cons]
    by_cases hq : e.1 = q
    · subst hq
      cases hge : g e.1 <;> simp [findEntry, hge, ih]
    · cases hge : g e.1 <;> simp [findEntry, hq, hge, ih]

theorem FS.find_removeAll (fs : FS) (p q : Path) :
    (fs.removeAll p).find q = if q = p then none else fs.find q := by
  show findEntry (fs.entries.filter (fun e => !(e.1 == p))) q
    = if q = p then none else findEntry fs.entries q
  rw [findEntry_filterKey fs.entries (fun x => !(x == p)) q]
  by_cases hq : q = p <;> simp [hq]

theorem FS.find_rmtree (fs : FS) (p q : Path) :
    (fs.rmtree p).find q = if p <+: q then none else fs.find q := by
  show findEntry (fs.entries.filter (fun e => !(p.isPrefixOf e.1))) q
    = if p <+: q then none else findEntry fs.entries q
  rw [findEntry_filterKey fs.entries (fun x => !(p.isPrefixOf x)) q]
  by_cases hq : p <+: q <;>
    simp [hq, List.isPrefixOf_iff_prefix]

theorem FS.find_setEntry (fs : FS) (p : Path) (n : Node) (q : Path) :
    (fs.setEntry p n).find q = if q = p then some n else fs.find q := by
  show findEntry ((p, n) :: (fs.removeAll p).entries) q = _
  by_cases hq : q = p
  · simp [findEntry, hq]
  · have h := FS.find_removeAll fs p q
    simp only [FS.find] at h
    show (if p = q then some n else findEntry (fs.removeAll p).entries q) = _
    rw [if_neg (fun hc : p = q => hq hc.symm), h, if_neg hq, if_neg hq]
    rfl

theorem FS.find_setFile (fs : FS) (p : Path) (c : Seg) (q : Path) :
    (fs.setFile p c).find q = if q = p then some (Node.file c) else fs.find q :=
  FS.find_setEntry fs p (Node.file c) q

theorem FS.find_mkdirAt (fs : FS) (p q : Path) :
    (fs.mkdirAt p).find q
      = if q = p ∧ fs.find p = none then some Node.dir else fs.find q := by
  unfold FS.mkdirAt
  by_cases hs : (fs.find p).isSome
  · rw [if_pos hs]
    have h2 : fs.find p ≠ none := by
      intro h; rw [h] at hs; simp at hs
    simp [h2]
  · rw [if_neg hs]
    have hnone : fs.find p = none := by
      cases h : fs.find p
      · rfl
      · rw [h] at hs; simp at hs
    by_cases hq : q = p
    · subst hq
      show findEntry ((q, Node.dir) :: fs.entries) q = _
      simp [findEntry, hnone]
    · show findEntry ((p, Node.dir) :: fs.entries) q = _
      simp only [findEntry, if_neg (fun hc : p = q => hq hc.symm), hq, false_and, if_false]
      rfl

theorem find_foldl_mkdirAt (L : List Path) (fs : FS) (q : Path) :
    (L.foldl FS.mkdirAt fs).find q
      = if q ∈ L ∧ fs.find q = none then some Node.dir else fs.find q := by
  induction L generalizing fs with
  | nil => simp
  | cons d rest ih =>
    rw [List.foldl_cons, ih, FS.find_mkdirAt]
    by_cases hq : q = d
    · subst hq
      by_cases hn : fs.find q = none <;> simp [hn]
    · simp only [hq, false_and, if_false]
      by_cases hmem : q ∈ rest <;> simp [hmem, hq]

theorem mem_prefixList (p q : Path) :
    q ∈ (List.range (p.length + 1)).map (fun n => p.take n) ↔ q <+: p := by
  simp only [List.mem_map, List.mem_range]
  constructor
  · rintro ⟨n, _, rfl⟩
    exact List.take_prefix n p
  · intro h
    exact ⟨q.length, Nat.lt_succ_of_le h.length_le, (List.prefix_iff_eq_take.mp h).symm⟩

theorem FS.find_mkdirp (fs : FS) (p q : Path) :
    (fs.mkdirp p).find q
      = if q <+: p ∧ fs.find q = none then some Node.dir else fs.find q := by
  unfold FS.mkdirp
  rw [find_foldl_mkdirAt]
  rw [if_congr (iff_of_eq (congrArg (· ∧ fs.find q = none)
    (propext (mem_prefixList p q)))) rfl rfl]

theorem FS.existsAt_eq_false_iff (fs : FS) (p : Path) :
    fs.existsAt p = false ↔ fs.find p = none := by
  unfold FS.existsAt
  cases h : fs.find p <;> simp

theorem FS.existsAt_eq_true_iff (fs : FS) (p : Path) :
    fs.existsAt p = true ↔ ∃ n, fs.find p = some n := by
  unfold FS.existsAt
  cases h : fs.find p <;> simp

theorem FS.isFile_iff (fs : FS) (p : Path) :
    fs.isFile p = true ↔ ∃ c, fs.find p = some (Node.file c) := by
  unfold FS.isFile
  cases h : fs.find p with
  | none => simp
  | some n => cases n <;> simp

theorem FS.isDir_iff (fs : FS) (p : Path) :
    fs.isDir p = true ↔ fs.find p = some Node.dir := by
  unfold FS.isDir
  cases h : fs.find p with
  | none => simp
  | some n => cases n <;> simp

theorem strictUnder_iff (p q : Path) :
    strictUnder p q = true ↔ p <+: q ∧ q ≠ p := by
  simp [strictUnder, List.isPrefixOf_iff_prefix]

theorem prefixAntisymm {p q : Path} (h1 : p <+: q) (h2 : q <+: p) : p = q :=
  h1.eq_of_length (Nat.le_antisymm h1.length_le h2.length_le)

/-! ## Claim C4: extraction of pure relative from-imports -/

/-- C4 counterexample: for a file whose only statement is `from . import x`
(an `ImportFrom` node with omitted module and level 1), `extract_imports`
returns the empty list — no `ImportDeclaration` with empty module path and
recorded relative level is produced, contrary to the claim. -/
theorem C4_counterexample :
    extract_imports [str ("a.py")]
      (Except.ok ⟨[PyStmt.importFrom none 1 1]⟩) = [] := by decide

/-- C4 amended: a pure relative from-import whose module part is omitted
contributes no `ImportDeclaration` at all — `extract_imports` of a body
containing such a statement equals `extract_imports` of the body with the
statement removed (the `if node.module:` guard skips it, and the record type
has no relative-level field). -/
theorem C4_amended (fp : Path) (pre post : List PyStmt) (lvl ln : Nat) :
    extract_imports fp (Except.ok ⟨pre ++ PyStmt.importFrom none lvl ln :: post⟩)
      = extract_imports fp (Except.ok ⟨pre ++ post⟩) := by
  simp [extract_imports]

/-! ## Claim C7: parse failures yield the empty list -/

/-- C7: for every input file whose read-and-parse step fails with a syntax or
decode error, `extract_imports` returns the empty list of import
declarations; being a total function into `List ImportInfo`, it signals no
error to the caller. -/
theorem C7_parse_failure (fp : Path) (e : ParseFailure) :
    extract_imports fp (Except.error e) = [] := rfl

/-! ## Claims C5 and C6: classification invariants -/

/-- C6: whenever the first dotted segment of the import names a module in the
stdlib set, classification returns `stdlib`, for every file-system state —
the builtin check runs before local resolution, so no local file can change
the result. -/
theorem C6_stdlib_first (ctx : AnalyzerCtx) (fs : FS) (imp : ImportInfo)
    (src_dir : Path) (h : rootModuleOf imp.module_name ∈ ctx.stdlib_modules) :
    (classify_import ctx fs imp src_dir).classification = some Classification.stdlib := by
  unfold classify_import
  rw [if_pos h]

/-- C6 witness: the import `os.path` with `os` in the stdlib set is classified
`stdlib` even though `/proj/os.py` exists. -/
theorem C6_witness :
    rootModuleOf (str ("os.path")) ∈ [str ("os")]
      ∧ (classify_import
          { project_root := projW, stdlib_modules := [str ("os")],
            third_party := fun _ => false }
          ⟨[([], Node.dir), (projW, Node.dir), (srcW, Node.dir),
            (projW ++ [str ("os.py")], Node.file [])]⟩
          { module_name := str ("os.path"), import_type := ImportType.plainImport }
          srcW).classification = some Classification.stdlib :=
  ⟨by decide,
   C6_stdlib_first _ _ _ _ (by decide)⟩

/-- C5: after classifying a freshly extracted import (whose `resolved_path`
is still `None`), the resolved path is present exactly when the category is
in-tree (`local`) or out-of-tree (`external`); an in-tree resolved path lies
inside the source root and an out-of-tree one lies outside it. -/
theorem C5_invariant (ctx : AnalyzerCtx) (fs : FS) (imp : ImportInfo)
    (src_dir : Path) (h : imp.resolved_path = none) :
    ((classify_import ctx fs imp src_dir).resolved_path ≠ none
        ↔ (classify_import ctx fs imp src_dir).classification = some Classification.localDep
          ∨ (classify_import ctx fs imp src_dir).classification = some Classification.external)
      ∧ (∀ p, (classify_import ctx fs imp src_dir).resolved_path = some p →
          ((classify_import ctx fs imp src_dir).classification = some Classification.localDep
              ↔ src_dir <+: p)) := by
  unfold classify_import
  by_cases hstd : rootModuleOf imp.module_name ∈ ctx.stdlib_modules
  · simp [hstd, h]
  · rw [if_neg hstd]
    cases hres : resolve_local_import ctx fs imp src_dir with
    | none =>
      by_cases htp : ctx.third_party imp.module_name <;> simp [htp, h]
    | some resolved =>
      by_cases hrel : isRelTo resolved src_dir
      · have hpre : src_dir <+: resolved := List.isPrefixOf_iff_prefix.mp hrel
        simp only [hrel, if_true]
        refine ⟨by simp, ?_⟩
        intro p hp
        simp at hp
        subst hp
        simp [hpre]
      · have hpre : ¬ src_dir <+: resolved := by
          intro hc
          exact hrel (List.isPrefixOf_iff_prefix.mpr hc)
        simp only [hrel, if_false]
        refine ⟨by simp, ?_⟩
        intro p hp
        simp at hp
        subst hp
        simp [hpre]

/-! ## Claim C3: file-versus-directory staging decision -/

theorem determine_target_path_isSome (ctx : FinderCtx) (fs : FS) (sp : Path)
    (mn : Seg) (h : fs.existsAt sp = true) :
    ∃ t, determine_target_path ctx fs sp mn = some t := by
  unfold determine_target_path
  rw [h]
  simp only [Bool.not_true]
  repeat' split
  all_goals first
    | exact ⟨_, rfl⟩
    | simp_all

/-- C3 counterexample: over `fsPkgW` the import `pkg.mod` (two dotted
segments) is classified out-of-tree with resolved file `/proj/pkg/mod.py`,
whose enclosing directory `/proj/pkg` carries no package marker; the claimed
promotion condition (marker, or small directory with more than two dotted
segments) is false, yet the locator's output stages the enclosing directory
as the entry's source. -/
theorem C3_counterexample :
    (locate_from_classified mctxW.finder fsPkgW
        [(srcW ++ [str ("main.py")],
          classify_import mctxW.analyzer fsPkgW impPkgW srcW)]).map
        (fun d => d.source_path)
      = [projW ++ [str ("pkg")]]
    ∧ spec_should_stage_dir mctxW.finder fsPkgW
        (projW ++ [str ("pkg"), str ("mod.py")]) (str ("pkg.mod")) = false
    ∧ (classify_import mctxW.analyzer fsPkgW impPkgW srcW).classification
        = some Classification.external
    ∧ (classify_import mctxW.analyzer fsPkgW impPkgW srcW).resolved_path
        = some (projW ++ [str ("pkg"), str ("mod.py")])
    ∧ fsPkgW.isFile (projW ++ [str ("pkg"), str ("mod.py")]) = true := by
  decide

/-- C3 amended: for an import classified out-of-tree whose resolved path is
an existing file, the locator stages the file's enclosing directory exactly
when the directory is not excluded, is not an ancestor or descendant of the
source root, and is neither the project root nor the project root's parent.
Package markers and directory file counts play no role: the code's marker
test is short-circuited by an always-true disjunct (`files_are_imported`).
When the condition fails, the single file is staged instead. -/
theorem C3_amended (ctx : FinderCtx) (fs : FS) (f : Path) (imp : ImportInfo)
    (rp : Path)
    (hcls : imp.classification = some Classification.external)
    (hres : imp.resolved_path = some rp)
    (hfile : fs.isFile rp = true)
    (hpar : fs.existsAt (parentOf rp) = true)
    (hnex : should_exclude_path ctx rp = false)
    (hnsrc : isRelTo rp ctx.src_dir = false) :
    ((should_exclude_path ctx (parentOf rp) = false
        ∧ isRelTo (parentOf rp) ctx.src_dir = false
        ∧ isRelTo ctx.src_dir (parentOf rp) = false
        ∧ parentOf rp ≠ ctx.project_root
        ∧ parentOf rp ≠ parentOf ctx.project_root) →
      (locate_from_classified ctx fs [(f, imp)]).map (fun d => d.source_path)
        = [parentOf rp])
    ∧ (¬ (should_exclude_path ctx (parentOf rp) = false
        ∧ isRelTo (parentOf rp) ctx.src_dir = false
        ∧ isRelTo ctx.src_dir (parentOf rp) = false
        ∧ parentOf rp ≠ ctx.project_root
        ∧ parentOf rp ≠ parentOf ctx.project_root) →
      (locate_from_classified ctx fs [(f, imp)]).map (fun d => d.source_path)
        = [rp]) := by
  have hex : fs.existsAt rp = true := by
    rcases (FS.isFile_iff fs rp).mp hfile with ⟨c, hc⟩
    exact (FS.existsAt_eq_true_iff fs rp).mpr ⟨_, hc⟩
  have hsrcfor : stage_source_for ctx fs rp
      = (if should_exclude_path ctx (parentOf rp) = false
            ∧ isRelTo (parentOf rp) ctx.src_dir = false
            ∧ isRelTo ctx.src_dir (parentOf rp) = false
            ∧ parentOf rp ≠ ctx.project_root
            ∧ parentOf rp ≠ parentOf ctx.project_root
         then some (parentOf rp) else some rp) := by
    unfold stage_source_for
    rw [if_neg (by simp [hnex]), if_pos hfile]
    simp only []
    split
    · rename_i hB
      have hPP : should_exclude_path ctx (parentOf rp) = false
          ∧ isRelTo (parentOf rp) ctx.src_dir = false
          ∧ isRelTo ctx.src_dir (parentOf rp) = false
          ∧ parentOf rp ≠ ctx.project_root
          ∧ parentOf rp ≠ parentOf ctx.project_root := by
        simp at hB
        tauto
      rw [if_pos hPP]
    · rename_i hB
      have hPP : ¬ (should_exclude_path ctx (parentOf rp) = false
          ∧ isRelTo (parentOf rp) ctx.src_dir = false
          ∧ isRelTo ctx.src_dir (parentOf rp) = false
          ∧ parentOf rp ≠ ctx.project_root
          ∧ parentOf rp ≠ parentOf ctx.project_root) := by
        intro hc
        apply hB
        simp
        tauto
      rw [if_neg hPP]
  constructor
  · intro hcond
    rcases determine_target_path_isSome ctx fs (parentOf rp) imp.module_name hpar with ⟨t, ht⟩
    unfold locate_from_classified
    simp only [List.foldl_cons, List.foldl_nil]
    unfold processImport
    simp only [hcls, hres]
    rw [hsrcfor, if_pos hcond]
    simp only [List.not_mem_nil, if_false, ht]
    rw [if_neg (by rw [hcond.2.1]; simp)]
    simp
  · intro hcond
    rcases determine_target_path_isSome ctx fs rp imp.module_name hex with ⟨t, ht⟩
    unfold locate_from_classified
    simp only [List.foldl_cons, List.foldl_nil]
    unfold processImport
    simp only [hcls, hres]
    rw [hsrcfor, if_neg hcond]
    simp only [List.not_mem_nil, if_false, ht]
    rw [if_neg (by rw [hnsrc]; simp)]
    simp

/-- C3 witness: the amended decision instantiated over `fsPkgW`, where the
promotion condition holds and the directory `/proj/pkg` is staged. -/
theorem C3_witness :
    impPkgW.classification = none
    ∧ ((should_exclude_path mctxW.finder
          (parentOf (projW ++ [str ("pkg"), str ("mod.py")])) = false
        ∧ isRelTo (parentOf (projW ++ [str ("pkg"), str ("mod.py")])) mctxW.finder.src_dir
            = false
        ∧ isRelTo mctxW.finder.src_dir (parentOf (projW ++ [str ("pkg"), str ("mod.py")]))
            = false
        ∧ parentOf (projW ++ [str ("pkg"), str ("mod.py")]) ≠ mctxW.finder.project_root
        ∧ parentOf (projW ++ [str ("pkg"), str ("mod.py")])
            ≠ parentOf mctxW.finder.project_root) →
      (locate_from_classified mctxW.finder fsPkgW
          [(srcW ++ [str ("main.py")],
            classify_import mctxW.analyzer fsPkgW impPkgW srcW)]).map
          (fun d => d.source_path)
        = [parentOf (projW ++ [str ("pkg"), str ("mod.py")])]) :=
  ⟨by decide,
   (C3_amended mctxW.finder fsPkgW (srcW ++ [str ("main.py")])
      (classify_import mctxW.analyzer fsPkgW impPkgW srcW)
      (projW ++ [str ("pkg"), str ("mod.py")])
      (by decide) (by decide) (by decide) (by decide) (by decide) (by decide)).1⟩

/-! ## Claim C8: excluded paths never staged -/

theorem stage_source_not_excluded (ctx : FinderCtx) (fs : FS) (rp t : Path)
    (h : stage_source_for ctx fs rp = some t) :
    should_exclude_path ctx t = false := by
  unfold stage_source_for at h
  by_cases h1 : should_exclude_path ctx rp = true
  · rw [if_pos h1] at h
    exact absurd h (by simp)
  · have h1' : should_exclude_path ctx rp = false := by
      cases hx : should_exclude_path ctx rp
      · rfl
      · exact absurd hx h1
    rw [if_neg (by simp [h1'])] at h
    by_cases h2 : fs.isFile rp = true
    · rw [if_pos h2] at h
      simp only [] at h
      split at h
      · rename_i hcond
        rw [Option.some.injEq] at h
        subst h
        simp only [Bool.and_eq_true, Bool.not_eq_true'] at hcond
        exact hcond.1.1.1.1.1
      · rw [Option.some.injEq] at h
        subst h
        exact h1'
    · rw [if_neg h2] at h
      by_cases h3 : fs.isDir rp = true
      · rw [if_pos h3] at h
        split at h
        · exact absurd h (by simp)
        · rw [Option.some.injEq] at h
          subst h
          exact h1'
      · rw [if_neg h3] at h
        exact absurd h (by simp)

theorem processImport_sources (ctx : FinderCtx) (fs : FS)
    (acc : List ExternalDependency × List Path) (f : Path) (imp : ImportInfo)
    (hacc : ∀ d ∈ acc.1, should_exclude_path ctx d.source_path = false) :
    ∀ d ∈ (processImport ctx fs acc f imp).1,
      should_exclude_path ctx d.source_path = false := by
  intro d hd
  unfold processImport at hd
  split at hd
  · split at hd
    · exact hacc d hd
    · rename_i track htrack
      split at hd
      · exact hacc d hd
      · split at hd
        · exact hacc d hd
        · split at hd
          · exact hacc d hd
          · rcases List.mem_append.mp hd with hd' | hd'
            · exact hacc d hd'
            · rcases List.mem_singleton.mp hd' with rfl
              exact stage_source_not_excluded ctx fs _ track htrack
  · exact hacc d hd

theorem locate_sources_aux (ctx : FinderCtx) (fs : FS)
    (pairs : List (Path × ImportInfo)) (acc : List ExternalDependency × List Path)
    (hacc : ∀ d ∈ acc.1, should_exclude_path ctx d.source_path = false) :
    ∀ d ∈ (pairs.foldl (fun a pr => processImport ctx fs a pr.1 pr.2) acc).1,
      should_exclude_path ctx d.source_path = false := by
  induction pairs generalizing acc with
  | nil => exact hacc
  | cons pr rest ih =>
    rw [List.foldl_cons]
    exact ih _ (processImport_sources ctx fs acc pr.1 pr.2 hacc)

/-- C8: no staging entry produced by the locator has a source path with a
component matching an exclusion pattern (by equality or prefix) — stated
contrapositively: every entry in the output of `find_external_dependencies`
has a non-excluded source path, whatever the input files and imports are. -/
theorem C8_excluded_never_staged (ctx : FinderCtx) (actx : AnalyzerCtx) (fs : FS)
    (parse : Path → Except ParseFailure PyModule) (files : List Path)
    (d : ExternalDependency)
    (hd : d ∈ find_external_dependencies ctx actx fs parse files) :
    should_exclude_path ctx d.source_path = false :=
  locate_sources_aux ctx fs _ ([], []) (by simp) d hd

/-- C8 witness: on the `fsPkgW` world the locator emits the `/proj/pkg`
entry, and the theorem yields that its source is not excluded. -/
theorem C8_witness :
    depPkgW ∈ find_external_dependencies mctxPkgW.finder mctxPkgW.analyzer fsPkgW
        mctxPkgW.parse (find_all_python_files fsPkgW srcW)
    ∧ should_exclude_path mctxPkgW.finder depPkgW.source_path = false :=
  ⟨by decide,
   C8_excluded_never_staged mctxPkgW.finder mctxPkgW.analyzer fsPkgW mctxPkgW.parse
     (find_all_python_files fsPkgW srcW) depPkgW (by decide)⟩

/-! ## Claim C10: frame effects of cleanup -/

theorem findEntry_some_mem {l : List (Path × Node)} {p : Path} {n : Node}
    (h : findEntry l p = some n) : (p, n) ∈ l := by
  induction l with
  | nil => simp [findEntry] at h
  | cons e rest ih =>
    unfold findEntry at h
    split at h
    · rename_i heq
      rw [Option.some.injEq] at h
      subst h
      rcases e with ⟨p0, n0⟩
      simp_all
    · exact List.mem_cons_of_mem e (ih h)

theorem FS.isDir_eq_false_iff (fs : FS) (p : Path) :
    fs.isDir p = false ↔ fs.find p ≠ some Node.dir := by
  unfold FS.isDir
  cases h : fs.find p with
  | none => simp
  | some n => cases n <;> simp

theorem FS.hasDesc_of_mem {fs : FS} {q : Path} {n : Node} {d : Path}
    (hmem : (q, n) ∈ fs.entries) (hq : strictUnder d q = true) :
    fs.hasDesc d = true := by
  unfold FS.hasDesc
  rw [List.any_eq_true]
  exact ⟨(q, n), hmem, hq⟩

theorem removalStep_find {α : Type} {step : FS → α → FS} (h : RemovalStep step)
    (fs : FS) (x : α) (q : Path) :
    (step fs x).find q = fs.find q ∨ (step fs x).find q = none := by
  rcases h fs x with he | ⟨p, he⟩ | ⟨p, he⟩
  · rw [he]; left; rfl
  · rw [he, FS.find_rmtree]
    split
    · right; rfl
    · left; rfl
  · rw [he, FS.find_removeAll]
    split
    · right; rfl
    · left; rfl

theorem foldl_removal_find {α : Type} {step : FS → α → FS} (h : RemovalStep step)
    (L : List α) (fs : FS) (q : Path) :
    (L.foldl step fs).find q = fs.find q ∨ (L.foldl step fs).find q = none := by
  induction L generalizing fs with
  | nil => left; rfl
  | cons x rest ih =>
    rw [List.foldl_cons]
    rcases ih (step fs x) with h1 | h1
    · rw [h1]
      exact removalStep_find h fs x q
    · right; exact h1

theorem foldl_removal_none {α : Type} {step : FS → α → FS} (h : RemovalStep step)
    (L : List α) (fs : FS) (q : Path) (hq : fs.find q = none) :
    (L.foldl step fs).find q = none := by
  rcases foldl_removal_find h L fs q with h1 | h1
  · rw [h1, hq]
  · exact h1

theorem removalStep_phaseA :
    RemovalStep (fun (a : FS) (d : Path) =>
      if a.existsAt d then (if a.isDir d then a.rmtree d else a) else a) := by
  intro fs d
  by_cases h1 : fs.existsAt d = true
  · by_cases h2 : fs.isDir d = true
    · right; left; exact ⟨d, by simp [h1, h2]⟩
    · left; simp [h1, h2]
  · left; simp [h1]

theorem removalStep_phaseB :
    RemovalStep (fun (a : FS) (f : Path) =>
      if a.existsAt f then (if a.isFile f then a.removeAll f else a) else a) := by
  intro fs f
  by_cases h1 : fs.existsAt f = true
  · by_cases h2 : fs.isFile f = true
    · right; right; exact ⟨f, by simp [h1, h2]⟩
    · left; simp [h1, h2]
  · left; simp [h1]

theorem removalStep_egg :
    RemovalStep (fun (b : FS) (e : Path) => if b.isDir e then b.rmtree e else b) := by
  intro fs e
  by_cases h1 : fs.isDir e = true
  · right; left; exact ⟨e, by simp [h1]⟩
  · left; simp [h1]

theorem removalStep_empty (src : Path) :
    RemovalStep (fun (a : FS) (d : Path) =>
      if d = src then a
      else if a.existsAt d && !(a.hasDesc d) then a.removeAll d
      else a) := by
  intro fs d
  by_cases h1 : d = src
  · left; simp [h1]
  · by_cases h2 : (fs.existsAt d && !(fs.hasDesc d)) = true
    · right; right; exact ⟨d, by simp [h1, h2]⟩
    · left; simp [h1, h2]

theorem phaseA_frame (dirs : List Path) (fs : FS) (q : Path)
    (h : ∀ d ∈ dirs, ¬ d <+: q) :
    ((dirs.foldl (fun a d =>
        if a.existsAt d then (if a.isDir d then a.rmtree d else a) else a) fs)).find q
      = fs.find q := by
  induction dirs generalizing fs with
  | nil => rfl
  | cons d rest ih =>
    rw [List.foldl_cons]
    have hstep : ((if fs.existsAt d then (if fs.isDir d then fs.rmtree d else fs) else fs)).find q
        = fs.find q := by
      by_cases h1 : fs.existsAt d = true
      · rw [if_pos h1]
        by_cases h2 : fs.isDir d = true
        · rw [if_pos h2, FS.find_rmtree, if_neg (h d (List.mem_cons_self d rest))]
        · rw [if_neg h2]
      · rw [if_neg h1]
    rw [ih _ (fun x hx => h x (List.mem_cons_of_mem d hx)), hstep]

theorem phaseB_frame (files : List Path) (fs : FS) (q : Path)
    (h : ∀ f ∈ files, f ≠ q) :
    ((files.foldl (fun a f =>
        if a.existsAt f then (if a.isFile f then a.removeAll f else a) else a) fs)).find q
      = fs.find q := by
  induction files generalizing fs with
  | nil => rfl
  | cons f rest ih =>
    rw [List.foldl_cons]
    have hstep : ((if fs.existsAt f then (if fs.isFile f then fs.removeAll f else fs) else fs)).find q
        = fs.find q := by
      by_cases h1 : fs.existsAt f = true
      · rw [if_pos h1]
        by_cases h2 : fs.isFile f = true
        · rw [if_pos h2, FS.find_removeAll,
            if_neg (fun hc : q = f => h f (List.mem_cons_self f rest) hc.symm)]
        · rw [if_neg h2]
      · rw [if_neg h1]
    rw [ih _ (fun x hx => h x (List.mem_cons_of_mem f hx)), hstep]

theorem mem_egg_candidates {fs : FS} {root e : Path}
    (h : e ∈ cleanup_egg_candidates fs root) :
    strictUnder root e = true ∧ segEndsWith (nameOf e) eggInfoSuffix = true := by
  unfold cleanup_egg_candidates at h
  rw [List.mem_filterMap] at h
  rcases h with ⟨a, _, ha⟩
  split at ha
  · rename_i hcond
    rw [Option.some.injEq] at ha
    subst ha
    exact ⟨(Bool.and_eq_true _ _).mp hcond |>.1, (Bool.and_eq_true _ _).mp hcond |>.2⟩
  · simp at ha

theorem eggfold_frame (cands : List Path) (fs : FS) (q : Path)
    (h : ∀ e ∈ cands, ¬ e <+: q) :
    ((cands.foldl (fun b e => if b.isDir e then b.rmtree e else b) fs)).find q
      = fs.find q := by
  induction cands generalizing fs with
  | nil => rfl
  | cons e rest ih =>
    rw [List.foldl_cons]
    have hstep : ((if fs.isDir e then fs.rmtree e else fs)).find q = fs.find q := by
      by_cases h1 : fs.isDir e = true
      · rw [if_pos h1, FS.find_rmtree, if_neg (h e (List.mem_cons_self e rest))]
      · rw [if_neg h1]
    rw [ih _ (fun x hx => h x (List.mem_cons_of_mem e hx)), hstep]

theorem eggfold_isDir_false (cands : List Path) (fs : FS) (e : Path) (he : e ∈ cands) :
    ((cands.foldl (fun b x => if b.isDir x then b.rmtree x else b) fs)).isDir e = false := by
  induction cands generalizing fs with
  | nil => simp at he
  | cons c rest ih =>
    rw [List.foldl_cons]
    rcases List.mem_cons.mp he with rfl | hrest
    · by_cases h1 : fs.isDir e = true
      · rw [if_pos h1]
        rw [FS.isDir_eq_false_iff]
        have hnone : (fs.rmtree e).find e = none := by
          rw [FS.find_rmtree, if_pos (List.prefix_refl e)]
        rw [foldl_removal_none removalStep_egg rest _ e hnone]
        simp
      · rw [if_neg h1]
        rw [FS.isDir_eq_false_iff]
        have hne : fs.find e ≠ some Node.dir := (FS.isDir_eq_false_iff fs e).mp
          (by cases hx : fs.isDir e; rfl; exact absurd hx h1)
        rcases foldl_removal_find removalStep_egg rest fs e with hh | hh
        · rw [hh]; exact hne
        · rw [hh]; simp
    · exact ih _ hrest

theorem egg_pass_frame (fs : FS) (root q : Path)
    (h : ∀ e, strictUnder root e = true →
      segEndsWith (nameOf e) eggInfoSuffix = true → ¬ e <+: q) :
    (egg_pass fs root).find q = fs.find q := by
  unfold egg_pass
  by_cases h1 : (!(fs.existsAt root)) = true
  · rw [if_pos h1]
  · rw [if_neg h1]
    exact eggfold_frame _ fs q
      (fun e he => h e (mem_egg_candidates he).1 (mem_egg_candidates he).2)

theorem egg_pass_find_cases (fs : FS) (root q : Path) :
    (egg_pass fs root).find q = fs.find q ∨ (egg_pass fs root).find q = none := by
  unfold egg_pass
  by_cases h1 : (!(fs.existsAt root)) = true
  · rw [if_pos h1]; left; rfl
  · rw [if_neg h1]
    exact foldl_removal_find removalStep_egg _ fs q

theorem egg_pass_no_dir (fs : FS) (root e : Path)
    (hroot : fs.existsAt root = true)
    (hunder : strictUnder root e = true)
    (hegg : segEndsWith (nameOf e) eggInfoSuffix = true) :
    (egg_pass fs root).isDir e = false := by
  unfold egg_pass
  rw [if_neg (by rw [hroot]; simp)]
  by_cases hdir : fs.isDir e = true
  · have hmem : e ∈ cleanup_egg_candidates fs root := by
      unfold cleanup_egg_candidates
      rw [List.mem_filterMap]
      exact ⟨(e, Node.dir), findEntry_some_mem ((FS.isDir_iff fs e).mp hdir),
        by rw [if_pos (by rw [hunder, hegg]; rfl)]⟩
    exact eggfold_isDir_false _ fs e hmem
  · have hne : fs.find e ≠ some Node.dir := (FS.isDir_eq_false_iff fs e).mp
      (by cases hx : fs.isDir e; rfl; exact absurd hx hdir)
    rw [FS.isDir_eq_false_iff]
    rcases foldl_removal_find removalStep_egg (cleanup_egg_candidates fs root) fs e
      with hh | hh
    · rw [hh]; exact hne
    · rw [hh]; simp

theorem egg_pass_isDir_false_mono (fs : FS) (root e : Path)
    (h : fs.isDir e = false) : (egg_pass fs root).isDir e = false := by
  rw [FS.isDir_eq_false_iff] at h ⊢
  rcases egg_pass_find_cases fs root e with hh | hh
  · rw [hh]; exact h
  · rw [hh]; simp

theorem cleanup_egg_unfold (ctx : ManagerCtx) (fs : FS) :
    cleanup_egg_info_dirs ctx fs = egg_pass (egg_pass fs ctx.src_dir) ctx.project_root :=
  rfl

theorem egg_phase_frame (ctx : ManagerCtx) (fs : FS) (q : Path)
    (h : ∀ e, segEndsWith (nameOf e) eggInfoSuffix = true → ¬ e <+: q) :
    (cleanup_egg_info_dirs ctx fs).find q = fs.find q := by
  rw [cleanup_egg_unfold,
    egg_pass_frame _ _ _ (fun e _ hegg => h e hegg),
    egg_pass_frame _ _ _ (fun e _ hegg => h e hegg)]

theorem egg_phase_no_egg_dir (ctx : ManagerCtx) (fs : FS)
    (hsrc : fs.existsAt ctx.src_dir = true)
    (hrel : ctx.project_root <+: ctx.src_dir)
    (hproj : fs.existsAt ctx.project_root = true) :
    ∀ e, (strictUnder ctx.src_dir e = true ∨ strictUnder ctx.project_root e = true) →
      segEndsWith (nameOf e) eggInfoSuffix = true →
      (cleanup_egg_info_dirs ctx fs).isDir e = false := by
  intro e hunder hegg
  rw [cleanup_egg_unfold]
  have hproj1 : (egg_pass fs ctx.src_dir).existsAt ctx.project_root = true := by
    show ((egg_pass fs ctx.src_dir).find ctx.project_root).isSome = true
    have hfr : (egg_pass fs ctx.src_dir).find ctx.project_root
        = fs.find ctx.project_root := by
      refine egg_pass_frame fs ctx.src_dir ctx.project_root ?_
      intro x hx hxegg hc
      rw [strictUnder_iff] at hx
      exact hx.2 (prefixAntisymm (hc.trans hrel) hx.1)
    rw [hfr]
    exact hproj
  rcases hunder with hu | hu
  · exact egg_pass_isDir_false_mono _ ctx.project_root e
      (egg_pass_no_dir fs ctx.src_dir e hsrc hu hegg)
  · exact egg_pass_no_dir _ ctx.project_root e hproj1 hu hegg

/-! Sorting lemmas for the empty-directory sweep. -/

theorem mem_insertLenDesc (x a : Path) (l : List Path) :
    a ∈ insertLenDesc x l ↔ a = x ∨ a ∈ l := by
  induction l with
  | nil => simp [insertLenDesc]
  | cons y t ih =>
    unfold insertLenDesc
    split
    · simp [List.mem_cons]
    · simp only [List.mem_cons, ih]
      tauto

theorem mem_sortLenDesc (a : Path) (l : List Path) :
    a ∈ sortLenDesc l ↔ a ∈ l := by
  induction l with
  | nil => simp [sortLenDesc]
  | cons x t ih =>
    unfold sortLenDesc at ih ⊢
    rw [List.foldr_cons, mem_insertLenDesc, ih, List.mem_cons]

theorem pairwise_insertLenDesc (x : Path) (l : List Path)
    (h : l.Pairwise (fun a b => b.length ≤ a.length)) :
    (insertLenDesc x l).Pairwise (fun a b => b.length ≤ a.length) := by
  induction l with
  | nil => simp [insertLenDesc]
  | cons y t ih =>
    rw [List.pairwise_cons] at h
    unfold insertLenDesc
    split
    · rename_i hle
      rw [List.pairwise_cons]
      refine ⟨?_, List.pairwise_cons.mpr h⟩
      intro z hz
      rcases List.mem_cons.mp hz with rfl | hz'
      · exact hle
      · exact le_trans (h.1 z hz') hle
    · rename_i hgt
      rw [List.pairwise_cons]
      refine ⟨?_, ih h.2⟩
      intro z hz
      rcases (mem_insertLenDesc x z t).mp hz with rfl | hz'
      · exact le_of_not_le hgt
      · exact h.1 z hz'

theorem pairwise_sortLenDesc (l : List Path) :
    (sortLenDesc l).Pairwise (fun a b => b.length ≤ a.length) := by
  induction l with
  | nil => simp [sortLenDesc]
  | cons x t ih => exact pairwise_insertLenDesc x _ ih

theorem emptyfold_mem_entries (src : Path) (L : List Path) (fs : FS)
    (q : Path) (n : Node) (hmem : (q, n) ∈ fs.entries)
    (hq : ∀ d ∈ L, q ≠ d) :
    (q, n) ∈ ((L.foldl (fun a d =>
        if d = src then a
        else if a.existsAt d && !(a.hasDesc d) then a.removeAll d
        else a) fs)).entries := by
  induction L generalizing fs with
  | nil => exact hmem
  | cons d rest ih =>
    rw [List.foldl_cons]
    refine ih _ ?_ (fun x hx => hq x (List.mem_cons_of_mem d hx))
    by_cases h1 : d = src
    · rw [if_pos h1]; exact hmem
    · rw [if_neg h1]
      by_cases h2 : (fs.existsAt d && !(fs.hasDesc d)) = true
      · rw [if_pos h2]
        show (q, n) ∈ (fs.entries.filter (fun e => !(e.1 == d)))
        rw [List.mem_filter]
        exact ⟨hmem, by simp [hq d (List.mem_cons_self d rest)]⟩
      · rw [if_neg h2]; exact hmem

theorem emptyfold_no_empty (src : Path) (L : List Path) (fs : FS)
    (hs : L.Pairwise (fun a b => b.length ≤ a.length)) :
    ∀ d ∈ L, d ≠ src →
      ((L.foldl (fun a x =>
          if x = src then a
          else if a.existsAt x && !(a.hasDesc x) then a.removeAll x
          else a) fs)).find d = none
      ∨ ((L.foldl (fun a x =>
          if x = src then a
          else if a.existsAt x && !(a.hasDesc x) then a.removeAll x
          else a) fs)).hasDesc d = true := by
  induction L generalizing fs with
  | nil => intro d hd; simp at hd
  | cons d0 rest ih =>
    intro d hd hdsrc
    rw [List.pairwise_cons] at hs
    rw [List.foldl_cons]
    rcases List.mem_cons.mp hd with rfl | hdrest
    · -- the head element is d itself
      rw [if_neg hdsrc]
      by_cases h2 : (fs.existsAt d && !(fs.hasDesc d)) = true
      · rw [if_pos h2]
        left
        refine foldl_removal_none (removalStep_empty src) rest _ d ?_
        rw [FS.find_removeAll, if_pos rfl]
      · rw [if_neg h2]
        by_cases h3 : fs.existsAt d = true
        · -- kept because it has a descendant entry; that entry survives,
          -- since everything processed later is at most as deep as `d`
          have h4 : fs.hasDesc d = true := by
            cases hx : fs.hasDesc d
            · exact absurd (by rw [h3, hx]; rfl) h2
            · rfl
          right
          unfold FS.hasDesc at h4
          rw [List.any_eq_true] at h4
          rcases h4 with ⟨⟨q, n⟩, hqmem, hqd⟩
          have hqlen : d.length < q.length := by
            rw [strictUnder_iff] at hqd
            rcases hqd.1.length_le.lt_or_eq with h | h
            · exact h
            · exact absurd (hqd.1.eq_of_length h).symm hqd.2
          refine FS.hasDesc_of_mem (emptyfold_mem_entries src rest fs q n hqmem ?_) hqd
          intro x hx hqq
          subst hqq
          exact Nat.lt_irrefl _ (Nat.lt_of_lt_of_le hqlen (hs.1 q hx))
        · left
          refine foldl_removal_none (removalStep_empty src) rest fs d ?_
          cases hx : fs.existsAt d
          · exact (FS.existsAt_eq_false_iff fs d).mp hx
          · exact absurd hx h3
    · exact ih _ hs.2 d hdrest hdsrc

theorem empty_phase_no_empty (ctx : ManagerCtx) (fs : FS)
    (hsrc : fs.existsAt ctx.src_dir = true) :
    ∀ d, strictUnder ctx.src_dir d = true →
      (cleanup_empty_dirs ctx fs).isDir d = true →
      (cleanup_empty_dirs ctx fs).hasDesc d = true := by
  intro d hd hdir
  unfold cleanup_empty_dirs at hdir ⊢
  rw [if_neg (by simp [hsrc])] at hdir ⊢
  simp only [] at hdir ⊢
  set L := sortLenDesc
    (fs.entries.filterMap
      (fun e =>
        match e.2 with
        | Node.dir => if strictUnder ctx.src_dir e.1 then some e.1 else none
        | _ => none)) with hL
  have hdirsome := (FS.isDir_iff _ d).mp hdir
  have hstart : fs.find d = some Node.dir := by
    rcases foldl_removal_find (removalStep_empty ctx.src_dir) L fs d with hh | hh
    · rw [← hh]; exact hdirsome
    · rw [hh] at hdirsome; exact absurd hdirsome (by simp)
  have hmemL : d ∈ L := by
    rw [hL, mem_sortLenDesc, List.mem_filterMap]
    exact ⟨(d, Node.dir), findEntry_some_mem hstart, by rw [if_pos hd]⟩
  have hdne : d ≠ ctx.src_dir := by
    rw [strictUnder_iff] at hd
    exact fun hc => hd.2 (by rw [hc])
  rcases emptyfold_no_empty ctx.src_dir L fs (hL ▸ pairwise_sortLenDesc _) d hmemL hdne
    with hh | hh
  · rw [hh] at hdirsome; exact absurd hdirsome (by simp)
  · exact hh

/-- C10: cleanup's effect is not limited to session-created paths.  For any
session whose tracked paths lie strictly inside the source root (as staging
produces), with the source root inside the project root and no egg-info-named
ancestors of the source root, a cleanup call leaves (a) no `*.egg-info`-named
directory below the source root or the project root — pre-existing ones
included — and (b) no empty directory strictly below the source root:
every surviving directory there has a descendant entry. -/
theorem C10_cleanup_frame (ctx : ManagerCtx) (st : BuildState)
    (h1 : ctx.project_root <+: ctx.src_dir)
    (h2 : st.fs.existsAt ctx.project_root = true)
    (h3 : st.fs.existsAt ctx.src_dir = true)
    (h4 : ∀ d ∈ st.copied_dirs, strictUnder ctx.src_dir d = true)
    (h5 : ∀ f ∈ st.copied_files, strictUnder ctx.src_dir f = true)
    (h6 : ∀ q, q <+: ctx.src_dir → segEndsWith (nameOf q) eggInfoSuffix = false) :
    (∀ e, (strictUnder ctx.src_dir e = true ∨ strictUnder ctx.project_root e = true) →
        segEndsWith (nameOf e) eggInfoSuffix = true →
        (cleanup ctx st).fs.isDir e = false)
    ∧ (∀ d, strictUnder ctx.src_dir d = true →
        (cleanup ctx st).fs.isDir d = true → (cleanup ctx st).fs.hasDesc d = true) := by
  unfold cleanup
  simp only []
  set fsA := st.copied_dirs.reverse.foldl
    (fun a d => if a.existsAt d then (if a.isDir d then a.rmtree d else a) else a)
    st.fs with hfsA
  set fsB := st.copied_files.foldl
    (fun a f => if a.existsAt f then (if a.isFile f then a.removeAll f else a) else a)
    fsA with hfsB
  have hAsrc : fsA.find ctx.src_dir = st.fs.find ctx.src_dir := by
    rw [hfsA]
    refine phaseA_frame _ _ _ (fun x hx hc => ?_)
    have hx1 := (strictUnder_iff _ _).mp (h4 x (List.mem_reverse.mp hx))
    exact hx1.2 (prefixAntisymm hc hx1.1)
  have hAproj : fsA.find ctx.project_root = st.fs.find ctx.project_root := by
    rw [hfsA]
    refine phaseA_frame _ _ _ (fun x hx hc => ?_)
    have hx1 := (strictUnder_iff _ _).mp (h4 x (List.mem_reverse.mp hx))
    exact hx1.2 (prefixAntisymm (hc.trans h1) hx1.1)
  have hBsrc : fsB.find ctx.src_dir = st.fs.find ctx.src_dir := by
    rw [hfsB]
    have hfr := phaseB_frame st.copied_files fsA ctx.src_dir
      (fun x hx hc => by
        have hx1 := (strictUnder_iff _ _).mp (h5 x hx)
        exact hx1.2 hc)
    rw [hfr, hAsrc]
  have hBproj : fsB.find ctx.project_root = st.fs.find ctx.project_root := by
    rw [hfsB]
    have hfr := phaseB_frame st.copied_files fsA ctx.project_root
      (fun x hx hc => by
        have hx1 := (strictUnder_iff _ _).mp (h5 x hx)
        subst hc
        exact hx1.2 (prefixAntisymm h1 hx1.1))
    rw [hfr, hAproj]
  have hBsrcEx : fsB.existsAt ctx.src_dir = true := by
    show (fsB.find ctx.src_dir).isSome = true
    rw [hBsrc]
    exact h3
  have hBprojEx : fsB.existsAt ctx.project_root = true := by
    show (fsB.find ctx.project_root).isSome = true
    rw [hBproj]
    exact h2
  set fsC := cleanup_egg_info_dirs ctx fsB with hfsC
  have hCsrc : fsC.find ctx.src_dir = fsB.find ctx.src_dir := by
    rw [hfsC]
    refine egg_phase_frame ctx fsB ctx.src_dir (fun e hegg hc => ?_)
    rw [h6 e hc] at hegg
    exact Bool.false_ne_true hegg
  have hCsrcEx : fsC.existsAt ctx.src_dir = true := by
    show (fsC.find ctx.src_dir).isSome = true
    rw [hCsrc, hBsrc]
    exact h3
  have hEggC : ∀ e,
      (strictUnder ctx.src_dir e = true ∨ strictUnder ctx.project_root e = true) →
      segEndsWith (nameOf e) eggInfoSuffix = true → fsC.isDir e = false := by
    rw [hfsC]
    exact egg_phase_no_egg_dir ctx fsB hBsrcEx h1 hBprojEx
  have hDremoval : ∀ q, (cleanup_empty_dirs ctx fsC).find q = fsC.find q
      ∨ (cleanup_empty_dirs ctx fsC).find q = none := by
    intro q
    unfold cleanup_empty_dirs
    by_cases hg : (!(fsC.existsAt ctx.src_dir)) = true
    · rw [if_pos hg]; left; rfl
    · rw [if_neg hg]
      exact foldl_removal_find (removalStep_empty ctx.src_dir) _ fsC q
  constructor
  · intro e hunder hegg
    rw [FS.isDir_eq_false_iff]
    have hCfalse := hEggC e hunder hegg
    rw [FS.isDir_eq_false_iff] at hCfalse
    rcases hDremoval e with hh | hh
    · rw [hh]; exact hCfalse
    · rw [hh]; simp
  · exact empty_phase_no_empty ctx fsC hCsrcEx

theorem prefix_of_pair {α : Type} {a b : α} {q : List α} (h : q <+: [a, b]) :
    q = [] ∨ q = [a] ∨ q = [a, b] := by
  rcases h with ⟨t, ht⟩
  match q, ht with
  | [], _ => left; rfl
  | [x], ht =>
    right; left
    simp at ht
    rw [ht.1]
  | [x, y], ht =>
    right; right
    simp at ht
    rw [ht.1, ht.2.1]
  | x :: y :: z :: rest, ht => simp at ht

/-- C10 witness: over `fsEggW` — pre-existing, untracked state — the theorem
yields that cleanup removes the `*.egg-info` directories under both roots and
that the surviving directory below the source root is non-empty. -/
theorem C10_witness :
    (cleanup mctxW stEggW).fs.isDir (srcW ++ [str ("old.egg-info")]) = false
    ∧ (cleanup mctxW stEggW).fs.isDir (projW ++ [str ("stale.egg-info")]) = false
    ∧ (cleanup mctxW stEggW).fs.hasDesc (srcW ++ [str ("keep")]) = true :=
  ⟨(C10_cleanup_frame mctxW stEggW (by decide) (by decide) (by decide) (by decide)
      (by decide)
      (fun q hq => by
        rcases prefix_of_pair hq with rfl | rfl | rfl <;> decide)).1
      (srcW ++ [str ("old.egg-info")]) (Or.inl (by decide)) (by decide),
   (C10_cleanup_frame mctxW stEggW (by decide) (by decide) (by decide) (by decide)
      (by decide)
      (fun q hq => by
        rcases prefix_of_pair hq with rfl | rfl | rfl <;> decide)).1
      (projW ++ [str ("stale.egg-info")]) (Or.inr (by decide)) (by decide),
   (C10_cleanup_frame mctxW stEggW (by decide) (by decide) (by decide) (by decide)
      (by decide)
      (fun q hq => by
        rcases prefix_of_pair hq with rfl | rfl | rfl <;> decide)).2
      (srcW ++ [str ("keep")]) (by decide) (by decide)⟩

/-! ## Claim C9: run_build ordering and guaranteed cleanup -/

theorem FS.isFile_eq_false_iff (fs : FS) (p : Path) :
    fs.isFile p = false ↔ ∀ c, fs.find p ≠ some (Node.file c) := by
  unfold FS.isFile
  cases h : fs.find p with
  | none => simp
  | some n => cases n <;> simp

theorem cleanup_empty_find_cases (ctx : ManagerCtx) (fs : FS) (q : Path) :
    (cleanup_empty_dirs ctx fs).find q = fs.find q
      ∨ (cleanup_empty_dirs ctx fs).find q = none := by
  unfold cleanup_empty_dirs
  by_cases hg : (!(fs.existsAt ctx.src_dir)) = true
  · rw [if_pos hg]; left; rfl
  · rw [if_neg hg]
    exact foldl_removal_find (removalStep_empty ctx.src_dir) _ fs q

theorem cleanup_egg_find_cases (ctx : ManagerCtx) (fs : FS) (q : Path) :
    (cleanup_egg_info_dirs ctx fs).find q = fs.find q
      ∨ (cleanup_egg_info_dirs ctx fs).find q = none := by
  rw [cleanup_egg_unfold]
  rcases egg_pass_find_cases (egg_pass fs ctx.src_dir) ctx.project_root q with h1 | h1
  · rw [h1]
    exact egg_pass_find_cases fs ctx.src_dir q
  · right; exact h1

theorem phaseA_processed (dirs : List Path) (fs : FS) (d : Path) (hd : d ∈ dirs) :
    ((dirs.foldl (fun a x =>
        if a.existsAt x then (if a.isDir x then a.rmtree x else a) else a) fs)).isDir d
      = false := by
  induction dirs generalizing fs with
  | nil => simp at hd
  | cons c rest ih =>
    rw [List.foldl_cons]
    rcases List.mem_cons.mp hd with rfl | hrest
    · rw [FS.isDir_eq_false_iff]
      by_cases h1 : fs.existsAt d = true
      · by_cases h2 : fs.isDir d = true
        · have hnone : (if fs.existsAt d then (if fs.isDir d then fs.rmtree d else fs) else fs).find d
              = none := by
            rw [if_pos h1, if_pos h2, FS.find_rmtree, if_pos (List.prefix_refl d)]
          rw [foldl_removal_none removalStep_phaseA rest _ d hnone]
          simp
        · have hkeep : (if fs.existsAt d then (if fs.isDir d then fs.rmtree d else fs) else fs)
              = fs := by rw [if_pos h1, if_neg h2]
          rw [hkeep]
          have hne : fs.find d ≠ some Node.dir := (FS.isDir_eq_false_iff fs d).mp
            (by cases hx : fs.isDir d; rfl; exact absurd hx h2)
          rcases foldl_removal_find removalStep_phaseA rest fs d with hh | hh
          · rw [hh]; exact hne
          · rw [hh]; simp
      · have hkeep : (if fs.existsAt d then (if fs.isDir d then fs.rmtree d else fs) else fs)
            = fs := by rw [if_neg h1]
        rw [hkeep]
        have hnone : fs.find d = none := by
          cases hx : fs.existsAt d
          · exact (FS.existsAt_eq_false_iff fs d).mp hx
          · exact absurd hx h1
        rw [foldl_removal_none removalStep_phaseA rest fs d hnone]
        simp
    · exact ih _ hrest

theorem phaseB_processed (files : List Path) (fs : FS) (f : Path) (hf : f ∈ files) :
    ((files.foldl (fun a x =>
        if a.existsAt x then (if a.isFile x then a.removeAll x else a) else a) fs)).isFile f
      = false := by
  induction files generalizing fs with
  | nil => simp at hf
  | cons c rest ih =>
    rw [List.foldl_cons]
    rcases List.mem_cons.mp hf with rfl | hrest
    · rw [FS.isFile_eq_false_iff]
      by_cases h1 : fs.existsAt f = true
      · by_cases h2 : fs.isFile f = true
        · have hnone : (if fs.existsAt f then (if fs.isFile f then fs.removeAll f else fs) else fs).find f
              = none := by
            rw [if_pos h1, if_pos h2, FS.find_removeAll, if_pos rfl]
          rw [foldl_removal_none removalStep_phaseB rest _ f hnone]
          simp
        · have hkeep : (if fs.existsAt f then (if fs.isFile f then fs.removeAll f else fs) else fs)
              = fs := by rw [if_pos h1, if_neg h2]
          rw [hkeep]
          have hne := (FS.isFile_eq_false_iff fs f).mp
            (by cases hx : fs.isFile f; rfl; exact absurd hx h2)
          intro c
          rcases foldl_removal_find removalStep_phaseB rest fs f with hh | hh
          · rw [hh]; exact hne c
          · rw [hh]; simp
      · have hkeep : (if fs.existsAt f then (if fs.isFile f then fs.removeAll f else fs) else fs)
            = fs := by rw [if_neg h1]
        rw [hkeep]
        have hnone : fs.find f = none := by
          cases hx : fs.existsAt f
          · exact (FS.existsAt_eq_false_iff fs f).mp hx
          · exact absurd hx h1
        intro c
        rw [foldl_removal_none removalStep_phaseB rest fs f hnone]
        simp
    · exact ih _ hrest

/-- After a cleanup call, no tracked directory is still a directory and no
tracked file is still a regular file, whatever the surrounding state. -/
theorem cleanup_clears_tracked (ctx : ManagerCtx) (st : BuildState) :
    (∀ d ∈ st.copied_dirs, (cleanup ctx st).fs.isDir d = false)
    ∧ (∀ f ∈ st.copied_files, (cleanup ctx st).fs.isFile f = false) := by
  unfold cleanup
  simp only []
  set fsA := st.copied_dirs.reverse.foldl
    (fun a d => if a.existsAt d then (if a.isDir d then a.rmtree d else a) else a)
    st.fs with hfsA
  set fsB := st.copied_files.foldl
    (fun a f => if a.existsAt f then (if a.isFile f then a.removeAll f else a) else a)
    fsA with hfsB
  constructor
  · intro d hd
    have hA : fsA.isDir d = false := by
      rw [hfsA]
      exact phaseA_processed _ st.fs d (List.mem_reverse.mpr hd)
    have hB : fsB.isDir d = false := by
      rw [FS.isDir_eq_false_iff] at hA ⊢
      rcases foldl_removal_find removalStep_phaseB st.copied_files fsA d with hh | hh
      · rw [hfsB, hh]; exact hA
      · rw [hfsB, hh]; simp
    have hC : (cleanup_egg_info_dirs ctx fsB).isDir d = false := by
      rw [FS.isDir_eq_false_iff] at hB ⊢
      rcases cleanup_egg_find_cases ctx fsB d with hh | hh
      · rw [hh]; exact hB
      · rw [hh]; simp
    rw [FS.isDir_eq_false_iff] at hC ⊢
    rcases cleanup_empty_find_cases ctx (cleanup_egg_info_dirs ctx fsB) d with hh | hh
    · rw [hh]; exact hC
    · rw [hh]; simp
  · intro f hf
    have hB : fsB.isFile f = false := by
      rw [hfsB]
      exact phaseB_processed _ fsA f hf
    have hC : (cleanup_egg_info_dirs ctx fsB).isFile f = false := by
      rw [FS.isFile_eq_false_iff] at hB ⊢
      intro c
      rcases cleanup_egg_find_cases ctx fsB f with hh | hh
      · rw [hh]; exact hB c
      · rw [hh]; simp
    rw [FS.isFile_eq_false_iff] at hC ⊢
    intro c
    rcases cleanup_empty_find_cases ctx (cleanup_egg_info_dirs ctx fsB) f with hh | hh
    · rw [hh]; exact hC c
    · rw [hh]; simp

/-- C9: `run_build` stages, invokes the opaque command on the staged file
system, and then unstages — with the unstage step executing in both the
normal and the raising branch.  For every command: the command's error (if
any) is propagated unchanged; the final state is exactly `cleanup` applied to
the post-command state of the staged session; the tracking lists end empty;
and every directory and file the staging step tracked is gone afterwards. -/
theorem C9_run_build (ctx : ManagerCtx) (st : BuildState)
    (cmd : FS → FS × Option Seg) :
    (run_build ctx st cmd).1 = (cmd (prepare_build ctx st).1.fs).2
    ∧ (run_build ctx st cmd).2
        = cleanup ctx
            { (prepare_build ctx st).1 with fs := (cmd (prepare_build ctx st).1.fs).1 }
    ∧ (run_build ctx st cmd).2.copied_files = []
    ∧ (run_build ctx st cmd).2.copied_dirs = []
    ∧ (∀ d ∈ (prepare_build ctx st).1.copied_dirs,
        (run_build ctx st cmd).2.fs.isDir d = false)
    ∧ (∀ f ∈ (prepare_build ctx st).1.copied_files,
        (run_build ctx st cmd).2.fs.isFile f = false) := by
  have hrb : run_build ctx st cmd
      = ((cmd (prepare_build ctx st).1.fs).2,
         cleanup ctx
           { (prepare_build ctx st).1 with fs := (cmd (prepare_build ctx st).1.fs).1 }) := by
    unfold run_build
    rcases h : cmd (prepare_build ctx st).1.fs with ⟨fs2, err⟩
    cases err <;> simp [h]
  rw [hrb]
  refine ⟨rfl, rfl, rfl, rfl, ?_, ?_⟩
  · intro d hd
    exact (cleanup_clears_tracked ctx
      { (prepare_build ctx st).1 with fs := (cmd (prepare_build ctx st).1.fs).1 }).1 d hd
  · intro f hf
    exact (cleanup_clears_tracked ctx
      { (prepare_build ctx st).1 with fs := (cmd (prepare_build ctx st).1.fs).1 }).2 f hf

/-! ## Claims C1 and C2: duplicate-key machinery -/

theorem findEntry_none_iff (l : List (Path × Node)) (p : Path) :
    findEntry l p = none ↔ p ∉ l.map Prod.fst := by
  induction l with
  | nil => simp [findEntry]
  | cons e rest ih =>
    unfold findEntry
    by_cases h : e.1 = p
    · rw [if_pos h]
      constructor
      · intro hc
        exact absurd hc (by simp)
      · intro hc
        exfalso
        exact hc (by rw [List.map_cons, h]; exact List.mem_cons_self p _)
    · rw [if_neg h, ih]
      constructor
      · intro hc hm
        rw [List.map_cons] at hm
        rcases List.mem_cons.mp hm with h1 | h1
        · exact h h1.symm
        · exact hc h1
      · intro hc hm
        exact hc (by rw [List.map_cons]; exact List.mem_cons_of_mem _ hm)

theorem mem_findEntry_of_nodup {l : List (Path × Node)}
    (hnd : (l.map Prod.fst).Nodup) {p : Path} {n : Node} (hmem : (p, n) ∈ l) :
    findEntry l p = some n := by
  induction l with
  | nil => simp at hmem
  | cons e rest ih =>
    rw [List.map_cons, List.nodup_cons] at hnd
    rcases List.mem_cons.mp hmem with he | hmem'
    · rw [← he]
      simp [findEntry]
    · unfold findEntry
      by_cases h : e.1 = p
      · exfalso
        apply hnd.1
        rw [h]
        exact List.mem_map_of_mem Prod.fst hmem'
      · simp [h, ih hnd.2 hmem']

theorem find_some_iff_mem (fs : FS) (hnd : KeyNodup fs) (p : Path) (n : Node) :
    fs.find p = some n ↔ (p, n) ∈ fs.entries :=
  ⟨findEntry_some_mem, mem_findEntry_of_nodup hnd⟩

theorem keyNodup_filter (fs : FS) (P : Path × Node → Bool) (h : KeyNodup fs) :
    KeyNodup ⟨fs.entries.filter P⟩ :=
  List.Nodup.sublist (List.Sublist.map Prod.fst (List.filter_sublist _)) h

theorem keyNodup_removeAll (fs : FS) (p : Path) (h : KeyNodup fs) :
    KeyNodup (fs.removeAll p) :=
  keyNodup_filter fs _ h

theorem keyNodup_rmtree (fs : FS) (p : Path) (h : KeyNodup fs) :
    KeyNodup (fs.rmtree p) :=
  keyNodup_filter fs _ h

theorem keyNodup_setEntry (fs : FS) (p : Path) (n : Node) (h : KeyNodup fs) :
    KeyNodup (fs.setEntry p n) := by
  show ((p, n) :: (fs.removeAll p).entries).map Prod.fst |>.Nodup
  rw [List.map_cons, List.nodup_cons]
  constructor
  · intro hc
    rcases List.mem_map.mp hc with ⟨e, he, hfst⟩
    have := List.mem_filter.mp he
    rw [hfst] at this
    simp at this
  · exact keyNodup_removeAll fs p h

theorem keyNodup_setFile (fs : FS) (p : Path) (c : Seg) (h : KeyNodup fs) :
    KeyNodup (fs.setFile p c) :=
  keyNodup_setEntry fs p (Node.file c) h

theorem keyNodup_mkdirAt (fs : FS) (p : Path) (h : KeyNodup fs) :
    KeyNodup (fs.mkdirAt p) := by
  unfold FS.mkdirAt
  by_cases hs : (fs.find p).isSome
  · rw [if_pos hs]; exact h
  · rw [if_neg hs]
    show ((p, Node.dir) :: fs.entries).map Prod.fst |>.Nodup
    rw [List.map_cons, List.nodup_cons]
    refine ⟨?_, h⟩
    have hnone : fs.find p = none := by
      cases hx : fs.find p
      · rfl
      · rw [hx] at hs; simp at hs
    exact (findEntry_none_iff fs.entries p).mp hnone

theorem keyNodup_foldl {α : Type} (step : FS → α → FS)
    (hstep : ∀ fs x, KeyNodup fs → KeyNodup (step fs x)) (L : List α) (fs : FS)
    (h : KeyNodup fs) : KeyNodup (L.foldl step fs) := by
  induction L generalizing fs with
  | nil => exact h
  | cons x rest ih => exact ih _ (hstep fs x h)

theorem keyNodup_mkdirp (fs : FS) (p : Path) (h : KeyNodup fs) :
    KeyNodup (fs.mkdirp p) :=
  keyNodup_foldl FS.mkdirAt keyNodup_mkdirAt _ fs h

theorem keyNodup_writefold (L : List (Path × Node)) (fs : FS) (h : KeyNodup fs) :
    KeyNodup (L.foldl writeStep fs) := by
  refine keyNodup_foldl _ ?_ L fs h
  intro g e hg
  match e with
  | (p, Node.file c) => exact keyNodup_setFile g p c hg
  | (p, Node.dir) => exact hg

theorem keyNodup_initfold (L : List Path) (pr : FS × List Path) (h : KeyNodup pr.1) :
    KeyNodup ((L.foldl initStep pr)).1 := by
  induction L generalizing pr with
  | nil => exact h
  | cons ip rest ih =>
    rw [List.foldl_cons]
    refine ih _ ?_
    unfold initStep
    by_cases hx : pr.1.existsAt ip = true
    · rw [if_pos hx]; exact h
    · rw [if_neg hx]; exact keyNodup_setFile pr.1 ip [] h

theorem keyNodup_copytree (ctx : ManagerCtx) (fs : FS) (src dst : Path)
    (h : KeyNodup fs) : KeyNodup (copytree_excluding ctx fs src dst).1 := by
  unfold copytree_excluding
  simp only []
  exact keyNodup_initfold _ _
    (keyNodup_writefold _ _ (keyNodup_foldl FS.mkdirAt keyNodup_mkdirAt _ fs h))

theorem keyNodup_chainaux (L : List Path) (fs : FS) (tr : List Path)
    (h : KeyNodup fs) :
    KeyNodup ((L.foldl chainStep (fs, tr))).1 := by
  induction L generalizing fs tr with
  | nil => exact h
  | cons p rest ih =>
    rw [List.foldl_cons]
    unfold chainStep
    simp only []
    by_cases hx : (!(fs.existsAt (p ++ [initName])) && fs.hasPyUnder p) = true
    · rw [if_pos hx]
      exact ih _ _ (keyNodup_setFile fs _ _ h)
    · rw [if_neg hx]
      exact ih _ _ h

theorem keyNodup_chainfold (fs : FS) (tr : List Path) (srcd target : Path)
    (h : KeyNodup fs) : KeyNodup (apply_chain_inits fs tr srcd target).1 :=
  keyNodup_chainaux (chain_parents srcd target) fs tr h

set_option maxHeartbeats 2000000 in
theorem keyNodup_copy_dependency (ctx : ManagerCtx) (st : BuildState)
    (dep : ExternalDependency) (h : KeyNodup st.fs) :
    KeyNodup (copy_dependency ctx st dep).fs := by
  unfold copy_dependency
  simp only []
  have h1 := keyNodup_mkdirp st.fs (parentOf dep.target_path) h
  repeat' split
  all_goals
    first
      | exact h
      | exact h1
      | exact keyNodup_setFile _ _ _ h1
      | exact keyNodup_setFile _ _ _ (keyNodup_setFile _ _ _ h1)
      | exact keyNodup_chainfold _ _ _ _
          (keyNodup_copytree _ _ _ _ (keyNodup_rmtree _ _ h1))
      | exact keyNodup_chainfold _ _ _ _ (keyNodup_copytree _ _ _ _ h1)
      | exact keyNodup_copytree _ _ _ _ (keyNodup_rmtree _ _ h1)
      | exact keyNodup_copytree _ _ _ _ h1

theorem keyNodup_stage_all (ctx : ManagerCtx) (L : List ExternalDependency)
    (st : BuildState) (h : KeyNodup st.fs) : KeyNodup (stage_all ctx L st).fs := by
  unfold stage_all
  induction L generalizing st with
  | nil => exact h
  | cons dep rest ih =>
    rw [List.foldl_cons]
    exact ih _ (keyNodup_copy_dependency ctx st dep h)

/-- C5 witness: the invariant instantiated at the concrete external import
`pkg.mod` over `fsPkgW`. -/
theorem C5_witness :
    impPkgW.resolved_path = none
      ∧ (((classify_import mctxW.analyzer fsPkgW impPkgW srcW).resolved_path ≠ none
            ↔ (classify_import mctxW.analyzer fsPkgW impPkgW srcW).classification
                = some Classification.localDep
              ∨ (classify_import mctxW.analyzer fsPkgW impPkgW srcW).classification
                = some Classification.external)
          ∧ (∀ p,
              (classify_import mctxW.analyzer fsPkgW impPkgW srcW).resolved_path = some p →
                ((classify_import mctxW.analyzer fsPkgW impPkgW srcW).classification
                    = some Classification.localDep ↔ srcW <+: p))) :=
  ⟨by decide, C5_invariant mctxW.analyzer fsPkgW impPkgW srcW (by decide)⟩

/-! ## Claims C1 and C2: characterization of the copytree model -/

theorem prefix_append_drop {p q : Path} (h : p <+: q) : p ++ q.drop p.length = q :=
  List.prefix_iff_eq_append.mp h

theorem mem_ct_copied_iff (ctx : ManagerCtx) (fs : FS) (hnd : KeyNodup fs)
    (src dst : Path) (q : Path) (n : Node) :
    (q, n) ∈ ct_copied ctx fs src dst
      ↔ dst <+: q ∧ q ≠ dst
          ∧ should_exclude_path ctx.finder (src ++ q.drop dst.length) = false
          ∧ fs.find (src ++ q.drop dst.length) = some n := by
  unfold ct_copied
  rw [List.mem_filterMap]
  constructor
  · rintro ⟨e, hmem, heq⟩
    by_cases hc : (strictUnder src e.1 && !(should_exclude_path ctx.finder e.1)) = true
    · rw [if_pos hc, Option.some.injEq, Prod.mk.injEq] at heq
      rw [Bool.and_eq_true, Bool.not_eq_true', strictUnder_iff] at hc
      obtain ⟨⟨hpre, hne⟩, hexcl⟩ := hc
      have hfill : src ++ e.1.drop src.length = e.1 := prefix_append_drop hpre
      have hdrop : q.drop dst.length = e.1.drop src.length := by
        rw [← heq.1, List.drop_left]
      refine ⟨?_, ?_, ?_, ?_⟩
      · rw [← heq.1]; exact List.prefix_append _ _
      · intro h0
        apply hne
        have h1 : dst ++ e.1.drop src.length = dst ++ [] := by
          rw [List.append_nil, heq.1]
          exact h0
        have h2 := List.append_cancel_left h1
        rw [← hfill, h2, List.append_nil]
      · rw [hdrop, hfill]; exact hexcl
      · rw [hdrop, hfill, ← heq.2]
        exact mem_findEntry_of_nodup hnd (by rw [Prod.mk.eta]; exact hmem)
    · rw [if_neg hc] at heq
      exact absurd heq (by simp)
  · rintro ⟨hpre, hne, hexcl, hfind⟩
    refine ⟨(src ++ q.drop dst.length, n), findEntry_some_mem hfind, ?_⟩
    have hfill : dst ++ q.drop dst.length = q := prefix_append_drop hpre
    have hs : q.drop dst.length ≠ [] := by
      intro h0
      apply hne
      rw [h0, List.append_nil] at hfill
      exact hfill.symm
    have hcond : (strictUnder src (src ++ q.drop dst.length)
        && !(should_exclude_path ctx.finder (src ++ q.drop dst.length))) = true := by
      rw [Bool.and_eq_true, Bool.not_eq_true', strictUnder_iff]
      exact ⟨⟨List.prefix_append _ _,
        fun h0 => hs (List.append_cancel_left (h0.trans (List.append_nil src).symm))⟩,
        hexcl⟩
    rw [if_pos hcond, Option.some.injEq, Prod.mk.injEq]
    exact ⟨by rw [List.drop_left, hfill], rfl⟩

theorem ct_keys_nodup_aux (ctx : ManagerCtx) (src dst : Path) :
    ∀ l : List (Path × Node), (l.map Prod.fst).Nodup →
      ((l.filterMap (fun e =>
        if strictUnder src e.1 && !(should_exclude_path ctx.finder e.1) then
          some (dst ++ e.1.drop src.length, e.2)
        else none)).map Prod.fst).Nodup := by
  intro l hnd
  induction l with
  | nil => simp
  | cons e rest ih =>
    rw [List.map_cons, List.nodup_cons] at hnd
    rw [List.filterMap_cons]
    by_cases hc : (strictUnder src e.1 && !(should_exclude_path ctx.finder e.1)) = true
    · rw [if_pos hc]
      show ((dst ++ e.1.drop src.length, e.2) ::
        (rest.filterMap _)).map Prod.fst |>.Nodup
      rw [List.map_cons, List.nodup_cons]
      refine ⟨?_, ih hnd.2⟩
      intro hmem
      rcases List.mem_map.mp hmem with ⟨e', he', hfst⟩
      rcases List.mem_filterMap.mp he' with ⟨a, ha, hfa⟩
      by_cases hca : (strictUnder src a.1 && !(should_exclude_path ctx.finder a.1)) = true
      · rw [if_pos hca, Option.some.injEq] at hfa
        rw [Bool.and_eq_true, strictUnder_iff] at hc hca
        have hkey : dst ++ a.1.drop src.length = dst ++ e.1.drop src.length := by
          have h2 : e'.1 = dst ++ a.1.drop src.length := by rw [← hfa]
          rw [← h2]
          exact hfst
        have hdrop := List.append_cancel_left hkey
        have h1 : a.1 = e.1 := by
          rw [← prefix_append_drop hca.1.1, hdrop, prefix_append_drop hc.1.1]
        apply hnd.1
        rw [← h1]
        exact List.mem_map_of_mem Prod.fst ha
      · rw [if_neg hca] at hfa
        exact absurd hfa (by simp)
    · rw [if_neg hc]
      exact ih hnd.2

theorem ct_copied_key_nodup (ctx : ManagerCtx) (fs : FS) (hnd : KeyNodup fs)
    (src dst : Path) : ((ct_copied ctx fs src dst).map Prod.fst).Nodup :=
  ct_keys_nodup_aux ctx src dst fs.entries hnd

theorem findEntry_ct_copied (ctx : ManagerCtx) (fs : FS) (hnd : KeyNodup fs)
    (src dst q : Path) :
    findEntry (ct_copied ctx fs src dst) q
      = if dst <+: q ∧ q ≠ dst
            ∧ should_exclude_path ctx.finder (src ++ q.drop dst.length) = false
        then fs.find (src ++ q.drop dst.length)
        else none := by
  by_cases hc : dst <+: q ∧ q ≠ dst
      ∧ should_exclude_path ctx.finder (src ++ q.drop dst.length) = false
  · rw [if_pos hc]
    cases hf : fs.find (src ++ q.drop dst.length) with
    | some n =>
      exact mem_findEntry_of_nodup (ct_copied_key_nodup ctx fs hnd src dst)
        ((mem_ct_copied_iff ctx fs hnd src dst q n).mpr ⟨hc.1, hc.2.1, hc.2.2, hf⟩)
    | none =>
      rw [findEntry_none_iff]
      intro hmem
      rcases List.mem_map.mp hmem with ⟨e, he, hfst⟩
      have he2 : (e.1, e.2) ∈ ct_copied ctx fs src dst := by
        rw [Prod.mk.eta]; exact he
      obtain ⟨_, _, _, hsome⟩ :=
        (mem_ct_copied_iff ctx fs hnd src dst e.1 e.2).mp he2
      rw [hfst, hf] at hsome
      exact Option.noConfusion hsome
  · rw [if_neg hc, findEntry_none_iff]
    intro hmem
    rcases List.mem_map.mp hmem with ⟨e, he, hfst⟩
    have he2 : (e.1, e.2) ∈ ct_copied ctx fs src dst := by
      rw [Prod.mk.eta]; exact he
    obtain ⟨h1, h2, h3, _⟩ := (mem_ct_copied_iff ctx fs hnd src dst e.1 e.2).mp he2
    rw [hfst] at h1 h2 h3
    exact hc ⟨h1, h2, h3⟩

theorem ct_copied_key_under (ctx : ManagerCtx) (fs : FS) (src dst : Path)
    {e : Path × Node} (he : e ∈ ct_copied ctx fs src dst) :
    dst <+: e.1 ∧ e.1 ≠ dst := by
  unfold ct_copied at he
  rcases List.mem_filterMap.mp he with ⟨a, _, hfa⟩
  by_cases hc : (strictUnder src a.1 && !(should_exclude_path ctx.finder a.1)) = true
  · rw [if_pos hc, Option.some.injEq] at hfa
    rw [Bool.and_eq_true, strictUnder_iff] at hc
    have h1 : e.1 = dst ++ a.1.drop src.length := by rw [← hfa]
    have hs : a.1.drop src.length ≠ [] := by
      intro h0
      apply hc.1.2
      have := prefix_append_drop hc.1.1
      rw [h0, List.append_nil] at this
      exact this.symm
    constructor
    · rw [h1]; exact List.prefix_append _ _
    · intro h0
      apply hs
      rw [h0] at h1
      exact List.append_cancel_left (h1.symm.trans (List.append_nil dst).symm)
  · rw [if_neg hc] at hfa
    exact absurd hfa (by simp)

theorem mem_ct_created_iff (ctx : ManagerCtx) (fs : FS) (hnd : KeyNodup fs)
    (src dst d : Path) :
    d ∈ ct_created_dirs (ct_copied ctx fs src dst) dst
      ↔ d = dst
        ∨ (dst <+: d ∧ d ≠ dst
            ∧ should_exclude_path ctx.finder (src ++ d.drop dst.length) = false
            ∧ fs.find (src ++ d.drop dst.length) = some Node.dir) := by
  unfold ct_created_dirs
  rw [List.mem_cons]
  apply or_congr Iff.rfl
  rw [List.mem_filterMap]
  constructor
  · rintro ⟨e, he, hpick⟩
    rcases e with ⟨p, n⟩
    cases n with
    | file c => exact absurd hpick (by simp)
    | dir =>
      rw [Option.some.injEq] at hpick
      rw [← hpick]
      exact (mem_ct_copied_iff ctx fs hnd src dst p Node.dir).mp he
  · rintro ⟨h1, h2, h3, h4⟩
    exact ⟨(d, Node.dir),
      (mem_ct_copied_iff ctx fs hnd src dst d Node.dir).mpr ⟨h1, h2, h3, h4⟩, rfl⟩

theorem mem_ct_created_below (ctx : ManagerCtx) (fs : FS) (src dst d : Path)
    (hd : d ∈ ct_created_dirs (ct_copied ctx fs src dst) dst) : dst <+: d := by
  unfold ct_created_dirs at hd
  rcases List.mem_cons.mp hd with h | h
  · rw [h]
  · rcases List.mem_filterMap.mp h with ⟨e, he, hpick⟩
    have hu := ct_copied_key_under ctx fs src dst he
    rcases e with ⟨p, n⟩
    cases n with
    | file c => exact absurd hpick (by simp)
    | dir =>
      rw [Option.some.injEq] at hpick
      rw [← hpick]
      exact hu.1

theorem filterMap_key_sublist {α β : Type} (f : α → Option β) (g : α → β)
    (hf : ∀ a, f a = none ∨ f a = some (g a)) (l : List α) :
    (l.filterMap f).Sublist (l.map g) := by
  induction l with
  | nil => simp
  | cons a rest ih =>
    rw [List.filterMap_cons, List.map_cons]
    rcases hf a with h | h
    · rw [h]
      exact ih.cons _
    · rw [h]
      exact ih.cons₂ _

theorem ct_created_dirs_nodup (ctx : ManagerCtx) (fs : FS) (hnd : KeyNodup fs)
    (src dst : Path) : (ct_created_dirs (ct_copied ctx fs src dst) dst).Nodup := by
  unfold ct_created_dirs
  rw [List.nodup_cons]
  constructor
  · intro hdst
    rcases List.mem_filterMap.mp hdst with ⟨e, he, hpick⟩
    have hu := ct_copied_key_under ctx fs src dst he
    rcases e with ⟨p, n⟩
    cases n with
    | file c => exact absurd hpick (by simp)
    | dir =>
      rw [Option.some.injEq] at hpick
      exact hu.2 hpick
  · refine List.Nodup.sublist
      (filterMap_key_sublist _ Prod.fst ?_ (ct_copied ctx fs src dst))
      (ct_copied_key_nodup ctx fs hnd src dst)
    rintro ⟨p, n⟩
    cases n <;> simp

theorem mem_ct_init_paths_iff (copied : List (Path × Node)) (dst ip : Path) :
    ip ∈ ct_init_paths copied dst
      ↔ ∃ d, d ∈ ct_created_dirs copied dst ∧ ct_has_py_below copied d = true
          ∧ ip = d ++ [initName] := by
  unfold ct_init_paths ct_init_dirs
  rw [List.mem_map]
  constructor
  · rintro ⟨d, hd, hip⟩
    have h := List.mem_filter.mp hd
    exact ⟨d, h.1, h.2, hip.symm⟩
  · rintro ⟨d, h1, h2, h3⟩
    exact ⟨d, List.mem_filter.mpr ⟨h1, h2⟩, h3.symm⟩

theorem ct_init_paths_nodup (ctx : ManagerCtx) (fs : FS) (hnd : KeyNodup fs)
    (src dst : Path) : (ct_init_paths (ct_copied ctx fs src dst) dst).Nodup := by
  unfold ct_init_paths ct_init_dirs
  refine List.Nodup.map ?_ (List.Nodup.filter _ (ct_created_dirs_nodup ctx fs hnd src dst))
  intro a b hab
  exact List.append_cancel_right hab

theorem ct_has_py_below_iff (copied : List (Path × Node)) (d : Path) :
    ct_has_py_below copied d = true
      ↔ ∃ q n, (q, n) ∈ copied ∧ strictUnder d q = true
          ∧ segEndsWith (nameOf q) pyExt = true
          ∧ (n = Node.dir → parentOf q ≠ d) := by
  unfold ct_has_py_below
  rw [List.any_eq_true]
  constructor
  · rintro ⟨e, he, hpred⟩
    rcases e with ⟨q, n⟩
    cases n with
    | file c =>
      have hp : (strictUnder d q && segEndsWith (nameOf q) pyExt) = true := hpred
      rw [Bool.and_eq_true] at hp
      exact ⟨q, Node.file c, he, hp.1, hp.2, fun h => Node.noConfusion h⟩
    | dir =>
      have hp : (strictUnder d q && !(parentOf q == d)
          && segEndsWith (nameOf q) pyExt) = true := hpred
      rw [Bool.and_eq_true, Bool.and_eq_true, Bool.not_eq_true', beq_eq_false_iff_ne] at hp
      exact ⟨q, Node.dir, he, hp.1.1, hp.2, fun _ => hp.1.2⟩
  · rintro ⟨q, n, hmem, h1, h2, h3⟩
    cases n with
    | file c =>
      exact ⟨(q, Node.file c), hmem,
        show (strictUnder d q && segEndsWith (nameOf q) pyExt) = true from by
          rw [Bool.and_eq_true]
          exact ⟨h1, h2⟩⟩
    | dir =>
      exact ⟨(q, Node.dir), hmem,
        show (strictUnder d q && !(parentOf q == d)
            && segEndsWith (nameOf q) pyExt) = true from by
          rw [Bool.and_eq_true, Bool.and_eq_true, Bool.not_eq_true', beq_eq_false_iff_ne]
          exact ⟨⟨h1, h3 rfl⟩, h2⟩⟩

theorem writeStep_dir (a : FS) (p : Path) : writeStep a (p, Node.dir) = a := rfl

theorem writeStep_file (a : FS) (p : Path) (c : Seg) :
    writeStep a (p, Node.file c) = a.setFile p c := rfl

theorem findEntry_cons (e : Path × Node) (rest : List (Path × Node)) (q : Path) :
    findEntry (e :: rest) q = if e.1 = q then some e.2 else findEntry rest q := rfl

theorem find_writefold (copied : List (Path × Node)) :
    ∀ (fs : FS), (copied.map Prod.fst).Nodup →
    ∀ q, (copied.foldl writeStep fs).find q
      = match findEntry copied q with
        | some (Node.file c) => some (Node.file c)
        | _ => fs.find q := by
  induction copied with
  | nil => intro fs _ q; rfl
  | cons e rest ih =>
    intro fs hnd q
    rw [List.map_cons, List.nodup_cons] at hnd
    rw [List.foldl_cons]
    rcases e with ⟨p, n⟩
    cases n with
    | dir =>
      rw [writeStep_dir, ih fs hnd.2 q, findEntry_cons]
      by_cases hpq : p = q
      · subst hpq
        have hr : findEntry rest p = none := (findEntry_none_iff rest p).mpr hnd.1
        rw [hr, if_pos rfl]
      · rw [if_neg (show ¬ ((p, Node.dir).1 = q) from hpq)]
    | file c =>
      rw [writeStep_file, ih (fs.setFile p c) hnd.2 q, findEntry_cons]
      by_cases hpq : p = q
      · subst hpq
        have hr : findEntry rest p = none := (findEntry_none_iff rest p).mpr hnd.1
        rw [hr, if_pos rfl]
        show (fs.setFile p c).find p = some (Node.file c)
        rw [FS.find_setFile, if_pos rfl]
      · rw [if_neg (show ¬ ((p, Node.file c).1 = q) from hpq)]
        cases hfe : findEntry rest q with
        | none =>
          show (fs.setFile p c).find q = fs.find q
          rw [FS.find_setFile, if_neg (fun h : q = p => hpq h.symm)]
        | some n' =>
          cases n' with
          | file c' => rfl
          | dir =>
            show (fs.setFile p c).find q = fs.find q
            rw [FS.find_setFile, if_neg (fun h : q = p => hpq h.symm)]

theorem initStep_existing {pr : FS × List Path} {ip : Path}
    (h : pr.1.existsAt ip = true) : initStep pr ip = pr := by
  unfold initStep
  rw [if_pos h]

theorem initStep_missing {pr : FS × List Path} {ip : Path}
    (h : pr.1.existsAt ip = false) :
    initStep pr ip = (pr.1.setFile ip [], pr.2 ++ [ip]) := by
  unfold initStep
  rw [if_neg (by simp [h])]

theorem find_initfold (L : List Path) :
    ∀ (pr : FS × List Path), L.Nodup → ∀ q,
    ((L.foldl initStep pr)).1.find q
      = if q ∈ L ∧ pr.1.find q = none then some (Node.file []) else pr.1.find q := by
  induction L with
  | nil =>
    intro pr _ q
    simp
  | cons ip rest ih =>
    intro pr hnd q
    rw [List.nodup_cons] at hnd
    rw [List.foldl_cons]
    by_cases hex : pr.1.existsAt ip = true
    · rw [initStep_existing hex, ih pr hnd.2 q]
      by_cases hq : q = ip
      · subst hq
        have hne : pr.1.find q ≠ none := by
          rw [FS.existsAt] at hex
          intro h0
          rw [h0] at hex
          exact Bool.noConfusion hex
        rw [if_neg (fun h : q ∈ rest ∧ pr.1.find q = none => hne h.2),
          if_neg (fun h : q ∈ q :: rest ∧ pr.1.find q = none => hne h.2)]
      · by_cases hm : q ∈ rest ∧ pr.1.find q = none
        · rw [if_pos hm, if_pos ⟨List.mem_cons_of_mem _ hm.1, hm.2⟩]
        · rw [if_neg hm, if_neg (fun h : q ∈ ip :: rest ∧ pr.1.find q = none =>
            hm ⟨(List.mem_cons.mp h.1).resolve_left hq, h.2⟩)]
    · have hex' : pr.1.existsAt ip = false := by
        revert hex
        cases pr.1.existsAt ip <;> simp
      rw [initStep_missing hex']
      rw [ih (pr.1.setFile ip [], pr.2 ++ [ip]) hnd.2 q]
      have hfind : pr.1.find ip = none := by
        rw [FS.existsAt] at hex'
        cases h0 : pr.1.find ip with
        | none => rfl
        | some n =>
          rw [h0] at hex'
          exact absurd hex' (by simp)
      by_cases hq : q = ip
      · subst hq
        have h1 : (pr.1.setFile q []).find q = some (Node.file []) := by
          rw [FS.find_setFile, if_pos rfl]
        show (if q ∈ rest ∧ (pr.1.setFile q []).find q = none then some (Node.file [])
              else (pr.1.setFile q []).find q)
            = if q ∈ q :: rest ∧ pr.1.find q = none then some (Node.file [])
              else pr.1.find q
        rw [if_neg (fun h : q ∈ rest ∧ (pr.1.setFile q []).find q = none =>
            (by rw [h1] at h; exact Option.noConfusion h.2 : False)),
          h1, if_pos ⟨List.mem_cons_self _ _, hfind⟩]
      · have hset : (pr.1.setFile ip []).find q = pr.1.find q := by
          rw [FS.find_setFile, if_neg hq]
        show (if q ∈ rest ∧ (pr.1.setFile ip []).find q = none then some (Node.file [])
              else (pr.1.setFile ip []).find q)
            = if q ∈ ip :: rest ∧ pr.1.find q = none then some (Node.file [])
              else pr.1.find q
        rw [hset]
        by_cases hm : q ∈ rest ∧ pr.1.find q = none
        · rw [if_pos hm, if_pos ⟨List.mem_cons_of_mem _ hm.1, hm.2⟩]
        · rw [if_neg hm, if_neg (fun h : q ∈ ip :: rest ∧ pr.1.find q = none =>
            hm ⟨(List.mem_cons.mp h.1).resolve_left hq, h.2⟩)]

theorem ct_find_char (ctx : ManagerCtx) (fs : FS) (hnd : KeyNodup fs)
    (src dst q : Path) :
    (copytree_excluding ctx fs src dst).1.find q = ctFindSpec ctx fs src dst q := by
  unfold copytree_excluding ctFindSpec
  rw [find_initfold _ _ (ct_init_paths_nodup ctx fs hnd src dst) q]
  show (if q ∈ ct_init_paths (ct_copied ctx fs src dst) dst
          ∧ ((ct_copied ctx fs src dst).foldl writeStep
              ((ct_created_dirs (ct_copied ctx fs src dst) dst).foldl FS.mkdirAt fs)).find q
            = none
        then some (Node.file [])
        else ((ct_copied ctx fs src dst).foldl writeStep
            ((ct_created_dirs (ct_copied ctx fs src dst) dst).foldl FS.mkdirAt fs)).find q)
      = _
  rw [find_writefold _ _ (ct_copied_key_nodup ctx fs hnd src dst) q,
    find_foldl_mkdirAt]

theorem bool_eq_of_iff {a b : Bool} (h : a = true ↔ b = true) : a = b := by
  cases a <;> cases b <;> simp_all

theorem equiv_refl (fs : FS) : FS.Equiv fs fs := fun _ => rfl

theorem equiv_symm {a b : FS} (h : FS.Equiv a b) : FS.Equiv b a :=
  fun q => (h q).symm

theorem equiv_trans {a b c : FS} (h1 : FS.Equiv a b) (h2 : FS.Equiv b c) :
    FS.Equiv a c :=
  fun q => (h1 q).trans (h2 q)

theorem equiv_setFile {a b : FS} (h : FS.Equiv a b) (p : Path) (c : Seg) :
    FS.Equiv (a.setFile p c) (b.setFile p c) := by
  intro q
  rw [FS.find_setFile, FS.find_setFile, h q]

theorem equiv_rmtree {a b : FS} (h : FS.Equiv a b) (p : Path) :
    FS.Equiv (a.rmtree p) (b.rmtree p) := by
  intro q
  rw [FS.find_rmtree, FS.find_rmtree, h q]

theorem equiv_mkdirp {a b : FS} (h : FS.Equiv a b) (p : Path) :
    FS.Equiv (a.mkdirp p) (b.mkdirp p) := by
  intro q
  rw [FS.find_mkdirp, FS.find_mkdirp, h q]

theorem mkdirp_noop {fs : FS} {p : Path}
    (h : ∀ r, r <+: p → fs.find r ≠ none) : FS.Equiv (fs.mkdirp p) fs := by
  intro q
  rw [FS.find_mkdirp]
  by_cases hc : q <+: p ∧ fs.find q = none
  · exact absurd hc.2 (h q hc.1)
  · rw [if_neg hc]

theorem equiv_existsAt {a b : FS} (h : FS.Equiv a b) (p : Path) :
    a.existsAt p = b.existsAt p := by
  unfold FS.existsAt
  rw [h p]

theorem equiv_isFile {a b : FS} (h : FS.Equiv a b) (p : Path) :
    a.isFile p = b.isFile p := by
  unfold FS.isFile
  rw [h p]

theorem equiv_isDir {a b : FS} (h : FS.Equiv a b) (p : Path) :
    a.isDir p = b.isDir p := by
  unfold FS.isDir
  rw [h p]

theorem equiv_contentAt {a b : FS} (h : FS.Equiv a b) (p : Path) :
    a.contentAt p = b.contentAt p := by
  unfold FS.contentAt
  rw [h p]

theorem hasPyUnder_iff (fs : FS) (hnd : KeyNodup fs) (p : Path) :
    fs.hasPyUnder p = true
      ↔ ∃ q m, fs.find q = some m ∧ strictUnder p q = true
          ∧ segEndsWith (nameOf q) pyExt = true := by
  unfold FS.hasPyUnder
  rw [List.any_eq_true]
  constructor
  · rintro ⟨e, he, hc⟩
    have hc2 : (strictUnder p e.1 && segEndsWith (nameOf e.1) pyExt) = true := hc
    rw [Bool.and_eq_true] at hc2
    exact ⟨e.1, e.2, mem_findEntry_of_nodup hnd (by rw [Prod.mk.eta]; exact he),
      hc2.1, hc2.2⟩
  · rintro ⟨q, m, hf, h1, h2⟩
    exact ⟨(q, m), findEntry_some_mem hf,
      show (strictUnder p q && segEndsWith (nameOf q) pyExt) = true from by
        rw [Bool.and_eq_true]
        exact ⟨h1, h2⟩⟩

theorem hasPyUnder_congr {a b : FS} (hnda : KeyNodup a) (hndb : KeyNodup b)
    (h : FS.Equiv a b) (p : Path) : a.hasPyUnder p = b.hasPyUnder p := by
  apply bool_eq_of_iff
  rw [hasPyUnder_iff a hnda, hasPyUnder_iff b hndb]
  constructor
  · rintro ⟨q, m, hf, h1, h2⟩
    exact ⟨q, m, by rw [← h q]; exact hf, h1, h2⟩
  · rintro ⟨q, m, hf, h1, h2⟩
    exact ⟨q, m, by rw [h q]; exact hf, h1, h2⟩

theorem hasPyUnder_setFile_mono {a : FS} {x ip : Path} {c : Seg}
    (h : a.hasPyUnder x = true) : (a.setFile ip c).hasPyUnder x = true := by
  unfold FS.hasPyUnder at h ⊢
  rw [List.any_eq_true] at h ⊢
  rcases h with ⟨e, he, hpred⟩
  have hpred2 : (strictUnder x e.1 && segEndsWith (nameOf e.1) pyExt) = true := hpred
  by_cases hkey : e.1 = ip
  · refine ⟨(ip, Node.file c), List.mem_cons_self _ _, ?_⟩
    show (strictUnder x ip && segEndsWith (nameOf ip) pyExt) = true
    rw [← hkey]
    exact hpred2
  · refine ⟨e, ?_, hpred⟩
    show e ∈ (ip, Node.file c) :: List.filter _ a.entries
    exact List.mem_cons_of_mem _ (List.mem_filter.mpr ⟨he, by simp [hkey]⟩)

/-! Pointwise congruence of the copytree spec in the values it reads. -/

theorem mem_ct_copied_reads (ctx : ManagerCtx) {fs g : FS} (hnd : KeyNodup fs)
    (hndg : KeyNodup g) (src dst : Path)
    (hsrc : ∀ s, fs.find (src ++ s) = g.find (src ++ s)) (q : Path) (n : Node) :
    ((q, n) ∈ ct_copied ctx fs src dst) ↔ ((q, n) ∈ ct_copied ctx g src dst) := by
  rw [mem_ct_copied_iff ctx fs hnd, mem_ct_copied_iff ctx g hndg, hsrc]

theorem mem_ct_created_reads (ctx : ManagerCtx) {fs g : FS} (hnd : KeyNodup fs)
    (hndg : KeyNodup g) (src dst : Path)
    (hsrc : ∀ s, fs.find (src ++ s) = g.find (src ++ s)) (d : Path) :
    (d ∈ ct_created_dirs (ct_copied ctx fs src dst) dst)
      ↔ (d ∈ ct_created_dirs (ct_copied ctx g src dst) dst) := by
  rw [mem_ct_created_iff ctx fs hnd, mem_ct_created_iff ctx g hndg, hsrc]

theorem ct_has_py_reads (ctx : ManagerCtx) {fs g : FS} (hnd : KeyNodup fs)
    (hndg : KeyNodup g) (src dst : Path)
    (hsrc : ∀ s, fs.find (src ++ s) = g.find (src ++ s)) (d : Path) :
    ct_has_py_below (ct_copied ctx fs src dst) d
      = ct_has_py_below (ct_copied ctx g src dst) d := by
  apply bool_eq_of_iff
  rw [ct_has_py_below_iff, ct_has_py_below_iff]
  constructor
  · rintro ⟨q, n, hmem, h1, h2, h3⟩
    exact ⟨q, n, (mem_ct_copied_reads ctx hnd hndg src dst hsrc q n).mp hmem, h1, h2, h3⟩
  · rintro ⟨q, n, hmem, h1, h2, h3⟩
    exact ⟨q, n, (mem_ct_copied_reads ctx hnd hndg src dst hsrc q n).mpr hmem, h1, h2, h3⟩

theorem mem_ct_init_reads (ctx : ManagerCtx) {fs g : FS} (hnd : KeyNodup fs)
    (hndg : KeyNodup g) (src dst : Path)
    (hsrc : ∀ s, fs.find (src ++ s) = g.find (src ++ s)) (ip : Path) :
    (ip ∈ ct_init_paths (ct_copied ctx fs src dst) dst)
      ↔ (ip ∈ ct_init_paths (ct_copied ctx g src dst) dst) := by
  rw [mem_ct_init_paths_iff, mem_ct_init_paths_iff]
  constructor
  · rintro ⟨d, h1, h2, h3⟩
    exact ⟨d, (mem_ct_created_reads ctx hnd hndg src dst hsrc d).mp h1,
      by rw [← ct_has_py_reads ctx hnd hndg src dst hsrc d]; exact h2, h3⟩
  · rintro ⟨d, h1, h2, h3⟩
    exact ⟨d, (mem_ct_created_reads ctx hnd hndg src dst hsrc d).mpr h1,
      by rw [ct_has_py_reads ctx hnd hndg src dst hsrc d]; exact h2, h3⟩

theorem findEntry_ct_reads (ctx : ManagerCtx) {fs g : FS} (hnd : KeyNodup fs)
    (hndg : KeyNodup g) (src dst : Path)
    (hsrc : ∀ s, fs.find (src ++ s) = g.find (src ++ s)) (q : Path) :
    findEntry (ct_copied ctx fs src dst) q = findEntry (ct_copied ctx g src dst) q := by
  rw [findEntry_ct_copied ctx fs hnd, findEntry_ct_copied ctx g hndg]
  by_cases hc : dst <+: q ∧ q ≠ dst
      ∧ should_exclude_path ctx.finder (src ++ q.drop dst.length) = false
  · rw [if_pos hc, if_pos hc, hsrc]
  · rw [if_neg hc, if_neg hc]

theorem ctFindSpec_reads (ctx : ManagerCtx) {fs g : FS} (hnd : KeyNodup fs)
    (hndg : KeyNodup g) (src dst q : Path)
    (hsrc : ∀ s, fs.find (src ++ s) = g.find (src ++ s))
    (hq : fs.find q = g.find q) :
    ctFindSpec ctx fs src dst q = ctFindSpec ctx g src dst q := by
  have h1 : (q ∈ ct_created_dirs (ct_copied ctx fs src dst) dst)
      = (q ∈ ct_created_dirs (ct_copied ctx g src dst) dst) :=
    propext (mem_ct_created_reads ctx hnd hndg src dst hsrc q)
  have h2 : (q ∈ ct_init_paths (ct_copied ctx fs src dst) dst)
      = (q ∈ ct_init_paths (ct_copied ctx g src dst) dst) :=
    propext (mem_ct_init_reads ctx hnd hndg src dst hsrc q)
  unfold ctFindSpec
  simp only [h1, h2, hq, findEntry_ct_reads ctx hnd hndg src dst hsrc q]

theorem ctFindSpec_outside (ctx : ManagerCtx) (g : FS) (src dst q : Path)
    (h : ¬ dst <+: q) : ctFindSpec ctx g src dst q = g.find q := by
  have hfe : findEntry (ct_copied ctx g src dst) q = none := by
    rw [findEntry_none_iff]
    intro hmem
    rcases List.mem_map.mp hmem with ⟨e, he, hfst⟩
    exact h (hfst ▸ (ct_copied_key_under ctx g src dst he).1)
  have hcr : q ∉ ct_created_dirs (ct_copied ctx g src dst) dst :=
    fun hc => h (mem_ct_created_below ctx g src dst q hc)
  have hini : q ∉ ct_init_paths (ct_copied ctx g src dst) dst := by
    intro hc
    rcases (mem_ct_init_paths_iff _ _ _).mp hc with ⟨d, hd, _, hq⟩
    apply h
    rw [hq]
    exact List.IsPrefix.trans (mem_ct_created_below ctx g src dst d hd)
      (List.prefix_append d [initName])
  unfold ctFindSpec
  simp only []
  rw [hfe]
  show (if q ∈ ct_init_paths (ct_copied ctx g src dst) dst
        ∧ (if q ∈ ct_created_dirs (ct_copied ctx g src dst) dst ∧ g.find q = none
           then some Node.dir else g.find q) = none
      then some (Node.file [])
      else if q ∈ ct_created_dirs (ct_copied ctx g src dst) dst ∧ g.find q = none
           then some Node.dir else g.find q) = g.find q
  rw [if_neg (fun hc : q ∈ ct_created_dirs (ct_copied ctx g src dst) dst
        ∧ g.find q = none => hcr hc.1)]
  rw [if_neg (fun hc : q ∈ ct_init_paths (ct_copied ctx g src dst) dst
        ∧ g.find q = none => hini hc.1)]

theorem ctFindSpec_self (ctx : ManagerCtx) (g : FS) (src dst : Path) :
    ctFindSpec ctx g src dst dst
      = if g.find dst = none then some Node.dir else g.find dst := by
  have hfe : findEntry (ct_copied ctx g src dst) dst = none := by
    rw [findEntry_none_iff]
    intro hmem
    rcases List.mem_map.mp hmem with ⟨e, he, hfst⟩
    exact (ct_copied_key_under ctx g src dst he).2 hfst
  have hmem : dst ∈ ct_created_dirs (ct_copied ctx g src dst) dst :=
    List.mem_cons_self _ _
  have hini : dst ∉ ct_init_paths (ct_copied ctx g src dst) dst := by
    intro hc
    rcases (mem_ct_init_paths_iff _ _ _).mp hc with ⟨d, hd, _, hq⟩
    have hpre := mem_ct_created_below ctx g src dst d hd
    have h1 : dst.length = d.length + 1 := by
      rw [hq, List.length_append, List.length_singleton]
    have h2 := hpre.length_le
    omega
  unfold ctFindSpec
  simp only []
  rw [hfe]
  show (if dst ∈ ct_init_paths (ct_copied ctx g src dst) dst
        ∧ (if dst ∈ ct_created_dirs (ct_copied ctx g src dst) dst ∧ g.find dst = none
           then some Node.dir else g.find dst) = none
      then some (Node.file [])
      else if dst ∈ ct_created_dirs (ct_copied ctx g src dst) dst ∧ g.find dst = none
           then some Node.dir else g.find dst)
      = if g.find dst = none then some Node.dir else g.find dst
  by_cases hg : g.find dst = none
  · rw [if_pos (⟨hmem, hg⟩ : dst ∈ ct_created_dirs (ct_copied ctx g src dst) dst
        ∧ g.find dst = none)]
    rw [if_neg (fun hc : dst ∈ ct_init_paths (ct_copied ctx g src dst) dst
        ∧ (some Node.dir : Option Node) = none => hini hc.1)]
    rw [if_pos hg]
  · rw [if_neg (fun hc : dst ∈ ct_created_dirs (ct_copied ctx g src dst) dst
        ∧ g.find dst = none => hg hc.2)]
    rw [if_neg (fun hc : dst ∈ ct_init_paths (ct_copied ctx g src dst) dst
        ∧ g.find dst = none => hini hc.1)]
    rw [if_neg hg]

/-! The upward marker walk: frame, preservation and establishment. -/

theorem chain_parents_mem {s t p : Path} (hp : p ∈ chain_parents s t) :
    s <+: p ∧ p <+: t ∧ p ≠ t := by
  unfold chain_parents at hp
  by_cases hg : s.isPrefixOf t
  · rw [if_pos hg] at hp
    rcases List.mem_map.mp hp with ⟨i, hi, rfl⟩
    rw [List.mem_range] at hi
    have hst : s <+: t := List.isPrefixOf_iff_prefix.mp hg
    have hlen : (t.take (t.length - 1 - i)).length = t.length - 1 - i := by
      rw [List.length_take]
      omega
    refine ⟨?_, List.take_prefix _ _, ?_⟩
    · exact List.prefix_of_prefix_length_le hst (List.take_prefix _ _)
        (by rw [hlen]; omega)
    · intro h0
      have := congrArg List.length h0
      rw [hlen] at this
      omega
  · rw [if_neg hg] at hp
    exact absurd hp (List.not_mem_nil p)

theorem chainStep_eq (pr : FS × List Path) (p : Path) :
    chainStep pr p
      = if !(pr.1.existsAt (p ++ [initName])) && pr.1.hasPyUnder p
        then (pr.1.setFile (p ++ [initName]) [], pr.2 ++ [p ++ [initName]])
        else pr := rfl

theorem chainfold_frame (ch : List Path) :
    ∀ (a : FS) (t : List Path) (q : Path), (∀ p ∈ ch, q ≠ p ++ [initName]) →
    ((ch.foldl chainStep (a, t))).1.find q = a.find q := by
  induction ch with
  | nil => intro a t q _; rfl
  | cons p rest ih =>
    intro a t q hq
    rw [List.foldl_cons, chainStep_eq]
    by_cases hc : (!(a.existsAt (p ++ [initName])) && a.hasPyUnder p) = true
    · rw [if_pos hc, ih _ _ _ (fun x hx => hq x (List.mem_cons_of_mem _ hx)),
        FS.find_setFile, if_neg (hq p (List.mem_cons_self _ _))]
    · rw [if_neg hc]
      exact ih _ _ _ (fun x hx => hq x (List.mem_cons_of_mem _ hx))

theorem chainfold_keeps (ch : List Path) :
    ∀ (a : FS) (t : List Path) (q : Path), a.find q ≠ none →
    ((ch.foldl chainStep (a, t))).1.find q ≠ none := by
  induction ch with
  | nil => intro a t q h; exact h
  | cons p rest ih =>
    intro a t q h
    rw [List.foldl_cons, chainStep_eq]
    by_cases hc : (!(a.existsAt (p ++ [initName])) && a.hasPyUnder p) = true
    · rw [if_pos hc]
      refine ih _ _ _ ?_
      rw [FS.find_setFile]
      by_cases hqp : q = p ++ [initName]
      · rw [if_pos hqp]
        exact fun h0 => Option.noConfusion h0
      · rw [if_neg hqp]
        exact h
    · rw [if_neg hc]
      exact ih _ _ _ h

theorem chainfold_noop (ch : List Path) :
    ∀ (a : FS) (t : List Path),
    (∀ p ∈ ch, a.hasPyUnder p = true → a.existsAt (p ++ [initName]) = true) →
    ch.foldl chainStep (a, t) = (a, t) := by
  induction ch with
  | nil => intro a t _; rfl
  | cons p rest ih =>
    intro a t h
    rw [List.foldl_cons]
    have hc : (!(a.existsAt (p ++ [initName])) && a.hasPyUnder p) = false := by
      cases hpy : a.hasPyUnder p
      · rw [Bool.and_false]
      · rw [h p (List.mem_cons_self _ _) hpy, Bool.not_true, Bool.false_and]
    have hstep : chainStep (a, t) p = (a, t) := by
      rw [chainStep_eq, if_neg (fun hx => by rw [hc] at hx; exact Bool.noConfusion hx)]
    rw [hstep]
    exact ih a t (fun x hx => h x (List.mem_cons_of_mem _ hx))

theorem chainfold_establish (ch : List Path) :
    ∀ (a : FS) (t : List Path), (∀ p ∈ ch, a.hasPyUnder p = true) →
    ∀ p ∈ ch, ((ch.foldl chainStep (a, t))).1.find (p ++ [initName]) ≠ none := by
  induction ch with
  | nil => intro a t _ p hp; exact absurd hp (List.not_mem_nil p)
  | cons x rest ih =>
    intro a t hpy p hp
    rw [List.foldl_cons]
    rcases List.mem_cons.mp hp with rfl | hrest
    · rcases hsh : chainStep (a, t) p with ⟨a', t'⟩
      refine chainfold_keeps rest a' t' _ ?_
      rw [chainStep_eq] at hsh
      by_cases hc : (!(a.existsAt (p ++ [initName])) && a.hasPyUnder p) = true
      · rw [if_pos hc, Prod.mk.injEq] at hsh
        rw [← hsh.1, FS.find_setFile, if_pos rfl]
        exact fun h0 => Option.noConfusion h0
      · rw [if_neg hc, Prod.mk.injEq] at hsh
        rw [← hsh.1]
        have hx : a.existsAt (p ++ [initName]) = true := by
          have hpyp := hpy p (List.mem_cons_self _ _)
          cases hex : a.existsAt (p ++ [initName])
          · exfalso
            apply hc
            rw [hex, hpyp]
            rfl
          · rfl
        rw [FS.existsAt] at hx
        intro h0
        rw [h0] at hx
        exact Bool.noConfusion hx
    · rcases hsh : chainStep (a, t) x with ⟨a', t'⟩
      refine ih a' t' ?_ p hrest
      intro y hy
      have hmono : (chainStep (a, t) x).1.hasPyUnder y = true := by
        rw [chainStep_eq]
        by_cases hc : (!(a.existsAt (x ++ [initName])) && a.hasPyUnder x) = true
        · rw [if_pos hc]
          exact hasPyUnder_setFile_mono (hpy y (List.mem_cons_of_mem _ hy))
        · rw [if_neg hc]
          exact hpy y (List.mem_cons_of_mem _ hy)
      rw [hsh] at hmono
      exact hmono

/-! Frame lemmas for a single staging step. -/

theorem setFile_find_ne (fs : FS) (p : Path) (c : Seg) {q : Path} (h : q ≠ p) :
    (fs.setFile p c).find q = fs.find q := by
  rw [FS.find_setFile, if_neg h]

theorem rmtree_find_not_under (fs : FS) {p q : Path} (h : ¬ p <+: q) :
    (fs.rmtree p).find q = fs.find q := by
  rw [FS.find_rmtree, if_neg h]

theorem mkdirp_find_not_under (fs : FS) {p q : Path} (h : ¬ q <+: p) :
    (fs.mkdirp p).find q = fs.find q := by
  rw [FS.find_mkdirp, if_neg (fun hc => h hc.1)]

theorem ct_fs_outside (ctx : ManagerCtx) (g : FS) (hnd : KeyNodup g)
    {src dst q : Path} (h : ¬ dst <+: q) :
    (copytree_excluding ctx g src dst).1.find q = g.find q := by
  rw [ct_find_char ctx g hnd src dst q, ctFindSpec_outside ctx g src dst q h]

theorem apply_chain_find_frame (a : FS) (tr : List Path) (s t q : Path)
    (h : ∀ p ∈ chain_parents s t, q ≠ p ++ [initName]) :
    (apply_chain_inits a tr s t).1.find q = a.find q :=
  chainfold_frame (chain_parents s t) a tr q h

theorem strictUnder_length {p q : Path} (h : strictUnder p q = true) :
    p.length < q.length := by
  rw [strictUnder_iff] at h
  rcases Nat.lt_or_ge p.length q.length with h1 | h1
  · exact h1
  · exact absurd (h.1.eq_of_length (Nat.le_antisymm h.1.length_le h1)).symm h.2

theorem strictUnder_src_parent {s t : Path} (h : strictUnder s t = true) :
    s <+: parentOf t := by
  have h1 := strictUnder_length h
  have h2 : (parentOf t).length = t.length - 1 := List.length_dropLast t
  exact List.prefix_of_prefix_length_le ((strictUnder_iff s t).mp h).1
    (List.dropLast_prefix t) (by omega)

theorem parentOf_ne_of_strict {s t : Path} (h : strictUnder s t = true) :
    parentOf t ≠ t := by
  have h1 := strictUnder_length h
  intro h0
  have h2 := congrArg List.length h0
  have h3 : (parentOf t).length = t.length - 1 := List.length_dropLast t
  omega

set_option maxHeartbeats 2000000 in
/-- A staging step never changes the state outside the target's subtree, the
target's ancestor chain (created directories), and the synthesized
`__init__.py` markers placed in strict ancestors of the target at or below
the source root. -/
theorem chain_parents_length {s t p : Path} (hp : p ∈ chain_parents s t) :
    s.length < p.length := by
  unfold chain_parents at hp
  by_cases hg : s.isPrefixOf t
  · rw [if_pos hg] at hp
    rcases List.mem_map.mp hp with ⟨i, hi, rfl⟩
    rw [List.mem_range] at hi
    have h1 : t.length - 1 - i ≤ t.length := by omega
    rw [List.length_take, Nat.min_eq_left h1]
    omega
  · rw [if_neg hg] at hp
    exact absurd hp (List.not_mem_nil p)

set_option maxHeartbeats 2000000 in
/-- A staging step changes the state — outside the target's subtree and the
markers it may synthesize in strict ancestors of the target strictly below
the source root — at most by creating missing ancestor directories of the
target: the lookup either keeps its old value or becomes the value after the
`mkdir` pass. -/
theorem copy_dependency_find_cases (ctx : ManagerCtx) (st : BuildState)
    (dep : ExternalDependency) (hnd : KeyNodup st.fs)
    (hst : strictUnder ctx.src_dir dep.target_path = true) (q : Path)
    (h2 : ¬ dep.target_path <+: q)
    (h3 : ∀ p, ctx.src_dir <+: p → p ≠ ctx.src_dir → p <+: dep.target_path →
        p ≠ dep.target_path → q ≠ p ++ [initName]) :
    (copy_dependency ctx st dep).fs.find q = st.fs.find q
      ∨ (copy_dependency ctx st dep).fs.find q
        = (st.fs.mkdirp (parentOf dep.target_path)).find q := by
  have hndm : KeyNodup (st.fs.mkdirp (parentOf dep.target_path)) :=
    keyNodup_mkdirp st.fs _ hnd
  have hndr : KeyNodup ((st.fs.mkdirp (parentOf dep.target_path)).rmtree dep.target_path) :=
    keyNodup_rmtree _ _ hndm
  have hne_t : q ≠ dep.target_path := fun h0 => h2 (h0 ▸ List.prefix_rfl)
  have hne_tn : q ≠ dep.target_path ++ [nameOf dep.source_path] :=
    fun h0 => h2 (h0 ▸ List.prefix_append _ _)
  have hchain : ∀ p ∈ chain_parents ctx.src_dir dep.target_path, q ≠ p ++ [initName] := by
    intro p hp
    obtain ⟨ha, hb, hc⟩ := chain_parents_mem hp
    have hlen := chain_parents_length hp
    exact h3 p ha (fun h0 => Nat.lt_irrefl _ (h0 ▸ hlen)) hb hc
  have hrm : ((st.fs.mkdirp (parentOf dep.target_path)).rmtree dep.target_path).find q
      = (st.fs.mkdirp (parentOf dep.target_path)).find q :=
    rmtree_find_not_under _ h2
  unfold copy_dependency
  simp only []
  split
  · left
    rfl
  · split
    · right
      rfl
    · split
      · by_cases hdt : (st.fs.mkdirp (parentOf dep.target_path)).isDir
            dep.target_path = true
        · rw [if_pos hdt]
          split
          · next hmk =>
            rw [Bool.and_eq_true, Bool.not_eq_true', beq_eq_false_iff_ne] at hmk
            have hne_ip : q ≠ parentOf dep.target_path ++ [initName] :=
              h3 (parentOf dep.target_path) (strictUnder_src_parent hst) hmk.2
                (List.dropLast_prefix _) (parentOf_ne_of_strict hst)
            split
            · right
              exact setFile_find_ne _ _ _ hne_tn
            · right
              exact (setFile_find_ne _ _ _ hne_ip).trans (setFile_find_ne _ _ _ hne_tn)
          · right
            exact setFile_find_ne _ _ _ hne_tn
        · rw [if_neg hdt]
          split
          · next hmk =>
            rw [Bool.and_eq_true, Bool.not_eq_true', beq_eq_false_iff_ne] at hmk
            have hne_ip : q ≠ parentOf dep.target_path ++ [initName] :=
              h3 (parentOf dep.target_path) (strictUnder_src_parent hst) hmk.2
                (List.dropLast_prefix _) (parentOf_ne_of_strict hst)
            split
            · right
              exact setFile_find_ne _ _ _ hne_t
            · right
              exact (setFile_find_ne _ _ _ hne_ip).trans (setFile_find_ne _ _ _ hne_t)
          · right
            exact setFile_find_ne _ _ _ hne_t
      · split
        · split
          · right
            rfl
          · by_cases hext : (st.fs.mkdirp (parentOf dep.target_path)).existsAt
                dep.target_path = true
            · rw [if_pos hext]
              split
              · right
                exact (apply_chain_find_frame _ _ _ _ _ hchain).trans
                  ((ct_fs_outside ctx _ hndr h2).trans hrm)
              · right
                exact (ct_fs_outside ctx _ hndr h2).trans hrm
            · rw [if_neg hext]
              split
              · right
                exact (apply_chain_find_frame _ _ _ _ _ hchain).trans
                  (ct_fs_outside ctx _ hndm h2)
              · right
                exact ct_fs_outside ctx _ hndm h2
        · right
          rfl

/-- A staging step never changes the state outside the target's subtree, the
target's ancestor chain (created directories), and the synthesized
`__init__.py` markers placed in strict ancestors of the target strictly
below the source root. -/
theorem copy_dependency_frame (ctx : ManagerCtx) (st : BuildState)
    (dep : ExternalDependency) (hnd : KeyNodup st.fs)
    (hst : strictUnder ctx.src_dir dep.target_path = true) (q : Path)
    (h1 : ¬ q <+: parentOf dep.target_path)
    (h2 : ¬ dep.target_path <+: q)
    (h3 : ∀ p, ctx.src_dir <+: p → p ≠ ctx.src_dir → p <+: dep.target_path →
        p ≠ dep.target_path → q ≠ p ++ [initName]) :
    (copy_dependency ctx st dep).fs.find q = st.fs.find q := by
  rcases copy_dependency_find_cases ctx st dep hnd hst q h2 h3 with h | h
  · exact h
  · rw [h]
    exact mkdirp_find_not_under st.fs h1

theorem mkdirp_keeps (fs : FS) (p : Path) {q : Path} (h : fs.find q ≠ none) :
    (fs.mkdirp p).find q ≠ none := by
  rw [FS.find_mkdirp]
  by_cases hc : q <+: p ∧ fs.find q = none
  · rw [if_pos hc]
    exact fun h0 => Option.noConfusion h0
  · rw [if_neg hc]
    exact h

theorem setFile_keeps (fs : FS) (p : Path) (c : Seg) {q : Path}
    (h : fs.find q ≠ none) : (fs.setFile p c).find q ≠ none := by
  rw [FS.find_setFile]
  by_cases hc : q = p
  · rw [if_pos hc]
    exact fun h0 => Option.noConfusion h0
  · rw [if_neg hc]
    exact h

theorem apply_chain_keeps (a : FS) (tr : List Path) (s t : Path) {q : Path}
    (h : a.find q ≠ none) : (apply_chain_inits a tr s t).1.find q ≠ none :=
  chainfold_keeps (chain_parents s t) a tr q h

set_option maxHeartbeats 2000000 in
/-- A staging step never deletes an entry outside the target's subtree. -/
theorem copy_dependency_keeps (ctx : ManagerCtx) (st : BuildState)
    (dep : ExternalDependency) (hnd : KeyNodup st.fs) {q : Path}
    (h2 : ¬ dep.target_path <+: q) (hkeep : st.fs.find q ≠ none) :
    (copy_dependency ctx st dep).fs.find q ≠ none := by
  have hm : (st.fs.mkdirp (parentOf dep.target_path)).find q ≠ none :=
    mkdirp_keeps st.fs _ hkeep
  have hndm : KeyNodup (st.fs.mkdirp (parentOf dep.target_path)) :=
    keyNodup_mkdirp st.fs _ hnd
  have hndr : KeyNodup ((st.fs.mkdirp (parentOf dep.target_path)).rmtree dep.target_path) :=
    keyNodup_rmtree _ _ hndm
  have hrm : ((st.fs.mkdirp (parentOf dep.target_path)).rmtree dep.target_path).find q
      ≠ none := by
    rw [rmtree_find_not_under _ h2]
    exact hm
  have hct1 : ((copytree_excluding ctx
      ((st.fs.mkdirp (parentOf dep.target_path)).rmtree dep.target_path)
      dep.source_path dep.target_path)).1.find q ≠ none := by
    rw [ct_fs_outside ctx _ hndr h2]
    exact hrm
  have hct2 : ((copytree_excluding ctx (st.fs.mkdirp (parentOf dep.target_path))
      dep.source_path dep.target_path)).1.find q ≠ none := by
    rw [ct_fs_outside ctx _ hndm h2]
    exact hm
  unfold copy_dependency
  simp only []
  repeat' split
  all_goals
    first
      | exact hkeep
      | exact hm
      | exact setFile_keeps _ _ _ hm
      | exact setFile_keeps _ _ _ (setFile_keeps _ _ _ hm)
      | exact apply_chain_keeps _ _ _ _ hct1
      | exact apply_chain_keeps _ _ _ _ hct2
      | exact hct1
      | exact hct2

theorem existsAt_of_ne_none {fs : FS} {p : Path} (h : fs.find p ≠ none) :
    fs.existsAt p = true := by
  rw [FS.existsAt_eq_true_iff]
  cases hc : fs.find p with
  | none => exact absurd hc h
  | some n => exact ⟨n, rfl⟩

theorem not_srcdir_prefix_srcsub {src_dir source : Path}
    (hsrc1 : ¬ src_dir <+: source) (hsrc2 : ¬ source <+: src_dir) (s : Path) :
    ¬ (src_dir <+: source ++ s) := by
  intro h
  rcases List.prefix_or_prefix_of_prefix h (List.prefix_append source s) with h' | h'
  · exact hsrc1 h'
  · exact hsrc2 h'

theorem src_subtree_not_prefix_parent {src_dir t source : Path}
    (hst : strictUnder src_dir t = true)
    (hsrc1 : ¬ src_dir <+: source) (hsrc2 : ¬ source <+: src_dir) (s : Path) :
    ¬ (source ++ s <+: parentOf t) := by
  intro h
  rcases List.prefix_or_prefix_of_prefix h (strictUnder_src_parent hst) with h' | h'
  · exact hsrc2 ((List.prefix_append source s).trans h')
  · exact not_srcdir_prefix_srcsub hsrc1 hsrc2 s h'

theorem src_subtree_not_under_target {src_dir t source : Path}
    (hst : strictUnder src_dir t = true)
    (hsrc1 : ¬ src_dir <+: source) (hsrc2 : ¬ source <+: src_dir) (s : Path) :
    ¬ (t <+: source ++ s) := by
  intro h
  exact not_srcdir_prefix_srcsub hsrc1 hsrc2 s
    (((strictUnder_iff _ _).mp hst).1.trans h)

set_option maxHeartbeats 2000000 in
/-- If the state already carries the shape run-one staging leaves behind, a
repeated staging step does not change the file system (up to lookup
equivalence): the mkdir pass, the re-copy and the marker passes all reproduce
what is already there. -/
theorem copy_dependency_noop (ctx : ManagerCtx) (st : BuildState)
    (dep : ExternalDependency) (hnd : KeyNodup st.fs)
    (hstg : Staged ctx st.fs dep) :
    FS.Equiv (copy_dependency ctx st dep).fs st.fs := by
  unfold copy_dependency
  simp only []
  split
  · exact equiv_refl st.fs
  · next hex2 =>
    rcases hstg with hA | hB | hC
    · exact absurd (by rw [hA]; rfl) hex2
    · obtain ⟨hisf, hF1, hF2, hF3⟩ := hB
      have hmEq : FS.Equiv (st.fs.mkdirp (parentOf dep.target_path)) st.fs :=
        mkdirp_noop hF1
      split
      · exact hmEq
      · have hdtne : ¬ ((st.fs.mkdirp (parentOf dep.target_path)).isDir
            dep.target_path = true) := by
          intro h0
          rw [equiv_isDir hmEq, FS.isDir_iff, hF2] at h0
          exact Node.noConfusion (Option.some.inj h0)
        have hisf' : (st.fs.mkdirp (parentOf dep.target_path)).isFile
            dep.source_path = true := by
          rw [equiv_isFile hmEq]
          exact hisf
        rw [if_pos hisf', if_neg hdtne]
        have hfs1 : FS.Equiv
            ((st.fs.mkdirp (parentOf dep.target_path)).setFile dep.target_path
              ((st.fs.mkdirp (parentOf dep.target_path)).contentAt dep.source_path))
            st.fs := by
          intro r
          rw [FS.find_setFile]
          by_cases hr : r = dep.target_path
          · rw [if_pos hr, hr, equiv_contentAt hmEq, hF2]
          · rw [if_neg hr]
            exact hmEq r
        split
        · next hmk =>
          rw [Bool.and_eq_true, Bool.not_eq_true', beq_eq_false_iff_ne] at hmk
          have hipex : ((st.fs.mkdirp (parentOf dep.target_path)).setFile dep.target_path
              ((st.fs.mkdirp (parentOf dep.target_path)).contentAt
                dep.source_path)).existsAt
              (parentOf dep.target_path ++ [initName]) = true := by
            apply existsAt_of_ne_none
            rw [hfs1 (parentOf dep.target_path ++ [initName])]
            exact hF3 hmk.1 hmk.2
          rw [if_pos hipex]
          exact hfs1
        · exact hfs1
    · obtain ⟨hisd, hF1, hD2, hD3⟩ := hC
      have hmEq : FS.Equiv (st.fs.mkdirp (parentOf dep.target_path)) st.fs :=
        mkdirp_noop hF1
      have hsd : st.fs.find dep.source_path = some Node.dir :=
        (FS.isDir_iff st.fs dep.source_path).mp hisd
      have hT : st.fs.find dep.target_path = some Node.dir := by
        have hthis := hD2 dep.target_path List.prefix_rfl
        rw [ctFindSpec_self] at hthis
        have hrt : (st.fs.rmtree dep.target_path).find dep.target_path = none := by
          rw [FS.find_rmtree, if_pos List.prefix_rfl]
        rw [hrt, if_pos rfl] at hthis
        exact hthis
      split
      · exact hmEq
      · have hisfne : ¬ ((st.fs.mkdirp (parentOf dep.target_path)).isFile
            dep.source_path = true) := by
          intro h0
          rw [equiv_isFile hmEq] at h0
          obtain ⟨c, hc⟩ := (FS.isFile_iff st.fs dep.source_path).mp h0
          rw [hsd] at hc
          exact Node.noConfusion (Option.some.inj hc)
        have hisd' : (st.fs.mkdirp (parentOf dep.target_path)).isDir
            dep.source_path = true := by
          rw [equiv_isDir hmEq]
          exact hisd
        have hTd : (st.fs.mkdirp (parentOf dep.target_path)).isDir
            dep.target_path = true := by
          rw [equiv_isDir hmEq, FS.isDir_iff]
          exact hT
        have hexT : (st.fs.mkdirp (parentOf dep.target_path)).existsAt
            dep.target_path = true := by
          apply existsAt_of_ne_none
          rw [hmEq _, hT]
          exact fun h0 => Option.noConfusion h0
        have habortne : ¬ (((st.fs.mkdirp (parentOf dep.target_path)).existsAt
            dep.target_path
            && !((st.fs.mkdirp (parentOf dep.target_path)).isDir dep.target_path))
            = true) := by
          intro h0
          rw [hTd] at h0
          simp at h0
        rw [if_neg hisfne, if_pos hisd', if_neg habortne, if_pos hexT]
        have hndm : KeyNodup (st.fs.mkdirp (parentOf dep.target_path)) :=
          keyNodup_mkdirp st.fs _ hnd
        have hndr : KeyNodup ((st.fs.mkdirp (parentOf dep.target_path)).rmtree
            dep.target_path) := keyNodup_rmtree _ _ hndm
        have hnds : KeyNodup (st.fs.rmtree dep.target_path) :=
          keyNodup_rmtree st.fs _ hnd
        have hrmEq : FS.Equiv
            ((st.fs.mkdirp (parentOf dep.target_path)).rmtree dep.target_path)
            (st.fs.rmtree dep.target_path) := equiv_rmtree hmEq _
        have hctEq : ∀ r, (copytree_excluding ctx
            ((st.fs.mkdirp (parentOf dep.target_path)).rmtree dep.target_path)
            dep.source_path dep.target_path).1.find r = st.fs.find r := by
          intro r
          rw [ct_find_char ctx _ hndr dep.source_path dep.target_path r]
          by_cases hrT : dep.target_path <+: r
          · rw [ctFindSpec_reads ctx hndr hnds dep.source_path dep.target_path r
              (fun s => hrmEq _) (hrmEq r)]
            exact (hD2 r hrT).symm
          · rw [ctFindSpec_outside ctx _ dep.source_path dep.target_path r hrT,
              FS.find_rmtree, if_neg hrT]
            exact hmEq r
        have hpyc : ct_has_py_below (ct_copied ctx
              ((st.fs.mkdirp (parentOf dep.target_path)).rmtree dep.target_path)
              dep.source_path dep.target_path) dep.target_path
            = ct_has_py_below (ct_copied ctx (st.fs.rmtree dep.target_path)
              dep.source_path dep.target_path) dep.target_path :=
          ct_has_py_reads ctx hndr hnds dep.source_path dep.target_path
            (fun s => hrmEq _) dep.target_path
        split
        · next hpy =>
          have hmarks : ∀ p ∈ chain_parents ctx.src_dir dep.target_path,
              st.fs.find (p ++ [initName]) ≠ none :=
            hD3 (by rw [← hpyc]; exact hpy)
          have hcond : ∀ p ∈ chain_parents ctx.src_dir dep.target_path,
              (copytree_excluding ctx
                ((st.fs.mkdirp (parentOf dep.target_path)).rmtree dep.target_path)
                dep.source_path dep.target_path).1.hasPyUnder p = true →
              (copytree_excluding ctx
                ((st.fs.mkdirp (parentOf dep.target_path)).rmtree dep.target_path)
                dep.source_path dep.target_path).1.existsAt (p ++ [initName]) = true := by
            intro p hp _
            apply existsAt_of_ne_none
            rw [hctEq]
            exact hmarks p hp
          have hbridge : apply_chain_inits
              (copytree_excluding ctx
                ((st.fs.mkdirp (parentOf dep.target_path)).rmtree dep.target_path)
                dep.source_path dep.target_path).1
              (copytree_excluding ctx
                ((st.fs.mkdirp (parentOf dep.target_path)).rmtree dep.target_path)
                dep.source_path dep.target_path).2
              ctx.src_dir dep.target_path
              = ((copytree_excluding ctx
                  ((st.fs.mkdirp (parentOf dep.target_path)).rmtree dep.target_path)
                  dep.source_path dep.target_path).1,
                (copytree_excluding ctx
                  ((st.fs.mkdirp (parentOf dep.target_path)).rmtree dep.target_path)
                  dep.source_path dep.target_path).2) :=
            chainfold_noop (chain_parents ctx.src_dir dep.target_path) _ _ hcond
          rw [hbridge]
          intro r
          exact hctEq r
        · intro r
          exact hctEq r

theorem Staged_congr (ctx : ManagerCtx) {a b : FS} (hnda : KeyNodup a)
    (hndb : KeyNodup b) (h : FS.Equiv a b) (dep : ExternalDependency)
    (hstg : Staged ctx b dep) : Staged ctx a dep := by
  unfold Staged at hstg ⊢
  rcases hstg with h1 | h2 | h3
  · left
    rw [equiv_existsAt h]
    exact h1
  · right
    left
    obtain ⟨ha, hb', hc, hd⟩ := h2
    refine ⟨by rw [equiv_isFile h]; exact ha,
      fun r hr => by rw [h r]; exact hb' r hr,
      by rw [h _, equiv_contentAt h]; exact hc,
      fun hp hq => by rw [h _]; exact hd hp hq⟩
  · right
    right
    obtain ⟨ha, hb', hc, hd⟩ := h3
    have hrma : KeyNodup (a.rmtree dep.target_path) := keyNodup_rmtree _ _ hnda
    have hrmb : KeyNodup (b.rmtree dep.target_path) := keyNodup_rmtree _ _ hndb
    have hrmEq : FS.Equiv (a.rmtree dep.target_path) (b.rmtree dep.target_path) :=
      equiv_rmtree h _
    refine ⟨by rw [equiv_isDir h]; exact ha,
      fun r hr => by rw [h r]; exact hb' r hr, ?_, ?_⟩
    · intro q hq
      rw [h q, ctFindSpec_reads ctx hrma hrmb dep.source_path dep.target_path q
        (fun s => hrmEq _) (hrmEq q)]
      exact hc q hq
    · intro hpy p hp
      rw [h _]
      refine hd ?_ p hp
      rw [← ct_has_py_reads ctx hrma hrmb dep.source_path dep.target_path
        (fun s => hrmEq _) dep.target_path]
      exact hpy

theorem isFile_eq_of_find_eq {a b : FS} {p : Path} (h : a.find p = b.find p) :
    a.isFile p = b.isFile p := by
  unfold FS.isFile
  rw [h]

theorem isDir_eq_of_find_eq {a b : FS} {p : Path} (h : a.find p = b.find p) :
    a.isDir p = b.isDir p := by
  unfold FS.isDir
  rw [h]

theorem contentAt_eq_of_find_eq {a b : FS} {p : Path} (h : a.find p = b.find p) :
    a.contentAt p = b.contentAt p := by
  unfold FS.contentAt
  rw [h]

theorem prefix_snoc_cases {l l' : Path} {a : Seg} (h : l <+: l' ++ [a]) :
    l <+: l' ∨ l = l' ++ [a] := by
  have hlen : (l' ++ [a]).length = l'.length + 1 := by
    rw [List.length_append, List.length_singleton]
  rcases Nat.lt_or_ge l.length (l' ++ [a]).length with h1 | h1
  · left
    exact List.prefix_of_prefix_length_le h (List.prefix_append l' [a]) (by omega)
  · right
    exact h.eq_of_length (Nat.le_antisymm h.length_le h1)

theorem ctFindSpec_at_copied (ctx : ManagerCtx) (M : FS) (hndm : KeyNodup M)
    {src dst q : Path} {n : Node}
    (hmem : (q, n) ∈ ct_copied ctx M src dst) (hfq : M.find q = none) :
    ∃ m0, ctFindSpec ctx M src dst q = some m0 := by
  obtain ⟨h1, h2, h3, h4⟩ := (mem_ct_copied_iff ctx M hndm src dst q n).mp hmem
  have hfe : findEntry (ct_copied ctx M src dst) q = some n := by
    rw [findEntry_ct_copied ctx M hndm,
      if_pos (show dst <+: q ∧ q ≠ dst
        ∧ should_exclude_path ctx.finder (src ++ q.drop dst.length) = false from
        ⟨h1, h2, h3⟩)]
    exact h4
  unfold ctFindSpec
  simp only []
  rw [hfe]
  cases n with
  | file c =>
    refine ⟨Node.file c, ?_⟩
    show (if q ∈ ct_init_paths (ct_copied ctx M src dst) dst
          ∧ (some (Node.file c) : Option Node) = none
        then some (Node.file []) else some (Node.file c)) = some (Node.file c)
    rw [if_neg (fun hc : q ∈ ct_init_paths (ct_copied ctx M src dst) dst
        ∧ (some (Node.file c) : Option Node) = none => Option.noConfusion hc.2)]
  | dir =>
    have hcr : q ∈ ct_created_dirs (ct_copied ctx M src dst) dst :=
      (mem_ct_created_iff ctx M hndm src dst q).mpr (Or.inr ⟨h1, h2, h3, h4⟩)
    refine ⟨Node.dir, ?_⟩
    show (if q ∈ ct_init_paths (ct_copied ctx M src dst) dst
          ∧ (if q ∈ ct_created_dirs (ct_copied ctx M src dst) dst ∧ M.find q = none
             then some Node.dir else M.find q) = none
        then some (Node.file [])
        else if q ∈ ct_created_dirs (ct_copied ctx M src dst) dst ∧ M.find q = none
             then some Node.dir else M.find q) = some Node.dir
    rw [if_pos (show q ∈ ct_created_dirs (ct_copied ctx M src dst) dst
        ∧ M.find q = none from ⟨hcr, hfq⟩)]
    rw [if_neg (fun hc : q ∈ ct_init_paths (ct_copied ctx M src dst) dst
        ∧ (some Node.dir : Option Node) = none => Option.noConfusion hc.2)]

set_option maxHeartbeats 4000000 in
/-- Processing a dependency whose target subtree is still untouched leaves the
state in the staged shape: the run-one effect of `_copy_dependency`. -/
theorem copy_dependency_establishes (ctx : ManagerCtx) (st : BuildState)
    (dep : ExternalDependency) (hnd : KeyNodup st.fs)
    (hst : strictUnder ctx.src_dir dep.target_path = true)
    (hsrc1 : ¬ ctx.src_dir <+: dep.source_path)
    (hsrc2 : ¬ dep.source_path <+: ctx.src_dir)
    (hini : initName ∉ dep.target_path)
    (hfresh : ∀ r, dep.target_path <+: r → st.fs.find r = none) :
    Staged ctx (copy_dependency ctx st dep).fs dep := by
  have hparlen : (parentOf dep.target_path).length = dep.target_path.length - 1 :=
    List.length_dropLast _
  have htlen := strictUnder_length hst
  have hsub_t : ctx.src_dir <+: dep.target_path := ((strictUnder_iff _ _).mp hst).1
  have hsrc_ne_t : dep.source_path ≠ dep.target_path := by
    intro h0
    exact hsrc1 (h0 ▸ hsub_t)
  have hip_below : ctx.src_dir <+: parentOf dep.target_path ++ [initName] :=
    (strictUnder_src_parent hst).trans (List.prefix_append _ _)
  have hsrc_ne_ip : dep.source_path ≠ parentOf dep.target_path ++ [initName] := by
    intro h0
    exact hsrc1 (h0 ▸ hip_below)
  have ht_ne_ip : dep.target_path ≠ parentOf dep.target_path ++ [initName] := by
    intro h0
    apply hini
    rw [h0]
    exact List.mem_append_right _ (List.mem_singleton.mpr rfl)
  unfold copy_dependency
  simp only []
  split
  · next hex =>
    left
    rw [Bool.not_eq_true'] at hex
    exact hex
  · next hex2 =>
    have hF1m : ∀ r, r <+: parentOf dep.target_path →
        (st.fs.mkdirp (parentOf dep.target_path)).find r ≠ none := by
      intro r hr
      rw [FS.find_mkdirp]
      by_cases hc : r <+: parentOf dep.target_path ∧ st.fs.find r = none
      · rw [if_pos hc]
        exact fun h0 => Option.noConfusion h0
      · rw [if_neg hc]
        intro h0
        exact hc ⟨hr, h0⟩
    have hfreshm : ∀ r, dep.target_path <+: r →
        (st.fs.mkdirp (parentOf dep.target_path)).find r = none := by
      intro r hr
      rw [mkdirp_find_not_under st.fs (fun hc : r <+: parentOf dep.target_path => by
        have h1 := hr.length_le
        have h2 := hc.length_le
        omega)]
      exact hfresh r hr
    have hexTf : (st.fs.mkdirp (parentOf dep.target_path)).existsAt dep.target_path
        = false :=
      (FS.existsAt_eq_false_iff _ _).mpr (hfreshm _ List.prefix_rfl)
    split
    · next hsk =>
      exfalso
      rw [hexTf, Bool.false_and] at hsk
      exact Bool.noConfusion hsk
    · split
      · next hisfm =>
        have hdtne : ¬ ((st.fs.mkdirp (parentOf dep.target_path)).isDir
            dep.target_path = true) := by
          intro h0
          rw [FS.isDir_iff, hfreshm _ List.prefix_rfl] at h0
          exact Option.noConfusion h0
        rw [if_neg hdtne]
        have hgs : ((st.fs.mkdirp (parentOf dep.target_path)).setFile dep.target_path
            ((st.fs.mkdirp (parentOf dep.target_path)).contentAt dep.source_path)).find
            dep.source_path
            = (st.fs.mkdirp (parentOf dep.target_path)).find dep.source_path :=
          setFile_find_ne _ _ _ hsrc_ne_t
        split
        · next hmk =>
          split
          · next hipex =>
            show Staged ctx ((st.fs.mkdirp (parentOf dep.target_path)).setFile
              dep.target_path
              ((st.fs.mkdirp (parentOf dep.target_path)).contentAt dep.source_path)) dep
            refine Or.inr (Or.inl ⟨?_, ?_, ?_, ?_⟩)
            · rw [isFile_eq_of_find_eq hgs]
              exact hisfm
            · intro r hr
              exact setFile_keeps _ _ _ (hF1m r hr)
            · rw [contentAt_eq_of_find_eq hgs, FS.find_setFile, if_pos rfl]
            · intro _ _ h0
              rw [FS.existsAt, h0] at hipex
              exact Bool.noConfusion hipex
          · next hipnex =>
            show Staged ctx (((st.fs.mkdirp (parentOf dep.target_path)).setFile
              dep.target_path
              ((st.fs.mkdirp (parentOf dep.target_path)).contentAt
                dep.source_path)).setFile
              (parentOf dep.target_path ++ [initName]) []) dep
            have hgs2 : (((st.fs.mkdirp (parentOf dep.target_path)).setFile
                dep.target_path
                ((st.fs.mkdirp (parentOf dep.target_path)).contentAt
                  dep.source_path)).setFile
                (parentOf dep.target_path ++ [initName]) []).find dep.source_path
                = (st.fs.mkdirp (parentOf dep.target_path)).find dep.source_path :=
              (setFile_find_ne _ _ _ hsrc_ne_ip).trans hgs
            refine Or.inr (Or.inl ⟨?_, ?_, ?_, ?_⟩)
            · rw [isFile_eq_of_find_eq hgs2]
              exact hisfm
            · intro r hr
              exact setFile_keeps _ _ _ (setFile_keeps _ _ _ (hF1m r hr))
            · rw [contentAt_eq_of_find_eq hgs2,
                setFile_find_ne _ _ _ ht_ne_ip, FS.find_setFile, if_pos rfl]
            · intro _ _
              rw [FS.find_setFile, if_pos rfl]
              exact fun h0 => Option.noConfusion h0
        · next hmkf =>
          show Staged ctx ((st.fs.mkdirp (parentOf dep.target_path)).setFile
            dep.target_path
            ((st.fs.mkdirp (parentOf dep.target_path)).contentAt dep.source_path)) dep
          refine Or.inr (Or.inl ⟨?_, ?_, ?_, ?_⟩)
          · rw [isFile_eq_of_find_eq hgs]
            exact hisfm
          · intro r hr
            exact setFile_keeps _ _ _ (hF1m r hr)
          · rw [contentAt_eq_of_find_eq hgs, FS.find_setFile, if_pos rfl]
          · intro hp hq
            exfalso
            apply hmkf
            rw [hp, beq_eq_false_iff_ne.mpr hq]
            rfl
      · next hisfne =>
        split
        · next hisdm =>
          split
          · next hab =>
            exfalso
            rw [hexTf, Bool.false_and] at hab
            exact Bool.noConfusion hab
          · rw [if_neg (show ¬ ((st.fs.mkdirp (parentOf dep.target_path)).existsAt
                dep.target_path = true) from by
              rw [hexTf]; exact fun h => Bool.noConfusion h)]
            have hndm : KeyNodup (st.fs.mkdirp (parentOf dep.target_path)) :=
              keyNodup_mkdirp st.fs _ hnd
            have hndct : KeyNodup (copytree_excluding ctx
                (st.fs.mkdirp (parentOf dep.target_path))
                dep.source_path dep.target_path).1 :=
              keyNodup_copytree ctx _ _ _ hndm
            have hsW2 : ∀ s', ¬ (dep.target_path <+: dep.source_path ++ s') :=
              src_subtree_not_under_target hst hsrc1 hsrc2
            have hsW2' : ¬ (dep.target_path <+: dep.source_path) := by
              have h0 := hsW2 []
              rw [List.append_nil] at h0
              exact h0
            have hchain_src : ∀ s', ∀ p ∈ chain_parents ctx.src_dir dep.target_path,
                dep.source_path ++ s' ≠ p ++ [initName] := by
              intro s' p hp h0
              obtain ⟨hpa, _, _⟩ := chain_parents_mem hp
              exact not_srcdir_prefix_srcsub hsrc1 hsrc2 s'
                (h0 ▸ (hpa.trans (List.prefix_append _ _)))
            have hq_markers : ∀ q, dep.target_path <+: q →
                ∀ p ∈ chain_parents ctx.src_dir dep.target_path,
                q ≠ p ++ [initName] := by
              intro q hq p hp h0
              obtain ⟨_, hpb, hpc⟩ := chain_parents_mem hp
              rw [h0] at hq
              rcases prefix_snoc_cases hq with h1 | h1
              · exact hpc (prefixAntisymm hpb h1)
              · exact hini (h1 ▸ List.mem_append_right _ (List.mem_singleton.mpr rfl))
            have hpar_not_under : ∀ r, r <+: parentOf dep.target_path →
                ¬ dep.target_path <+: r := by
              intro r hr hc
              have h1 := hr.length_le
              have h2 := hc.length_le
              omega
            have hSpec : ∀ q, (copytree_excluding ctx
                (st.fs.mkdirp (parentOf dep.target_path))
                dep.source_path dep.target_path).1.find q
                = ctFindSpec ctx (st.fs.mkdirp (parentOf dep.target_path))
                  dep.source_path dep.target_path q :=
              ct_find_char ctx _ hndm dep.source_path dep.target_path
            have hg_src_ct : ∀ s', (copytree_excluding ctx
                (st.fs.mkdirp (parentOf dep.target_path))
                dep.source_path dep.target_path).1.find (dep.source_path ++ s')
                = (st.fs.mkdirp (parentOf dep.target_path)).find
                  (dep.source_path ++ s') :=
              fun s' => ct_fs_outside ctx _ hndm (hsW2 s')
            split
            · next hpy =>
              show Staged ctx (apply_chain_inits
                (copytree_excluding ctx (st.fs.mkdirp (parentOf dep.target_path))
                  dep.source_path dep.target_path).1
                (copytree_excluding ctx (st.fs.mkdirp (parentOf dep.target_path))
                  dep.source_path dep.target_path).2
                ctx.src_dir dep.target_path).1 dep
              obtain ⟨q0, n0, hq0mem, hq0su, hq0py, _⟩ :=
                (ct_has_py_below_iff _ _).mp hpy
              have hq0t : dep.target_path <+: q0 :=
                ((strictUnder_iff _ _).mp hq0su).1
              have hq0some : ∃ m0, (copytree_excluding ctx
                  (st.fs.mkdirp (parentOf dep.target_path))
                  dep.source_path dep.target_path).1.find q0 = some m0 := by
                rw [hSpec q0]
                exact ctFindSpec_at_copied ctx _ hndm hq0mem (hfreshm q0 hq0t)
              have hchainpy : ∀ p ∈ chain_parents ctx.src_dir dep.target_path,
                  (copytree_excluding ctx (st.fs.mkdirp (parentOf dep.target_path))
                    dep.source_path dep.target_path).1.hasPyUnder p = true := by
                intro p hp
                obtain ⟨hpa, hpb, hpc⟩ := chain_parents_mem hp
                obtain ⟨m0, hm0⟩ := hq0some
                rw [hasPyUnder_iff _ hndct]
                refine ⟨q0, m0, hm0, ?_, hq0py⟩
                rw [strictUnder_iff]
                refine ⟨hpb.trans hq0t, ?_⟩
                intro h0
                rw [h0] at hq0t
                exact hpc (prefixAntisymm hpb hq0t)
              have hmarksg : ∀ p ∈ chain_parents ctx.src_dir dep.target_path,
                  (apply_chain_inits
                    (copytree_excluding ctx (st.fs.mkdirp (parentOf dep.target_path))
                      dep.source_path dep.target_path).1
                    (copytree_excluding ctx (st.fs.mkdirp (parentOf dep.target_path))
                      dep.source_path dep.target_path).2
                    ctx.src_dir dep.target_path).1.find (p ++ [initName]) ≠ none :=
                chainfold_establish (chain_parents ctx.src_dir dep.target_path) _ _
                  hchainpy
              have hg_src : ∀ s', (apply_chain_inits
                  (copytree_excluding ctx (st.fs.mkdirp (parentOf dep.target_path))
                    dep.source_path dep.target_path).1
                  (copytree_excluding ctx (st.fs.mkdirp (parentOf dep.target_path))
                    dep.source_path dep.target_path).2
                  ctx.src_dir dep.target_path).1.find (dep.source_path ++ s')
                  = (st.fs.mkdirp (parentOf dep.target_path)).find
                    (dep.source_path ++ s') := by
                intro s'
                rw [apply_chain_find_frame _ _ _ _ _ (hchain_src s')]
                exact hg_src_ct s'
              have hg_src0 : (apply_chain_inits
                  (copytree_excluding ctx (st.fs.mkdirp (parentOf dep.target_path))
                    dep.source_path dep.target_path).1
                  (copytree_excluding ctx (st.fs.mkdirp (parentOf dep.target_path))
                    dep.source_path dep.target_path).2
                  ctx.src_dir dep.target_path).1.find dep.source_path
                  = (st.fs.mkdirp (parentOf dep.target_path)).find dep.source_path := by
                have h0 := hg_src []
                rw [List.append_nil] at h0
                exact h0
              have hndg : KeyNodup (apply_chain_inits
                  (copytree_excluding ctx (st.fs.mkdirp (parentOf dep.target_path))
                    dep.source_path dep.target_path).1
                  (copytree_excluding ctx (st.fs.mkdirp (parentOf dep.target_path))
                    dep.source_path dep.target_path).2
                  ctx.src_dir dep.target_path).1 :=
                keyNodup_chainfold _ _ _ _ hndct
              have hndgr : KeyNodup ((apply_chain_inits
                  (copytree_excluding ctx (st.fs.mkdirp (parentOf dep.target_path))
                    dep.source_path dep.target_path).1
                  (copytree_excluding ctx (st.fs.mkdirp (parentOf dep.target_path))
                    dep.source_path dep.target_path).2
                  ctx.src_dir dep.target_path).1.rmtree dep.target_path) :=
                keyNodup_rmtree _ _ hndg
              have hagree : ∀ s', (st.fs.mkdirp (parentOf dep.target_path)).find
                  (dep.source_path ++ s')
                  = ((apply_chain_inits
                    (copytree_excluding ctx (st.fs.mkdirp (parentOf dep.target_path))
                      dep.source_path dep.target_path).1
                    (copytree_excluding ctx (st.fs.mkdirp (parentOf dep.target_path))
                      dep.source_path dep.target_path).2
                    ctx.src_dir dep.target_path).1.rmtree dep.target_path).find
                    (dep.source_path ++ s') := by
                intro s'
                rw [rmtree_find_not_under _ (hsW2 s')]
                exact (hg_src s').symm
              refine Or.inr (Or.inr ⟨?_, ?_, ?_, ?_⟩)
              · rw [isDir_eq_of_find_eq hg_src0]
                exact hisdm
              · intro r hr
                apply apply_chain_keeps
                rw [ct_fs_outside ctx _ hndm (hpar_not_under r hr)]
                exact hF1m r hr
              · intro q hq
                rw [apply_chain_find_frame _ _ _ _ _ (hq_markers q hq), hSpec q]
                refine ctFindSpec_reads ctx hndm hndgr dep.source_path
                  dep.target_path q hagree ?_
                rw [hfreshm q hq, FS.find_rmtree, if_pos hq]
              · intro _ p hp
                exact hmarksg p hp
            · next hpyf =>
              show Staged ctx (copytree_excluding ctx
                (st.fs.mkdirp (parentOf dep.target_path))
                dep.source_path dep.target_path).1 dep
              have hg_src0 : (copytree_excluding ctx
                  (st.fs.mkdirp (parentOf dep.target_path))
                  dep.source_path dep.target_path).1.find dep.source_path
                  = (st.fs.mkdirp (parentOf dep.target_path)).find dep.source_path := by
                have h0 := hg_src_ct []
                rw [List.append_nil] at h0
                exact h0
              have hndgr : KeyNodup ((copytree_excluding ctx
                  (st.fs.mkdirp (parentOf dep.target_path))
                  dep.source_path dep.target_path).1.rmtree dep.target_path) :=
                keyNodup_rmtree _ _ hndct
              have hagree : ∀ s', (st.fs.mkdirp (parentOf dep.target_path)).find
                  (dep.source_path ++ s')
                  = ((copytree_excluding ctx (st.fs.mkdirp (parentOf dep.target_path))
                    dep.source_path dep.target_path).1.rmtree dep.target_path).find
                    (dep.source_path ++ s') := by
                intro s'
                rw [rmtree_find_not_under _ (hsW2 s')]
                exact (hg_src_ct s').symm
              refine Or.inr (Or.inr ⟨?_, ?_, ?_, ?_⟩)
              · rw [isDir_eq_of_find_eq hg_src0]
                exact hisdm
              · intro r hr
                rw [ct_fs_outside ctx _ hndm (hpar_not_under r hr)]
                exact hF1m r hr
              · intro q hq
                rw [hSpec q]
                refine ctFindSpec_reads ctx hndm hndgr dep.source_path
                  dep.target_path q hagree ?_
                rw [hfreshm q hq, FS.find_rmtree, if_pos hq]
              · intro hant p hp
                exfalso
                apply hpyf
                rw [ct_has_py_reads ctx hndm hndgr dep.source_path dep.target_path
                  hagree dep.target_path]
                exact hant
        · next hisdne =>
          exfalso
          have hexT : st.fs.existsAt dep.source_path = true := by
            cases hb : st.fs.existsAt dep.source_path
            · exact absurd (by rw [hb]; rfl) hex2
            · rfl
          obtain ⟨n, hn⟩ := (FS.existsAt_eq_true_iff _ _).mp hexT
          have hmn : (st.fs.mkdirp (parentOf dep.target_path)).find dep.source_path
              ≠ none :=
            mkdirp_keeps st.fs _ (by rw [hn]; exact fun h0 => Option.noConfusion h0)
          cases hn2 : (st.fs.mkdirp (parentOf dep.target_path)).find dep.source_path with
          | none => exact hmn hn2
          | some n2 =>
            cases n2 with
            | file c => exact hisfne (by unfold FS.isFile; rw [hn2])
            | dir => exact hisdne (by unfold FS.isDir; rw [hn2])

/-- Processing one dependency does not disturb the staged shape another,
path-disjoint dependency left behind: every point the staged shape reads lies
outside the processed dependency's write set. -/
theorem copy_dependency_preserves (ctx : ManagerCtx) (st : BuildState)
    (dep dep' : ExternalDependency) (hnd : KeyNodup st.fs)
    (hst : strictUnder ctx.src_dir dep.target_path = true)
    (hst' : strictUnder ctx.src_dir dep'.target_path = true)
    (hini : initName ∉ dep.target_path)
    (hini' : initName ∉ dep'.target_path)
    (hsrc1 : ¬ ctx.src_dir <+: dep.source_path)
    (hsrc2 : ¬ dep.source_path <+: ctx.src_dir)
    (hinc1 : ¬ dep.target_path <+: dep'.target_path)
    (hinc2 : ¬ dep'.target_path <+: dep.target_path)
    (hstg : Staged ctx st.fs dep) :
    Staged ctx (copy_dependency ctx st dep').fs dep := by
  have hndN : KeyNodup (copy_dependency ctx st dep').fs :=
    keyNodup_copy_dependency ctx st dep' hnd
  have hA1s : ∀ s', ¬ (dep.source_path ++ s' <+: parentOf dep'.target_path) :=
    src_subtree_not_prefix_parent hst' hsrc1 hsrc2
  have hA2s : ∀ s', ¬ (dep'.target_path <+: dep.source_path ++ s') :=
    src_subtree_not_under_target hst' hsrc1 hsrc2
  have hA3s : ∀ s' p, ctx.src_dir <+: p → p ≠ ctx.src_dir →
      p <+: dep'.target_path →
      p ≠ dep'.target_path → dep.source_path ++ s' ≠ p ++ [initName] :=
    fun s' p hpa _ _ _ h0 =>
      not_srcdir_prefix_srcsub hsrc1 hsrc2 s'
        (h0 ▸ hpa.trans (List.prefix_append _ _))
  have hframe_src : ∀ s', (copy_dependency ctx st dep').fs.find
      (dep.source_path ++ s') = st.fs.find (dep.source_path ++ s') :=
    fun s' => copy_dependency_frame ctx st dep' hnd hst' _
      (hA1s s') (hA2s s') (hA3s s')
  have hframe_src0 : (copy_dependency ctx st dep').fs.find dep.source_path
      = st.fs.find dep.source_path := by
    have h0 := hframe_src []
    rw [List.append_nil] at h0
    exact h0
  have hB1 : ¬ (dep.target_path <+: parentOf dep'.target_path) :=
    fun hc => hinc1 (hc.trans (List.dropLast_prefix _))
  have hB3 : ∀ p, ctx.src_dir <+: p → p ≠ ctx.src_dir →
      p <+: dep'.target_path →
      p ≠ dep'.target_path → dep.target_path ≠ p ++ [initName] :=
    fun p _ _ _ _ h0 =>
      hini (h0 ▸ List.mem_append_right _ (List.mem_singleton.mpr rfl))
  have hframe_t : (copy_dependency ctx st dep').fs.find dep.target_path
      = st.fs.find dep.target_path :=
    copy_dependency_frame ctx st dep' hnd hst' _ hB1 hinc2 hB3
  have hC1 : ∀ q, dep.target_path <+: q → ¬ (q <+: parentOf dep'.target_path) :=
    fun q hq hc => hinc1 ((hq.trans hc).trans (List.dropLast_prefix _))
  have hC2 : ∀ q, dep.target_path <+: q → ¬ (dep'.target_path <+: q) := by
    intro q hq hc
    rcases List.prefix_or_prefix_of_prefix hq hc with h | h
    · exact hinc1 h
    · exact hinc2 h
  have hC3 : ∀ q, dep.target_path <+: q → ∀ p, ctx.src_dir <+: p →
      p ≠ ctx.src_dir →
      p <+: dep'.target_path → p ≠ dep'.target_path → q ≠ p ++ [initName] := by
    intro q hq p _ _ hpb _ h0
    rw [h0] at hq
    rcases prefix_snoc_cases hq with h1 | h1
    · exact hinc1 (h1.trans hpb)
    · exact hini (h1 ▸ List.mem_append_right _ (List.mem_singleton.mpr rfl))
  have hframe_q : ∀ q, dep.target_path <+: q →
      (copy_dependency ctx st dep').fs.find q = st.fs.find q :=
    fun q hq => copy_dependency_frame ctx st dep' hnd hst' _
      (hC1 q hq) (hC2 q hq) (hC3 q hq)
  have hk_r : ∀ r, r <+: parentOf dep.target_path → ¬ (dep'.target_path <+: r) :=
    fun r hr hc => hinc2 ((hc.trans hr).trans (List.dropLast_prefix _))
  have hk_ip : ¬ (dep'.target_path <+: parentOf dep.target_path ++ [initName]) := by
    intro hc
    rcases prefix_snoc_cases hc with h | h
    · exact hinc2 (h.trans (List.dropLast_prefix _))
    · exact hini' (h ▸ List.mem_append_right _ (List.mem_singleton.mpr rfl))
  have hk_chain : ∀ p ∈ chain_parents ctx.src_dir dep.target_path,
      ¬ (dep'.target_path <+: p ++ [initName]) := by
    intro p hp hc
    obtain ⟨_, hpb, _⟩ := chain_parents_mem hp
    rcases prefix_snoc_cases hc with h | h
    · exact hinc2 (h.trans hpb)
    · exact hini' (h ▸ List.mem_append_right _ (List.mem_singleton.mpr rfl))
  have hsW2dep : ∀ s', ¬ (dep.target_path <+: dep.source_path ++ s') :=
    src_subtree_not_under_target hst hsrc1 hsrc2
  have hnds : KeyNodup (st.fs.rmtree dep.target_path) :=
    keyNodup_rmtree st.fs _ hnd
  have hndNr : KeyNodup ((copy_dependency ctx st dep').fs.rmtree dep.target_path) :=
    keyNodup_rmtree _ _ hndN
  have hagree : ∀ s', (st.fs.rmtree dep.target_path).find (dep.source_path ++ s')
      = ((copy_dependency ctx st dep').fs.rmtree dep.target_path).find
        (dep.source_path ++ s') := by
    intro s'
    rw [rmtree_find_not_under _ (hsW2dep s'), rmtree_find_not_under _ (hsW2dep s'),
      hframe_src s']
  rcases hstg with hA | hB | hC
  · left
    unfold FS.existsAt
    rw [hframe_src0]
    exact hA
  · obtain ⟨hisf, hF1, hF2, hF3⟩ := hB
    refine Or.inr (Or.inl ⟨?_, ?_, ?_, ?_⟩)
    · rw [isFile_eq_of_find_eq hframe_src0]
      exact hisf
    · intro r hr
      exact copy_dependency_keeps ctx st dep' hnd (hk_r r hr) (hF1 r hr)
    · rw [hframe_t, contentAt_eq_of_find_eq hframe_src0]
      exact hF2
    · intro hp hq
      exact copy_dependency_keeps ctx st dep' hnd hk_ip (hF3 hp hq)
  · obtain ⟨hisd, hF1, hD2, hD3⟩ := hC
    refine Or.inr (Or.inr ⟨?_, ?_, ?_, ?_⟩)
    · rw [isDir_eq_of_find_eq hframe_src0]
      exact hisd
    · intro r hr
      exact copy_dependency_keeps ctx st dep' hnd (hk_r r hr) (hF1 r hr)
    · intro q hq
      rw [hframe_q q hq, hD2 q hq]
      refine ctFindSpec_reads ctx hnds hndNr dep.source_path dep.target_path q
        hagree ?_
      rw [FS.find_rmtree, if_pos hq, FS.find_rmtree, if_pos hq]
    · intro hant p hp
      refine copy_dependency_keeps ctx st dep' hnd (hk_chain p hp) ?_
      refine hD3 ?_ p hp
      rw [ct_has_py_reads ctx hnds hndNr dep.source_path dep.target_path hagree
        dep.target_path]
      exact hant

/-- Processing a path-disjoint dependency keeps another dependency's target
subtree untouched (in particular still fresh). -/
theorem copy_dependency_fresh_pres (ctx : ManagerCtx) (st : BuildState)
    (dep dep' : ExternalDependency) (hnd : KeyNodup st.fs)
    (hst' : strictUnder ctx.src_dir dep'.target_path = true)
    (hini : initName ∉ dep.target_path)
    (hinc1 : ¬ dep.target_path <+: dep'.target_path)
    (hinc2 : ¬ dep'.target_path <+: dep.target_path)
    (hfr : ∀ r, dep.target_path <+: r → st.fs.find r = none) :
    ∀ r, dep.target_path <+: r → (copy_dependency ctx st dep').fs.find r = none := by
  intro r hr
  have hC1 : ¬ (r <+: parentOf dep'.target_path) :=
    fun hc => hinc1 ((hr.trans hc).trans (List.dropLast_prefix _))
  have hC2 : ¬ (dep'.target_path <+: r) := by
    intro hc
    rcases List.prefix_or_prefix_of_prefix hr hc with h | h
    · exact hinc1 h
    · exact hinc2 h
  have hC3 : ∀ p, ctx.src_dir <+: p → p ≠ ctx.src_dir →
      p <+: dep'.target_path →
      p ≠ dep'.target_path → r ≠ p ++ [initName] := by
    intro p _ _ hpb _ h0
    rw [h0] at hr
    rcases prefix_snoc_cases hr with h1 | h1
    · exact hinc1 (h1.trans hpb)
    · exact hini (h1 ▸ List.mem_append_right _ (List.mem_singleton.mpr rfl))
  rw [copy_dependency_frame ctx st dep' hnd hst' r hC1 hC2 hC3]
  exact hfr r hr

/-- The staged shape of one dependency survives staging a list of
path-disjoint dependencies. -/
theorem stage_all_preserves_staged (ctx : ManagerCtx) (rest : List ExternalDependency) :
    ∀ (st : BuildState) (dep : ExternalDependency), KeyNodup st.fs →
    Stageable ctx dep →
    (∀ d' ∈ rest, Stageable ctx d') →
    (∀ d' ∈ rest, ¬ dep.target_path <+: d'.target_path
      ∧ ¬ d'.target_path <+: dep.target_path) →
    Staged ctx st.fs dep →
    Staged ctx (stage_all ctx rest st).fs dep := by
  induction rest with
  | nil => intro st dep _ _ _ _ hstg; exact hstg
  | cons d' rest' ih =>
    intro st dep hnd hgd hgood hdisj hstg
    show Staged ctx (stage_all ctx rest' (copy_dependency ctx st d')).fs dep
    obtain ⟨hst, hsrc1, hsrc2, hini⟩ := hgd
    obtain ⟨hst', _, _, hini'⟩ := hgood d' (List.mem_cons_self _ _)
    obtain ⟨hinc1, hinc2⟩ := hdisj d' (List.mem_cons_self _ _)
    refine ih (copy_dependency ctx st d') dep
      (keyNodup_copy_dependency ctx st d' hnd)
      ⟨hst, hsrc1, hsrc2, hini⟩
      (fun x hx => hgood x (List.mem_cons_of_mem _ hx))
      (fun x hx => hdisj x (List.mem_cons_of_mem _ hx)) ?_
    exact copy_dependency_preserves ctx st dep d' hnd hst hst' hini hini'
      hsrc1 hsrc2 hinc1 hinc2 hstg

/-- Freshness of one dependency's target subtree survives staging a list of
path-disjoint dependencies. -/
theorem stage_all_fresh_pres (ctx : ManagerCtx) (rest : List ExternalDependency) :
    ∀ (st : BuildState) (dep : ExternalDependency), KeyNodup st.fs →
    initName ∉ dep.target_path →
    (∀ d' ∈ rest, Stageable ctx d') →
    (∀ d' ∈ rest, ¬ dep.target_path <+: d'.target_path
      ∧ ¬ d'.target_path <+: dep.target_path) →
    (∀ r, dep.target_path <+: r → st.fs.find r = none) →
    ∀ r, dep.target_path <+: r → (stage_all ctx rest st).fs.find r = none := by
  induction rest with
  | nil => intro st dep _ _ _ _ hfr; exact hfr
  | cons d' rest' ih =>
    intro st dep hnd hini hgood hdisj hfr
    show ∀ r, dep.target_path <+: r →
      (stage_all ctx rest' (copy_dependency ctx st d')).fs.find r = none
    obtain ⟨hst', _, _, _⟩ := hgood d' (List.mem_cons_self _ _)
    obtain ⟨hinc1, hinc2⟩ := hdisj d' (List.mem_cons_self _ _)
    refine ih (copy_dependency ctx st d') dep
      (keyNodup_copy_dependency ctx st d' hnd) hini
      (fun x hx => hgood x (List.mem_cons_of_mem _ hx))
      (fun x hx => hdisj x (List.mem_cons_of_mem _ hx)) ?_
    exact copy_dependency_fresh_pres ctx st dep d' hnd hst' hini hinc1 hinc2 hfr

/-- After one staging run over fresh targets, every dependency of the list is
in staged shape. -/
theorem stage_all_staged (ctx : ManagerCtx) (L : List ExternalDependency) :
    ∀ (st0 : BuildState), KeyNodup st0.fs →
    (∀ dep ∈ L, Stageable ctx dep) →
    L.Pairwise (fun d d' => ¬ d.target_path <+: d'.target_path
      ∧ ¬ d'.target_path <+: d.target_path) →
    (∀ dep ∈ L, ∀ r, dep.target_path <+: r → st0.fs.find r = none) →
    ∀ dep ∈ L, Staged ctx (stage_all ctx L st0).fs dep := by
  induction L with
  | nil => intro st0 _ _ _ _ dep hdep; exact absurd hdep (List.not_mem_nil dep)
  | cons d rest ih =>
    intro st0 hnd hgood hpair hfresh dep hdep
    rw [List.pairwise_cons] at hpair
    show Staged ctx (stage_all ctx rest (copy_dependency ctx st0 d)).fs dep
    obtain ⟨hstd, hsrc1d, hsrc2d, hinid⟩ := hgood d (List.mem_cons_self _ _)
    rcases List.mem_cons.mp hdep with rfl | hdep'
    · refine stage_all_preserves_staged ctx rest (copy_dependency ctx st0 dep) dep
        (keyNodup_copy_dependency ctx st0 dep hnd)
        ⟨hstd, hsrc1d, hsrc2d, hinid⟩
        (fun x hx => hgood x (List.mem_cons_of_mem _ hx))
        (fun x hx => hpair.1 x hx) ?_
      exact copy_dependency_establishes ctx st0 dep hnd hstd hsrc1d hsrc2d hinid
        (hfresh dep (List.mem_cons_self _ _))
    · refine ih (copy_dependency ctx st0 d)
        (keyNodup_copy_dependency ctx st0 d hnd)
        (fun x hx => hgood x (List.mem_cons_of_mem _ hx)) hpair.2 ?_ dep hdep'
      intro x hx r hr
      obtain ⟨hx1, hx2⟩ := hpair.1 x hx
      obtain ⟨_, _, _, hinix⟩ := hgood x (List.mem_cons_of_mem _ hx)
      exact copy_dependency_fresh_pres ctx st0 x d hnd hstd hinix
        (fun hc => hx2 hc) (fun hc => hx1 hc)
        (hfresh x (List.mem_cons_of_mem _ hx)) r hr

/-- A staging run over a list whose every dependency is already in staged
shape does not change the file system. -/
theorem stage_all_noop (ctx : ManagerCtx) (L : List ExternalDependency) :
    ∀ (st : BuildState), KeyNodup st.fs →
    (∀ dep ∈ L, Staged ctx st.fs dep) →
    FS.Equiv (stage_all ctx L st).fs st.fs := by
  induction L with
  | nil => intro st _ _; exact equiv_refl st.fs
  | cons d rest ih =>
    intro st hnd hstg
    show FS.Equiv (stage_all ctx rest (copy_dependency ctx st d)).fs st.fs
    have hstep : FS.Equiv (copy_dependency ctx st d).fs st.fs :=
      copy_dependency_noop ctx st d hnd (hstg d (List.mem_cons_self _ _))
    have hnd1 : KeyNodup (copy_dependency ctx st d).fs :=
      keyNodup_copy_dependency ctx st d hnd
    refine equiv_trans (ih (copy_dependency ctx st d) hnd1 ?_) hstep
    intro dep hdep
    exact Staged_congr ctx hnd1 hnd hstep dep
      (hstg dep (List.mem_cons_of_mem _ hdep))

/-- C1 counterexample: staging the single fresh helper-file dependency twice
in a row grows the tracked `copied_files` list from one entry to two — the
second run re-copies the file (the `samefile` idempotency check compares the
distinct source and target paths and fails) and appends the same target
again, contradicting the claim that the tracked-path lists do not grow
beyond their first-run size. -/
theorem C1_counterexample :
    (stage_all mctxW [depHelperW] stHelperW).copied_files.length = 1
      ∧ (stage_all mctxW [depHelperW]
          (stage_all mctxW [depHelperW] stHelperW)).copied_files.length = 2 := by
  decide

/-- C1 (amended): invoking the staging step twice in a row with no cleanup in
between leaves the on-disk file tree identical (as a path-to-node map) to the
state after the first invocation, for every dependency list whose entries
target fresh, pairwise path-incomparable locations strictly below the source
root, free of `__init__.py` segments, with sources path-incomparable with the
source root.  The tracked-path lists need not stay fixed, so the second half
of the original claim is false: the counterexample shows a file dependency
whose target is appended to `copied_files` again on the second run. -/
theorem C1_amended (ctx : ManagerCtx) (L : List ExternalDependency)
    (st0 : BuildState) (hnd : KeyNodup st0.fs)
    (hgood : ∀ dep ∈ L, Stageable ctx dep)
    (hpair : L.Pairwise (fun d d' => ¬ d.target_path <+: d'.target_path
      ∧ ¬ d'.target_path <+: d.target_path))
    (hfresh : ∀ dep ∈ L, ∀ e ∈ st0.fs.entries, ¬ dep.target_path <+: e.1) :
    ∀ q, (stage_all ctx L (stage_all ctx L st0)).fs.find q
      = (stage_all ctx L st0).fs.find q := by
  have hfresh' : ∀ dep ∈ L, ∀ r, dep.target_path <+: r → st0.fs.find r = none := by
    intro dep hdep r hr
    cases hc : st0.fs.find r with
    | none => rfl
    | some n => exact absurd hr (hfresh dep hdep (r, n) (findEntry_some_mem hc))
  exact stage_all_noop ctx L (stage_all ctx L st0)
    (keyNodup_stage_all ctx L st0 hnd)
    (stage_all_staged ctx L st0 hnd hgood hpair hfresh')

/-- C1 witness: the amended disk-idempotence instantiated at the concrete
helper-file staging session, with every hypothesis checked by computation. -/
theorem C1_witness :
    (KeyNodup stHelperW.fs
      ∧ (∀ dep ∈ [depHelperW], Stageable mctxW dep)
      ∧ List.Pairwise (fun d d' : ExternalDependency =>
          ¬ d.target_path <+: d'.target_path ∧ ¬ d'.target_path <+: d.target_path)
        [depHelperW]
      ∧ (∀ dep ∈ [depHelperW], ∀ e ∈ stHelperW.fs.entries,
          ¬ dep.target_path <+: e.1))
    ∧ (∀ q, (stage_all mctxW [depHelperW]
          (stage_all mctxW [depHelperW] stHelperW)).fs.find q
        = (stage_all mctxW [depHelperW] stHelperW).fs.find q) :=
  ⟨⟨by unfold KeyNodup; decide, by unfold Stageable; decide, by decide, by decide⟩,
    C1_amended mctxW [depHelperW] stHelperW (by unfold KeyNodup; decide)
      (by unfold Stageable; decide) (by decide) (by decide)⟩

/-! ## Claim C2: what the tracked lists can contain, and cleanup framing -/

theorem initfold_tracked_sub (L : List Path) :
    ∀ (pr : FS × List Path) (x : Path), x ∈ ((L.foldl initStep pr)).2 →
    x ∈ pr.2 ∨ x ∈ L := by
  induction L with
  | nil => intro pr x hx; exact Or.inl hx
  | cons ip rest ih =>
    intro pr x hx
    rw [List.foldl_cons] at hx
    rcases ih (initStep pr ip) x hx with h | h
    · unfold initStep at h
      by_cases hc : pr.1.existsAt ip = true
      · rw [if_pos hc] at h
        exact Or.inl h
      · rw [if_neg hc] at h
        rcases List.mem_append.mp h with h1 | h1
        · exact Or.inl h1
        · refine Or.inr ?_
          rw [List.mem_singleton.mp h1]
          exact List.mem_cons_self _ _
    · exact Or.inr (List.mem_cons_of_mem _ h)

theorem ct_tracked_sub (ctx : ManagerCtx) (g : FS) (src dst : Path) (x : Path)
    (hx : x ∈ (copytree_excluding ctx g src dst).2) :
    ∃ d, dst <+: d ∧ x = d ++ [initName] := by
  unfold copytree_excluding at hx
  rcases initfold_tracked_sub _ _ x hx with h | h
  · exact absurd h (List.not_mem_nil x)
  · rcases (mem_ct_init_paths_iff _ _ _).mp h with ⟨d, hd, _, hxd⟩
    exact ⟨d, mem_ct_created_below ctx g src dst d hd, hxd⟩

theorem chainfold_tracked_sub (ch : List Path) :
    ∀ (a : FS) (tr : List Path) (x : Path), x ∈ ((ch.foldl chainStep (a, tr))).2 →
    x ∈ tr ∨ ∃ p ∈ ch, x = p ++ [initName] := by
  induction ch with
  | nil => intro a tr x hx; exact Or.inl hx
  | cons p rest ih =>
    intro a tr x hx
    rw [List.foldl_cons, chainStep_eq] at hx
    by_cases hc : (!(a.existsAt (p ++ [initName])) && a.hasPyUnder p) = true
    · rw [if_pos hc] at hx
      rcases ih _ _ x hx with h | h
      · rcases List.mem_append.mp h with h1 | h1
        · exact Or.inl h1
        · exact Or.inr ⟨p, List.mem_cons_self _ _, List.mem_singleton.mp h1⟩
      · rcases h with ⟨p', hp', hx'⟩
        exact Or.inr ⟨p', List.mem_cons_of_mem _ hp', hx'⟩
    · rw [if_neg hc] at hx
      rcases ih _ _ x hx with h | h
      · exact Or.inl h
      · rcases h with ⟨p', hp', hx'⟩
        exact Or.inr ⟨p', List.mem_cons_of_mem _ hp', hx'⟩

set_option maxHeartbeats 2000000 in
/-- Everything a staging step appends to `copied_files` is either the
dependency's own target or a synthesized `__init__.py` strictly below the
source root. -/
theorem copy_dependency_files_sub (ctx : ManagerCtx) (st : BuildState)
    (dep : ExternalDependency)
    (hst : strictUnder ctx.src_dir dep.target_path = true) (f : Path)
    (hf : f ∈ (copy_dependency ctx st dep).copied_files) :
    f ∈ st.copied_files ∨ f = dep.target_path
      ∨ ∃ p, ctx.src_dir <+: p ∧ p ≠ ctx.src_dir ∧ f = p ++ [initName] := by
  have hsub_t : ctx.src_dir <+: dep.target_path := ((strictUnder_iff _ _).mp hst).1
  have htlen := strictUnder_length hst
  have hmk_of_ct : ∀ d, dep.target_path <+: d →
      ∃ p, ctx.src_dir <+: p ∧ p ≠ ctx.src_dir ∧ d ++ [initName] = p ++ [initName] := by
    intro d hd
    refine ⟨d, hsub_t.trans hd, ?_, rfl⟩
    intro h0
    have h1 := hd.length_le
    rw [h0] at h1
    omega
  have hmk_of_chain : ∀ p ∈ chain_parents ctx.src_dir dep.target_path,
      ∃ p', ctx.src_dir <+: p' ∧ p' ≠ ctx.src_dir ∧ p ++ [initName] = p' ++ [initName] := by
    intro p hp
    obtain ⟨hpa, _, _⟩ := chain_parents_mem hp
    have hlen := chain_parents_length hp
    exact ⟨p, hpa, fun h0 => Nat.lt_irrefl _ (h0 ▸ hlen), rfl⟩
  unfold copy_dependency at hf
  simp only [] at hf
  split at hf
  · exact Or.inl hf
  · split at hf
    · exact Or.inl hf
    · split at hf
      · -- file branch
        by_cases hdt : (st.fs.mkdirp (parentOf dep.target_path)).isDir
            dep.target_path = true
        · rw [if_pos hdt] at hf
          split at hf
          · next hmkc =>
            rw [Bool.and_eq_true, Bool.not_eq_true', beq_eq_false_iff_ne] at hmkc
            split at hf
            · rcases List.mem_append.mp hf with h | h
              · exact Or.inl h
              · exact Or.inr (Or.inl (List.mem_singleton.mp h))
            · rcases List.mem_append.mp hf with h | h
              · rcases List.mem_append.mp h with h1 | h1
                · exact Or.inl h1
                · exact Or.inr (Or.inl (List.mem_singleton.mp h1))
              · refine Or.inr (Or.inr ⟨parentOf dep.target_path,
                  strictUnder_src_parent hst, hmkc.2, List.mem_singleton.mp h⟩)
          · rcases List.mem_append.mp hf with h | h
            · exact Or.inl h
            · exact Or.inr (Or.inl (List.mem_singleton.mp h))
        · rw [if_neg hdt] at hf
          split at hf
          · next hmkc =>
            rw [Bool.and_eq_true, Bool.not_eq_true', beq_eq_false_iff_ne] at hmkc
            split at hf
            · rcases List.mem_append.mp hf with h | h
              · exact Or.inl h
              · exact Or.inr (Or.inl (List.mem_singleton.mp h))
            · rcases List.mem_append.mp hf with h | h
              · rcases List.mem_append.mp h with h1 | h1
                · exact Or.inl h1
                · exact Or.inr (Or.inl (List.mem_singleton.mp h1))
              · refine Or.inr (Or.inr ⟨parentOf dep.target_path,
                  strictUnder_src_parent hst, hmkc.2, List.mem_singleton.mp h⟩)
          · rcases List.mem_append.mp hf with h | h
            · exact Or.inl h
            · exact Or.inr (Or.inl (List.mem_singleton.mp h))
      · split at hf
        · -- dir branch
          split at hf
          · exact Or.inl hf
          · by_cases hext : (st.fs.mkdirp (parentOf dep.target_path)).existsAt
                dep.target_path = true
            · rw [if_pos hext] at hf
              split at hf
              · rcases List.mem_append.mp hf with h | h
                · exact Or.inl h
                · rcases chainfold_tracked_sub _ _ _ _ h with h1 | h1
                  · rcases ct_tracked_sub ctx _ _ _ f h1 with ⟨d, hd, hfd⟩
                    rcases hmk_of_ct d hd with ⟨p', hp1, hp2, hp3⟩
                    exact Or.inr (Or.inr ⟨p', hp1, hp2, hfd.trans hp3⟩)
                  · rcases h1 with ⟨p, hp, hfp⟩
                    rcases hmk_of_chain p hp with ⟨p', hp1, hp2, hp3⟩
                    exact Or.inr (Or.inr ⟨p', hp1, hp2, hfp.trans hp3⟩)
              · rcases List.mem_append.mp hf with h | h
                · exact Or.inl h
                · rcases ct_tracked_sub ctx _ _ _ f h with ⟨d, hd, hfd⟩
                  rcases hmk_of_ct d hd with ⟨p', hp1, hp2, hp3⟩
                  exact Or.inr (Or.inr ⟨p', hp1, hp2, hfd.trans hp3⟩)
            · rw [if_neg hext] at hf
              split at hf
              · rcases List.mem_append.mp hf with h | h
                · exact Or.inl h
                · rcases chainfold_tracked_sub _ _ _ _ h with h1 | h1
                  · rcases ct_tracked_sub ctx _ _ _ f h1 with ⟨d, hd, hfd⟩
                    rcases hmk_of_ct d hd with ⟨p', hp1, hp2, hp3⟩
                    exact Or.inr (Or.inr ⟨p', hp1, hp2, hfd.trans hp3⟩)
                  · rcases h1 with ⟨p, hp, hfp⟩
                    rcases hmk_of_chain p hp with ⟨p', hp1, hp2, hp3⟩
                    exact Or.inr (Or.inr ⟨p', hp1, hp2, hfp.trans hp3⟩)
              · rcases List.mem_append.mp hf with h | h
                · exact Or.inl h
                · rcases ct_tracked_sub ctx _ _ _ f h with ⟨d, hd, hfd⟩
                  rcases hmk_of_ct d hd with ⟨p', hp1, hp2, hp3⟩
                  exact Or.inr (Or.inr ⟨p', hp1, hp2, hfd.trans hp3⟩)
        · exact Or.inl hf

theorem copy_dependency_dirs_sub (ctx : ManagerCtx) (st : BuildState)
    (dep : ExternalDependency) (d : Path)
    (hd : d ∈ (copy_dependency ctx st dep).copied_dirs) :
    d ∈ st.copied_dirs ∨ d = dep.target_path := by
  unfold copy_dependency at hd
  simp only [] at hd
  repeat' split at hd
  all_goals
    first
      | exact Or.inl hd
      | (rcases List.mem_append.mp hd with h | h
         · exact Or.inl h
         · exact Or.inr (List.mem_singleton.mp h))

theorem copy_dependency_files_mono (ctx : ManagerCtx) (st : BuildState)
    (dep : ExternalDependency) (f : Path) (hf : f ∈ st.copied_files) :
    f ∈ (copy_dependency ctx st dep).copied_files := by
  unfold copy_dependency
  simp only []
  repeat' split
  all_goals
    first
      | exact hf
      | exact List.mem_append_left _ hf
      | exact List.mem_append_left _ (List.mem_append_left _ hf)

theorem stage_all_files_mono (ctx : ManagerCtx) (L : List ExternalDependency) :
    ∀ (st : BuildState) (f : Path), f ∈ st.copied_files →
    f ∈ (stage_all ctx L st).copied_files := by
  induction L with
  | nil => intro st f hf; exact hf
  | cons d rest ih =>
    intro st f hf
    exact ih (copy_dependency ctx st d) f (copy_dependency_files_mono ctx st d f hf)

theorem stage_all_files_sub (ctx : ManagerCtx) (L : List ExternalDependency) :
    ∀ (st : BuildState), (∀ dep ∈ L, Stageable ctx dep) →
    ∀ f ∈ (stage_all ctx L st).copied_files,
    f ∈ st.copied_files ∨ (∃ dep ∈ L, f = dep.target_path)
      ∨ ∃ p, ctx.src_dir <+: p ∧ p ≠ ctx.src_dir ∧ f = p ++ [initName] := by
  induction L with
  | nil => intro st _ f hf; exact Or.inl hf
  | cons d rest ih =>
    intro st hgood f hf
    rcases ih (copy_dependency ctx st d)
        (fun x hx => hgood x (List.mem_cons_of_mem _ hx)) f hf with h | h | h
    · rcases copy_dependency_files_sub ctx st d
          (hgood d (List.mem_cons_self _ _)).1 f h with h1 | h1 | h1
      · exact Or.inl h1
      · exact Or.inr (Or.inl ⟨d, List.mem_cons_self _ _, h1⟩)
      · exact Or.inr (Or.inr h1)
    · rcases h with ⟨dep, hdep, hfd⟩
      exact Or.inr (Or.inl ⟨dep, List.mem_cons_of_mem _ hdep, hfd⟩)
    · exact Or.inr (Or.inr h)

theorem stage_all_dirs_sub (ctx : ManagerCtx) (L : List ExternalDependency) :
    ∀ (st : BuildState), ∀ d ∈ (stage_all ctx L st).copied_dirs,
    d ∈ st.copied_dirs ∨ ∃ dep ∈ L, d = dep.target_path := by
  induction L with
  | nil => intro st d hd; exact Or.inl hd
  | cons x rest ih =>
    intro st d hd
    rcases ih (copy_dependency ctx st x) d hd with h | h
    · rcases copy_dependency_dirs_sub ctx st x d h with h1 | h1
      · exact Or.inl h1
      · exact Or.inr ⟨x, List.mem_cons_self _ _, h1⟩
    · rcases h with ⟨dep, hdep, hdd⟩
      exact Or.inr ⟨dep, List.mem_cons_of_mem _ hdep, hdd⟩

theorem mkdirp_isFile_false (fs : FS) (p : Path) {q : Path}
    (h : fs.isFile q = false) : (fs.mkdirp p).isFile q = false := by
  rw [FS.isFile_eq_false_iff] at h ⊢
  intro c hc
  rw [FS.find_mkdirp] at hc
  by_cases h0 : q <+: p ∧ fs.find q = none
  · rw [if_pos h0] at hc
    exact Node.noConfusion (Option.some.inj hc)
  · rw [if_neg h0] at hc
    exact h c hc

/-- A staging run keeps the stored value at any already-present path that no
dependency targets (at or above) and that is not a potential marker path. -/
theorem stage_all_find_pres (ctx : ManagerCtx) (L : List ExternalDependency)
    (q : Path) :
    ∀ (st : BuildState), KeyNodup st.fs →
    (∀ dep ∈ L, Stageable ctx dep) →
    (∀ dep ∈ L, ¬ dep.target_path <+: q) →
    (∀ p, p ≠ ctx.src_dir → q ≠ p ++ [initName]) →
    st.fs.find q ≠ none →
    (stage_all ctx L st).fs.find q = st.fs.find q := by
  induction L with
  | nil => intro st _ _ _ _ _; rfl
  | cons d rest ih =>
    intro st hnd hgood htgt hmark hne
    show (stage_all ctx rest (copy_dependency ctx st d)).fs.find q = st.fs.find q
    have hstep : (copy_dependency ctx st d).fs.find q = st.fs.find q := by
      rcases copy_dependency_find_cases ctx st d hnd
          (hgood d (List.mem_cons_self _ _)).1 q (htgt d (List.mem_cons_self _ _))
          (fun p _ hpne _ _ h0 => hmark p hpne h0) with h | h
      · exact h
      · rw [h, FS.find_mkdirp, if_neg (fun hc => hne hc.2)]
    rw [← hstep]
    exact ih (copy_dependency ctx st d) (keyNodup_copy_dependency ctx st d hnd)
      (fun x hx => hgood x (List.mem_cons_of_mem _ hx))
      (fun x hx => htgt x (List.mem_cons_of_mem _ hx)) hmark
      (by rw [hstep]; exact hne)

/-- A staging run creates no regular file at a path that no dependency
targets (at or above) and that is not a potential marker path. -/
theorem stage_all_isFile_false_pres (ctx : ManagerCtx)
    (L : List ExternalDependency) (q : Path) :
    ∀ (st : BuildState), KeyNodup st.fs →
    (∀ dep ∈ L, Stageable ctx dep) →
    (∀ dep ∈ L, ¬ dep.target_path <+: q) →
    (∀ p, p ≠ ctx.src_dir → q ≠ p ++ [initName]) →
    st.fs.isFile q = false →
    (stage_all ctx L st).fs.isFile q = false := by
  induction L with
  | nil => intro st _ _ _ _ h; exact h
  | cons d rest ih =>
    intro st hnd hgood htgt hmark hq
    show (stage_all ctx rest (copy_dependency ctx st d)).fs.isFile q = false
    have hstep : (copy_dependency ctx st d).fs.isFile q = false := by
      rcases copy_dependency_find_cases ctx st d hnd
          (hgood d (List.mem_cons_self _ _)).1 q (htgt d (List.mem_cons_self _ _))
          (fun p _ hpne _ _ h0 => hmark p hpne h0) with h | h
      · unfold FS.isFile at hq ⊢
        rw [h]
        exact hq
      · unfold FS.isFile at hq ⊢
        rw [h]
        exact mkdirp_isFile_false st.fs (parentOf d.target_path) hq
    exact ih (copy_dependency ctx st d) (keyNodup_copy_dependency ctx st d hnd)
      (fun x hx => hgood x (List.mem_cons_of_mem _ hx))
      (fun x hx => htgt x (List.mem_cons_of_mem _ hx)) hmark hstep

set_option maxHeartbeats 2000000 in
/-- Processing a dependency with a fresh target either tracks the target in
`copied_files` (the file-copy case) or leaves no regular file at the target
(directory staged, source missing, or source neither file nor directory). -/
theorem copy_dependency_target_cases (ctx : ManagerCtx) (st : BuildState)
    (dep : ExternalDependency) (hnd : KeyNodup st.fs)
    (hst : strictUnder ctx.src_dir dep.target_path = true)
    (hini : initName ∉ dep.target_path)
    (hfresh : ∀ r, dep.target_path <+: r → st.fs.find r = none) :
    dep.target_path ∈ (copy_dependency ctx st dep).copied_files
      ∨ (copy_dependency ctx st dep).fs.isFile dep.target_path = false := by
  have hfreshm : ∀ r, dep.target_path <+: r →
      (st.fs.mkdirp (parentOf dep.target_path)).find r = none := by
    intro r hr
    have hparlen : (parentOf dep.target_path).length = dep.target_path.length - 1 :=
      List.length_dropLast _
    have htlen := strictUnder_length hst
    rw [mkdirp_find_not_under st.fs (fun hc : r <+: parentOf dep.target_path => by
      have h1 := hr.length_le
      have h2 := hc.length_le
      omega)]
    exact hfresh r hr
  have hexTf : (st.fs.mkdirp (parentOf dep.target_path)).existsAt dep.target_path
      = false :=
    (FS.existsAt_eq_false_iff _ _).mpr (hfreshm _ List.prefix_rfl)
  have hisfalse : ∀ g : FS, g.find dep.target_path = none →
      g.isFile dep.target_path = false := by
    intro g hg
    unfold FS.isFile
    rw [hg]
  have hq_markers : ∀ p ∈ chain_parents ctx.src_dir dep.target_path,
      dep.target_path ≠ p ++ [initName] :=
    fun p _ h0 =>
      hini (h0 ▸ List.mem_append_right _ (List.mem_singleton.mpr rfl))
  unfold copy_dependency
  simp only []
  split
  · right
    exact hisfalse st.fs (hfresh _ List.prefix_rfl)
  · split
    · next hsk =>
      exfalso
      rw [hexTf, Bool.false_and] at hsk
      exact Bool.noConfusion hsk
    · split
      · -- file branch: target is tracked in every sub-result
        by_cases hdt : (st.fs.mkdirp (parentOf dep.target_path)).isDir
            dep.target_path = true
        · rw [if_pos hdt]
          split
          · split
            · exact Or.inl (List.mem_append_right _ (List.mem_singleton.mpr rfl))
            · exact Or.inl (List.mem_append_left _
                (List.mem_append_right _ (List.mem_singleton.mpr rfl)))
          · exact Or.inl (List.mem_append_right _ (List.mem_singleton.mpr rfl))
        · rw [if_neg hdt]
          split
          · split
            · exact Or.inl (List.mem_append_right _ (List.mem_singleton.mpr rfl))
            · exact Or.inl (List.mem_append_left _
                (List.mem_append_right _ (List.mem_singleton.mpr rfl)))
          · exact Or.inl (List.mem_append_right _ (List.mem_singleton.mpr rfl))
      · split
        · -- dir branch: the target ends up a directory
          split
          · next hab =>
            exfalso
            rw [hexTf, Bool.false_and] at hab
            exact Bool.noConfusion hab
          · rw [if_neg (show ¬ ((st.fs.mkdirp (parentOf dep.target_path)).existsAt
                dep.target_path = true) from by
              rw [hexTf]; exact fun h => Bool.noConfusion h)]
            have hndm : KeyNodup (st.fs.mkdirp (parentOf dep.target_path)) :=
              keyNodup_mkdirp st.fs _ hnd
            have hctT : (copytree_excluding ctx
                (st.fs.mkdirp (parentOf dep.target_path))
                dep.source_path dep.target_path).1.find dep.target_path
                = some Node.dir := by
              rw [ct_find_char ctx _ hndm dep.source_path dep.target_path,
                ctFindSpec_self, if_pos (hfreshm _ List.prefix_rfl)]
            split
            · right
              show (apply_chain_inits _ _ ctx.src_dir dep.target_path).1.isFile
                dep.target_path = false
              unfold FS.isFile
              rw [apply_chain_find_frame _ _ _ _ _ hq_markers, hctT]
            · right
              show (copytree_excluding ctx (st.fs.mkdirp (parentOf dep.target_path))
                dep.source_path dep.target_path).1.isFile dep.target_path = false
              unfold FS.isFile
              rw [hctT]
        · right
          exact hisfalse _ (hfreshm _ List.prefix_rfl)

/-- After a staging run over fresh, pairwise-incomparable targets, every
dependency's target is either tracked in `copied_files` or carries no regular
file. -/
theorem stage_all_target_cases (ctx : ManagerCtx) (L : List ExternalDependency) :
    ∀ (st0 : BuildState), KeyNodup st0.fs →
    (∀ dep ∈ L, Stageable ctx dep) →
    L.Pairwise (fun d d' => ¬ d.target_path <+: d'.target_path
      ∧ ¬ d'.target_path <+: d.target_path) →
    (∀ dep ∈ L, ∀ r, dep.target_path <+: r → st0.fs.find r = none) →
    ∀ dep ∈ L, dep.target_path ∈ (stage_all ctx L st0).copied_files
      ∨ (stage_all ctx L st0).fs.isFile dep.target_path = false := by
  induction L with
  | nil => intro st0 _ _ _ _ dep hdep; exact absurd hdep (List.not_mem_nil dep)
  | cons d rest ih =>
    intro st0 hnd hgood hpair hfresh dep hdep
    rw [List.pairwise_cons] at hpair
    show dep.target_path ∈ (stage_all ctx rest (copy_dependency ctx st0 d)).copied_files
      ∨ (stage_all ctx rest (copy_dependency ctx st0 d)).fs.isFile dep.target_path
        = false
    obtain ⟨hstd, hsrc1d, hsrc2d, hinid⟩ := hgood d (List.mem_cons_self _ _)
    rcases List.mem_cons.mp hdep with rfl | hdep'
    · rcases copy_dependency_target_cases ctx st0 dep hnd hstd hinid
          (hfresh dep (List.mem_cons_self _ _)) with h | h
      · exact Or.inl (stage_all_files_mono ctx rest _ _ h)
      · refine Or.inr (stage_all_isFile_false_pres ctx rest dep.target_path
          (copy_dependency ctx st0 dep)
          (keyNodup_copy_dependency ctx st0 dep hnd)
          (fun x hx => hgood x (List.mem_cons_of_mem _ hx)) ?_ ?_ h)
        · intro x hx hc
          exact (hpair.1 x hx).2 hc
        · intro p _ h0
          exact hinid (h0 ▸ List.mem_append_right _ (List.mem_singleton.mpr rfl))
    · refine ih (copy_dependency ctx st0 d)
        (keyNodup_copy_dependency ctx st0 d hnd)
        (fun x hx => hgood x (List.mem_cons_of_mem _ hx)) hpair.2 ?_ dep hdep'
      intro x hx r hr
      obtain ⟨hx1, hx2⟩ := hpair.1 x hx
      obtain ⟨_, _, _, hinix⟩ := hgood x (List.mem_cons_of_mem _ hx)
      exact copy_dependency_fresh_pres ctx st0 x d hnd hstd hinix
        (fun hc => hx2 hc) (fun hc => hx1 hc)
        (hfresh x (List.mem_cons_of_mem _ hx)) r hr

theorem removalStep_keyNodup {α : Type} {step : FS → α → FS} (h : RemovalStep step)
    (fs : FS) (x : α) (hnd : KeyNodup fs) : KeyNodup (step fs x) := by
  rcases h fs x with he | ⟨p, he⟩ | ⟨p, he⟩ <;> rw [he]
  · exact hnd
  · exact keyNodup_rmtree fs p hnd
  · exact keyNodup_removeAll fs p hnd

theorem foldl_removal_keyNodup {α : Type} {step : FS → α → FS} (h : RemovalStep step)
    (L : List α) : ∀ fs : FS, KeyNodup fs → KeyNodup (L.foldl step fs) := by
  induction L with
  | nil => intro fs hnd; exact hnd
  | cons x rest ih =>
    intro fs hnd
    rw [List.foldl_cons]
    exact ih _ (removalStep_keyNodup h fs x hnd)

theorem keyNodup_egg_pass (fs : FS) (root : Path) (hnd : KeyNodup fs) :
    KeyNodup (egg_pass fs root) := by
  unfold egg_pass
  by_cases h1 : (!(fs.existsAt root)) = true
  · rw [if_pos h1]; exact hnd
  · rw [if_neg h1]
    exact foldl_removal_keyNodup removalStep_egg _ fs hnd

theorem keyNodup_cleanup_egg (ctx : ManagerCtx) (fs : FS) (hnd : KeyNodup fs) :
    KeyNodup (cleanup_egg_info_dirs ctx fs) := by
  rw [cleanup_egg_unfold]
  exact keyNodup_egg_pass _ _ (keyNodup_egg_pass _ _ hnd)

/-- A pass of the egg-info sweep keeps a regular file whose strict ancestors
are never visited (every visited path standing at or above the file is the
file itself, where the `is_dir()` guard skips it). -/
theorem eggfold_file_pres (cands : List Path) (q : Path) (c : Seg) :
    ∀ fs : FS, (∀ e ∈ cands, e <+: q → e = q) →
    fs.find q = some (Node.file c) →
    ((cands.foldl (fun b x => if b.isDir x then b.rmtree x else b) fs)).find q
      = some (Node.file c) := by
  induction cands with
  | nil => intro fs _ hq; exact hq
  | cons e rest ih =>
    intro fs h hq
    rw [List.foldl_cons]
    refine ih _ (fun z hz => h z (List.mem_cons_of_mem _ hz)) ?_
    by_cases h1 : fs.isDir e = true
    · rw [if_pos h1]
      by_cases h2 : e <+: q
      · exfalso
        have he := h e (List.mem_cons_self _ _) h2
        rw [he, FS.isDir_iff] at h1
        rw [hq] at h1
        exact Node.noConfusion (Option.some.inj h1)
      · rw [FS.find_rmtree, if_neg h2]
        exact hq
    · rw [if_neg h1]
      exact hq

theorem egg_pass_file_pres (fs : FS) (root q : Path) (c : Seg)
    (h : ∀ e, segEndsWith (nameOf e) eggInfoSuffix = true → e <+: q → e = q)
    (hq : fs.find q = some (Node.file c)) :
    (egg_pass fs root).find q = some (Node.file c) := by
  unfold egg_pass
  by_cases h1 : (!(fs.existsAt root)) = true
  · rw [if_pos h1]; exact hq
  · rw [if_neg h1]
    exact eggfold_file_pres _ q c fs
      (fun e he => h e (mem_egg_candidates he).2) hq

theorem egg_phase_file_pres (ctx : ManagerCtx) (fs : FS) (q : Path) (c : Seg)
    (h : ∀ e, segEndsWith (nameOf e) eggInfoSuffix = true → e <+: q → e = q)
    (hq : fs.find q = some (Node.file c)) :
    (cleanup_egg_info_dirs ctx fs).find q = some (Node.file c) := by
  rw [cleanup_egg_unfold]
  exact egg_pass_file_pres _ _ _ c h (egg_pass_file_pres _ _ _ c h hq)

theorem emptyfold_frame_ne (src : Path) (dirs : List Path) (q : Path) :
    ∀ fs : FS, (∀ d ∈ dirs, d ≠ q) →
    ((dirs.foldl (fun a d =>
        if d = src then a
        else if a.existsAt d && !(a.hasDesc d) then a.removeAll d
        else a) fs)).find q = fs.find q := by
  induction dirs with
  | nil => intro fs _; rfl
  | cons d rest ih =>
    intro fs h
    rw [List.foldl_cons]
    have hstep : ((if d = src then fs
        else if fs.existsAt d && !(fs.hasDesc d) then fs.removeAll d
        else fs)).find q = fs.find q := by
      by_cases h1 : d = src
      · rw [if_pos h1]
      · rw [if_neg h1]
        by_cases h2 : (fs.existsAt d && !(fs.hasDesc d)) = true
        · rw [if_pos h2, FS.find_removeAll,
            if_neg (fun hc : q = d => h d (List.mem_cons_self _ _) hc.symm)]
        · rw [if_neg h2]
    rw [ih _ (fun z hz => h z (List.mem_cons_of_mem _ hz)), hstep]

/-- The empty-directory sweep keeps a regular file: under key uniqueness the
file's path never enters the directory snapshot, so no visit hits it. -/
theorem cleanup_empty_file_pres (ctx : ManagerCtx) (fs : FS) (hnd : KeyNodup fs)
    (q : Path) (c : Seg) (hq : fs.find q = some (Node.file c)) :
    (cleanup_empty_dirs ctx fs).find q = some (Node.file c) := by
  unfold cleanup_empty_dirs
  by_cases hg : (!(fs.existsAt ctx.src_dir)) = true
  · rw [if_pos hg]; exact hq
  · rw [if_neg hg]
    simp only []
    rw [emptyfold_frame_ne ctx.src_dir _ q fs ?_]
    · exact hq
    · intro d hd
      rw [mem_sortLenDesc] at hd
      rw [List.mem_filterMap] at hd
      rcases hd with ⟨e, hemem, hge⟩
      rcases e with ⟨p0, n0⟩
      cases n0 with
      | file c0 => exact Option.noConfusion (show (none : Option Path) = some d from hge)
      | dir =>
        intro hdq
        have hge' : (if strictUnder ctx.src_dir p0 then some p0 else none) = some d := hge
        split at hge'
        · have hp0 : p0 = d := Option.some.inj hge'
          rw [hp0, hdq] at hemem
          have hfd := (find_some_iff_mem fs hnd q Node.dir).mpr hemem
          rw [hq] at hfd
          exact Node.noConfusion (Option.some.inj hfd)
        · exact Option.noConfusion hge'

/-- Each cleanup phase only ever removes entries: a lookup keeps its value or
becomes absent. -/
theorem cleanup_find_cases (ctx : ManagerCtx) (st : BuildState) (q : Path) :
    (cleanup ctx st).fs.find q = st.fs.find q
      ∨ (cleanup ctx st).fs.find q = none := by
  unfold cleanup
  simp only []
  set fsA := st.copied_dirs.reverse.foldl
    (fun a d => if a.existsAt d then (if a.isDir d then a.rmtree d else a) else a)
    st.fs with hfsA
  set fsB := st.copied_files.foldl
    (fun a f => if a.existsAt f then (if a.isFile f then a.removeAll f else a) else a)
    fsA with hfsB
  have hA := foldl_removal_find removalStep_phaseA st.copied_dirs.reverse st.fs q
  have hB := foldl_removal_find removalStep_phaseB st.copied_files fsA q
  have hC := cleanup_egg_find_cases ctx fsB q
  have hD := cleanup_empty_find_cases ctx (cleanup_egg_info_dirs ctx fsB) q
  rw [← hfsA] at hA
  rw [← hfsB] at hB
  rcases hD with hD | hD
  · rw [hD]
    rcases hC with hC | hC
    · rw [hC]
      rcases hB with hB | hB
      · rw [hB]; exact hA
      · right; exact hB
    · right; exact hC
  · right; exact hD

theorem cleanup_isFile_false_pres (ctx : ManagerCtx) (st : BuildState) (q : Path)
    (h : st.fs.isFile q = false) : (cleanup ctx st).fs.isFile q = false := by
  rw [FS.isFile_eq_false_iff] at h ⊢
  intro c
  rcases cleanup_find_cases ctx st q with hh | hh
  · rw [hh]; exact h c
  · rw [hh]; simp

/-- Cleanup keeps a regular file that no tracked directory stands at or
above, that no tracked file equals, and whose strict ancestors are never
egg-info-named. -/
theorem cleanup_keeps_file (ctx : ManagerCtx) (st : BuildState) (q : Path)
    (c : Seg) (hnd : KeyNodup st.fs)
    (hdirs : ∀ d ∈ st.copied_dirs, ¬ d <+: q)
    (hfiles : ∀ f ∈ st.copied_files, f ≠ q)
    (hegg : ∀ e, segEndsWith (nameOf e) eggInfoSuffix = true → e <+: q → e = q)
    (hq : st.fs.find q = some (Node.file c)) :
    (cleanup ctx st).fs.find q = some (Node.file c) := by
  unfold cleanup
  simp only []
  set fsA := st.copied_dirs.reverse.foldl
    (fun a d => if a.existsAt d then (if a.isDir d then a.rmtree d else a) else a)
    st.fs with hfsA
  set fsB := st.copied_files.foldl
    (fun a f => if a.existsAt f then (if a.isFile f then a.removeAll f else a) else a)
    fsA with hfsB
  have hA : fsA.find q = some (Node.file c) := by
    rw [hfsA, phaseA_frame st.copied_dirs.reverse st.fs q
      (fun d hd => hdirs d (List.mem_reverse.mp hd))]
    exact hq
  have hB : fsB.find q = some (Node.file c) := by
    rw [hfsB, phaseB_frame st.copied_files fsA q hfiles]
    exact hA
  have hndB : KeyNodup fsB := by
    rw [hfsB, hfsA]
    exact foldl_removal_keyNodup removalStep_phaseB _ _
      (foldl_removal_keyNodup removalStep_phaseA _ _ hnd)
  exact cleanup_empty_file_pres ctx _ (keyNodup_cleanup_egg ctx fsB hndB) q c
    (egg_phase_file_pres ctx fsB q c hegg hB)

/-- C2 counterexample: the claim fails for a session whose staging target is
a pre-existing direct child of the source root.  `/proj/src/x.py` exists
before staging, `_copy_dependency` overwrites it and records it as a tracked
copy, and cleanup then unlinks it — a file that existed before staging is
missing afterwards. -/
theorem C2_counterexample :
    stClobberW.fs.isFile (srcW ++ [str ("x.py")]) = true
      ∧ (cleanup mctxW (stage_all mctxW [depClobberW] stClobberW)).fs.isFile
          (srcW ++ [str ("x.py")]) = false := by
  decide

set_option maxHeartbeats 2000000 in
/-- C2 (amended): for a fresh staging session — empty tracking lists, every
dependency Stageable, pairwise path-incomparable targets, no target standing
at or above any pre-existing entry, and no egg-info-named path at or above
the source root — running cleanup after `stage_all` restores the source
root's direct-descendant regular-file set exactly: every pre-existing direct
child file survives with the same status, and no synthesized marker or
staged file remains a direct child. -/
theorem C2_amended (ctx : ManagerCtx) (L : List ExternalDependency)
    (st0 : BuildState) (hnd : KeyNodup st0.fs)
    (hef : st0.copied_files = []) (hed : st0.copied_dirs = [])
    (hgood : ∀ dep ∈ L, Stageable ctx dep)
    (hpair : L.Pairwise (fun d d' => ¬ d.target_path <+: d'.target_path
      ∧ ¬ d'.target_path <+: d.target_path))
    (hfresh : ∀ dep ∈ L, ∀ e ∈ st0.fs.entries, ¬ dep.target_path <+: e.1)
    (hnoegg : ∀ p ∈ (List.range (ctx.src_dir.length + 1)).map
        (fun n => ctx.src_dir.take n),
      segEndsWith (nameOf p) eggInfoSuffix = false) :
    ∀ x : Seg,
      (cleanup ctx (stage_all ctx L st0)).fs.isFile (ctx.src_dir ++ [x])
        = st0.fs.isFile (ctx.src_dir ++ [x]) := by
  intro x
  have hfreshF : ∀ dep ∈ L, ∀ r, dep.target_path <+: r → st0.fs.find r = none := by
    intro dep hdep r hr
    cases hv : st0.fs.find r with
    | none => rfl
    | some n => exact absurd hr (hfresh dep hdep (r, n) (findEntry_some_mem hv))
  have hmark : ∀ p, p ≠ ctx.src_dir → ctx.src_dir ++ [x] ≠ p ++ [initName] := by
    intro p hp h0
    exact hp ((List.append_inj' h0 rfl).1).symm
  have heggq : ∀ e, segEndsWith (nameOf e) eggInfoSuffix = true →
      e <+: ctx.src_dir ++ [x] → e = ctx.src_dir ++ [x] := by
    intro e hegg hpre
    rcases prefix_snoc_cases hpre with h1 | h1
    · exfalso
      have hz := hnoegg e ((mem_prefixList ctx.src_dir e).mpr h1)
      rw [hz] at hegg
      exact Bool.noConfusion hegg
    · exact h1
  cases hv : st0.fs.find (ctx.src_dir ++ [x]) with
  | some n =>
    have hqk : ∀ dep ∈ L, ¬ dep.target_path <+: ctx.src_dir ++ [x] := by
      intro dep hdep hc
      have hz := hfreshF dep hdep _ hc
      rw [hz] at hv
      exact Option.noConfusion hv
    have hS : (stage_all ctx L st0).fs.find (ctx.src_dir ++ [x])
        = st0.fs.find (ctx.src_dir ++ [x]) :=
      stage_all_find_pres ctx L (ctx.src_dir ++ [x]) st0 hnd hgood hqk hmark
        (by rw [hv]; exact fun h => Option.noConfusion h)
    cases n with
    | file c =>
      have hdirs : ∀ d ∈ (stage_all ctx L st0).copied_dirs,
          ¬ d <+: ctx.src_dir ++ [x] := by
        intro d hd
        rcases stage_all_dirs_sub ctx L st0 d hd with h1 | ⟨dep, hdep, rfl⟩
        · rw [hed] at h1; exact absurd h1 (List.not_mem_nil d)
        · exact hqk dep hdep
      have hfiles : ∀ f ∈ (stage_all ctx L st0).copied_files,
          f ≠ ctx.src_dir ++ [x] := by
        intro f hf
        rcases stage_all_files_sub ctx L st0 hgood f hf
          with h1 | ⟨dep, hdep, rfl⟩ | ⟨p, hp1, hp2, rfl⟩
        · rw [hef] at h1; exact absurd h1 (List.not_mem_nil f)
        · intro h0
          exact hqk dep hdep (h0 ▸ List.prefix_rfl)
        · intro h0
          exact hmark p hp2 h0.symm
      have hC := cleanup_keeps_file ctx (stage_all ctx L st0)
        (ctx.src_dir ++ [x]) c (keyNodup_stage_all ctx L st0 hnd)
        hdirs hfiles heggq (by rw [hS]; exact hv)
      unfold FS.isFile
      rw [hC, hv]
    | dir =>
      have hsf : (stage_all ctx L st0).fs.isFile (ctx.src_dir ++ [x]) = false := by
        unfold FS.isFile
        rw [hS, hv]
      have hcf := cleanup_isFile_false_pres ctx (stage_all ctx L st0) _ hsf
      rw [hcf]
      unfold FS.isFile
      rw [hv]
  | none =>
    have h0f : st0.fs.isFile (ctx.src_dir ++ [x]) = false := by
      unfold FS.isFile
      rw [hv]
    rw [h0f]
    by_cases htq : ∃ dep ∈ L, dep.target_path = ctx.src_dir ++ [x]
    · rcases htq with ⟨dep, hdep, hqt⟩
      rcases stage_all_target_cases ctx L st0 hnd hgood hpair hfreshF dep hdep
        with h | h
      · rw [hqt] at h
        exact (cleanup_clears_tracked ctx (stage_all ctx L st0)).2 _ h
      · rw [hqt] at h
        exact cleanup_isFile_false_pres ctx (stage_all ctx L st0) _ h
    · push_neg at htq
      have hqk : ∀ dep ∈ L, ¬ dep.target_path <+: ctx.src_dir ++ [x] := by
        intro dep hdep hc
        rcases prefix_snoc_cases hc with h1 | h1
        · have h2 := strictUnder_length (hgood dep hdep).1
          have h3 := h1.length_le
          omega
        · exact htq dep hdep h1
      have hsf : (stage_all ctx L st0).fs.isFile (ctx.src_dir ++ [x]) = false :=
        stage_all_isFile_false_pres ctx L (ctx.src_dir ++ [x]) st0 hnd hgood
          hqk hmark h0f
      exact cleanup_isFile_false_pres ctx (stage_all ctx L st0) _ hsf

/-- C2 witness: the amended restoration theorem instantiated at the concrete
fresh helper session, with every hypothesis discharged by evaluation. -/
theorem C2_witness :
    (KeyNodup stHelperW.fs
      ∧ stHelperW.copied_files = []
      ∧ stHelperW.copied_dirs = []
      ∧ (∀ dep ∈ [depHelperW], Stageable mctxW dep)
      ∧ [depHelperW].Pairwise (fun d d' => ¬ d.target_path <+: d'.target_path
          ∧ ¬ d'.target_path <+: d.target_path)
      ∧ (∀ dep ∈ [depHelperW], ∀ e ∈ stHelperW.fs.entries,
          ¬ dep.target_path <+: e.1)
      ∧ (∀ p ∈ (List.range (mctxW.src_dir.length + 1)).map
            (fun n => mctxW.src_dir.take n),
          segEndsWith (nameOf p) eggInfoSuffix = false))
    ∧ ∀ x : Seg,
        (cleanup mctxW (stage_all mctxW [depHelperW] stHelperW)).fs.isFile
            (mctxW.src_dir ++ [x])
          = stHelperW.fs.isFile (mctxW.src_dir ++ [x]) :=
  ⟨⟨by unfold KeyNodup; decide, rfl, rfl, by unfold Stageable; decide,
      by decide, by decide, by decide⟩,
    C2_amended mctxW [depHelperW] stHelperW (by unfold KeyNodup; decide) rfl rfl
      (by unfold Stageable; decide) (by decide) (by decide) (by decide)⟩

end PPF
